import Mathlib

/-!
# rate-limit-experiment: a verification development

A shallow embedding of `src/main.go`:

* `producer` (lines 43-54) as the sequence of channel operations it performs,
* `consumer` (lines 56-68) and `main` (lines 15-41) as goroutines of an
  interleaving transition system whose atomic steps are the channel
  rendezvous, the atomic counter update, the limiter acquisition and the log
  lines,
* the token bucket behind `limiter.Wait` as a timed replay over rational
  timestamps.

Go's `int` is taken at its 64-bit width and `atomic.Int32` at 32 bits; both
wrap around in two's complement.
-/

namespace RateLimit

/-! ## Machine integers -/

/-- Two's complement wrap-around of Go's `int` (64 bits). -/
def wrapInt (x : Int) : Int := (x + 2 ^ 63) % 2 ^ 64 - 2 ^ 63

/-- Two's complement wrap-around of `atomic.Int32`. -/
def wrapInt32 (x : Int) : Int := (x + 2 ^ 31) % 2 ^ 32 - 2 ^ 31

/-! ## The producer (lines 43-54) -/

/-- `const projectTotalAmount = 200` (line 11). -/
def projectTotalAmount : Int := 200

/-- An operation of the producer on `projectIdsChan`. -/
inductive ChanOp
  | send (projectIds : List Int)
  | close
  deriving DecidableEq, Repr

/-- The inner loop, lines 47-49:
`for projectId := i; projectId < i+10; projectId++ { projectIds = append(projectIds, projectId) }`.
`bound` is the value of `i+10`, `acc` the slice built so far. The loop body
runs at most ten times, whatever `i` is, so a fuel of ten never cuts it
short. -/
def fillBatch (bound : Int) : Nat → Int → List Int → List Int
  | 0, _, acc => acc
  | fuel + 1, projectId, acc =>
    if projectId < bound then
      fillBatch bound fuel (wrapInt (projectId + 1)) (acc ++ [projectId])
    else acc

/-- The outer loop, lines 45-52, from loop variable `i` on:
`for i := 0; i < total; i += 10 { ...; projectIdsChan <- projectIds }` followed
by `close(projectIdsChan)`. The result is `none` when the fuel runs out before
the loop condition fails. -/
def producerLoop (total : Int) : Nat → Int → Option (List ChanOp)
  | 0, _ => none
  | fuel + 1, i =>
    if i < total then
      (producerLoop total fuel (wrapInt (i + 10))).map
        (fun ops => ChanOp.send (fillBatch (wrapInt (i + 10)) 10 i []) :: ops)
    else some [ChanOp.close]

/-- The channel operations of `producer`, in program order, with the total
item count as a parameter (`projectTotalAmount` in the source). -/
def producer (total : Int) (fuel : Nat) : Option (List ChanOp) :=
  producerLoop total fuel 0

/-- The batches among a list of channel operations, in order. -/
def sentBatches : List ChanOp → List (List Int)
  | [] => []
  | ChanOp.send b :: ops => b :: sentBatches ops
  | ChanOp.close :: ops => sentBatches ops

/-- The number of items in the batches sent by a list of channel operations. -/
def pendingItems : List ChanOp → Nat
  | [] => 0
  | ChanOp.send b :: ops => b.length + pendingItems ops
  | ChanOp.close :: ops => pendingItems ops

/-- The batch `[10k, 10k+1, ..., 10k+9]`. -/
def decade (k : Nat) : List Int :=
  (List.range 10).map (fun (j : Nat) => 10 * (k : Int) + (j : Int))

/-- The channel operations of the program as compiled: `producer` run on
`projectTotalAmount`, with fuel for its twenty-one loop tests. -/
def programOps : List ChanOp :=
  (producer projectTotalAmount 21).getD []

/-! ## The limiter, untimed (line 24, line 60) -/

/-- Modelled from the spec: the outcome of one blocking acquisition on the
limiter of `golang.org/x/time/rate`, which `main.go` imports and whose code is
not part of the repository. The acquisition of `n` permits is refused when the
caller's context is cancelled (spec 4.1, CancellationError) or when `n` exceeds
the capacity of the bucket, which no wait could ever supply; otherwise it
blocks until the permits are there and succeeds. The result is `true` on
success. -/
def limiterWait (burst n : Nat) (ctxDone : Bool) : Bool :=
  !ctxDone && decide (n ≤ burst)

/-! ## The goroutines (lines 15-41 and 56-68) -/

/-- What the program does that another goroutine or an observer can see. Worker
`w` is the goroutine started by the `w+1`-st `go consumer(...)`. -/
inductive Event
  | logConsumerLaunched (id : Nat)
  | logProducerLaunched
  | sent (w : Nat) (projectIds : List Int)
  | closed
  | logProducerDone
  | acquire (w : Nat) (ok : Bool)
  | add (w : Nat) (currentCount : Int)
  | logProcessed (currentCount : Int)
  | done (w : Nat)
  | logDoneReceived (id : Nat)
  | load (totalProjects : Int)
  | logSummary (totalProjects : Int)
  deriving DecidableEq, Repr

/-- Where `main` stands. -/
inductive MainPc
  /-- Lines 27-31: about to test `id <= consumerCount` in the launching loop. -/
  | spawn (id : Nat)
  /-- Lines 33-34: about to test `id <= consumerCount` and receive from `done`. -/
  | await (id : Nat)
  /-- Line 35, after the receive. -/
  | logDone (id : Nat)
  /-- Lines 39-40, after `totalProjectsProcessed.Load()` returned `totalProjects`. -/
  | report (totalProjects : Int)
  /-- After `main` returned: the process is over. -/
  | exited
  deriving DecidableEq, Repr

/-- Where `producer` stands. -/
inductive ProducerPc
  | notStarted
  /-- Line 44. -/
  | launched
  /-- Lines 45-53, with the channel operations still to perform. -/
  | running (ops : List ChanOp)
  | exited
  deriving DecidableEq, Repr

/-- Where a `consumer` stands. -/
inductive WorkerPc
  /-- Line 57. -/
  | launched
  /-- Line 58: at the receive of `range projectIdsChan`. -/
  | recv
  /-- Line 59: at the head of the loop over the items of the batch still to
  process. -/
  | item (rest : List Int)
  /-- Line 61: `limiter.Wait` has returned, `Add(1)` is next. -/
  | acquired (rest : List Int)
  /-- Line 62: `Add(1)` returned `currentCount`. -/
  | counted (currentCount : Int) (rest : List Int)
  /-- Line 67: at the send on `done`. -/
  | finish
  | exited
  deriving DecidableEq, Repr

/-- The parameters of a run: `consumerCount` (line 20), which is also the burst
of the limiter (line 24), and the channel operations of the producer. -/
structure Config where
  consumerCount : Nat
  ops : List ChanOp
  deriving Repr

/-- A state of the program. `closed` is the state of `projectIdsChan`,
`counter` the value of `totalProjectsProcessed`; both channels are unbuffered
(lines 18-19), so they hold nothing. `trace` is the history of events, the
latest first. -/
structure State where
  main : MainPc
  producer : ProducerPc
  workers : List WorkerPc
  closed : Bool
  counter : Int
  trace : List Event
  deriving Repr

/-- Who moves next: a goroutine on its own, or the two parties of a rendezvous
on an unbuffered channel. -/
inductive Action
  | main
  | producer
  | worker (w : Nat)
  /-- The producer's send on `projectIdsChan` meets worker `w`'s receive. -/
  | send (w : Nat)
  /-- Worker `w`'s send on `done` meets the receive of `main`. -/
  | done (w : Nat)
  deriving DecidableEq, Repr

/-- Line 62: `currentCount < 10 || currentCount%5 == 0`. -/
def isMilestone (currentCount : Int) : Bool :=
  decide (currentCount < 10) || decide (Int.tmod currentCount 5 = 0)

/-- The state at the first statement of `main`. -/
def init : State :=
  { main := MainPc.spawn 1, producer := ProducerPc.notStarted, workers := [],
    closed := false, counter := 0, trace := [] }

/-- The step of `main` on its own. -/
def stepMain (cfg : Config) (s : State) : Option State :=
  match s.main with
  | MainPc.spawn id =>
    if id ≤ cfg.consumerCount then
      some { s with main := MainPc.spawn (id + 1), workers := s.workers ++ [WorkerPc.launched] }
    else
      some { s with main := MainPc.await 1, producer := ProducerPc.launched }
  | MainPc.await id =>
    if id ≤ cfg.consumerCount then none
    else some { s with main := MainPc.report s.counter, trace := Event.load s.counter :: s.trace }
  | MainPc.logDone id =>
    some { s with main := MainPc.await (id + 1), trace := Event.logDoneReceived id :: s.trace }
  | MainPc.report v =>
    some { s with main := MainPc.exited, trace := Event.logSummary v :: s.trace }
  | MainPc.exited => none

/-- The step of `producer` on its own. Closing a closed channel panics. -/
def stepProducer (cfg : Config) (s : State) : Option State :=
  match s.producer with
  | ProducerPc.launched =>
    some { s with producer := ProducerPc.running cfg.ops,
                  trace := Event.logProducerLaunched :: s.trace }
  | ProducerPc.running (ChanOp.close :: ops) =>
    if s.closed then none
    else some { s with producer := ProducerPc.running ops, closed := true,
                       trace := Event.closed :: s.trace }
  | ProducerPc.running [] =>
    some { s with producer := ProducerPc.exited, trace := Event.logProducerDone :: s.trace }
  | _ => none

/-- The step of worker `w` on its own, from where it stands. -/
def stepWorker (cfg : Config) (s : State) (w : Nat) : Option State :=
  match s.workers[w]? with
  | some WorkerPc.launched =>
    some { s with workers := s.workers.set w WorkerPc.recv,
                  trace := Event.logConsumerLaunched (w + 1) :: s.trace }
  | some WorkerPc.recv =>
    if s.closed then some { s with workers := s.workers.set w WorkerPc.finish } else none
  | some (WorkerPc.item []) =>
    some { s with workers := s.workers.set w WorkerPc.recv }
  | some (WorkerPc.item (_ :: rest)) =>
    some { s with workers := s.workers.set w (WorkerPc.acquired rest),
                  trace := Event.acquire w (limiterWait cfg.consumerCount 1 false) :: s.trace }
  | some (WorkerPc.acquired rest) =>
    some { s with workers := s.workers.set w (WorkerPc.counted (wrapInt32 (s.counter + 1)) rest),
                  counter := wrapInt32 (s.counter + 1),
                  trace := Event.add w (wrapInt32 (s.counter + 1)) :: s.trace }
  | some (WorkerPc.counted currentCount rest) =>
    some { s with workers := s.workers.set w (WorkerPc.item rest),
                  trace := if isMilestone currentCount then
                             Event.logProcessed currentCount :: s.trace
                           else s.trace }
  | _ => none

/-- The rendezvous of line 50 with line 58. Sending on a closed channel
panics. -/
def stepSend (s : State) (w : Nat) : Option State :=
  match s.producer, s.workers[w]? with
  | ProducerPc.running (ChanOp.send b :: ops), some WorkerPc.recv =>
    if s.closed then none
    else some { s with producer := ProducerPc.running ops,
                       workers := s.workers.set w (WorkerPc.item b),
                       trace := Event.sent w b :: s.trace }
  | _, _ => none

/-- The rendezvous of line 67 with line 34. -/
def stepDone (cfg : Config) (s : State) (w : Nat) : Option State :=
  match s.main, s.workers[w]? with
  | MainPc.await id, some WorkerPc.finish =>
    if id ≤ cfg.consumerCount then
      some { s with main := MainPc.logDone id, workers := s.workers.set w WorkerPc.exited,
                    trace := Event.done w :: s.trace }
    else none
  | _, _ => none

/-- One atomic step of the program under the scheduler's choice `a`; `none`
when `a` is not enabled. Nothing moves once `main` has returned. -/
def step (cfg : Config) (s : State) (a : Action) : Option State :=
  if s.main = MainPc.exited then none
  else
    match a with
    | Action.main => stepMain cfg s
    | Action.producer => stepProducer cfg s
    | Action.worker w => stepWorker cfg s w
    | Action.send w => stepSend s w
    | Action.done w => stepDone cfg s w

/-- The state after a schedule, from `s`. -/
def runFrom (cfg : Config) (s : State) : List Action → Option State
  | [] => some s
  | a :: sched => (step cfg s a).bind (fun s' => runFrom cfg s' sched)

/-- The state after a schedule, from the start of `main`. -/
def run (cfg : Config) (sched : List Action) : Option State :=
  runFrom cfg init sched

/-- The program as compiled: five consumers and the producer's operations for
`projectTotalAmount`. -/
def program : Config :=
  { consumerCount := 5, ops := programOps }

/-- The producer's operations for a list of batches: every batch is sent, in
order, then the channel is closed. -/
def sendAll (batches : List (List Int)) : List ChanOp :=
  batches.map ChanOp.send ++ [ChanOp.close]

/-- A schedule that lets worker `w` process a batch of `n` items it holds. -/
def processBatch (w n : Nat) : List Action :=
  List.replicate (3 * n + 1) (Action.worker w)

/-- A schedule for the producer's operations in which worker `0` receives
every batch. -/
def feedWorker0 : List ChanOp → List Action
  | [] => [Action.producer]
  | ChanOp.send b :: ops => Action.send 0 :: processBatch 0 b.length ++ feedWorker0 ops
  | ChanOp.close :: ops => Action.producer :: feedWorker0 ops

/-- The shutdown of workers `w, w+1, ..., w+k-1`. -/
def shutdown : Nat → Nat → List Action
  | 0, _ => []
  | k + 1, w => Action.worker w :: Action.done w :: Action.main :: shutdown k (w + 1)

/-- A complete schedule: everything is launched, worker `0` does all the work,
then every worker signals `done` and `main` reports. -/
def sequentialSchedule (cfg : Config) : List Action :=
  List.replicate (cfg.consumerCount + 1) Action.main
    ++ Action.producer :: (List.range cfg.consumerCount).map Action.worker
    ++ feedWorker0 cfg.ops
    ++ shutdown cfg.consumerCount 0
    ++ [Action.main, Action.main]

/-! ## Observations on traces and states -/

/-- An `Add(1)` on the counter. -/
def Event.isAdd : Event → Bool
  | Event.add _ _ => true
  | _ => false

/-- An `Add(1)` on the counter by worker `w`. -/
def Event.isAddBy (w : Nat) : Event → Bool
  | Event.add w' _ => decide (w' = w)
  | _ => false

/-- A return of `limiter.Wait`. -/
def Event.isAcquire : Event → Bool
  | Event.acquire _ _ => true
  | _ => false

/-- A return of `limiter.Wait` to worker `w`. -/
def Event.isAcquireBy (w : Nat) : Event → Bool
  | Event.acquire w' _ => decide (w' = w)
  | _ => false

/-- A return of `limiter.Wait` with a permit. -/
def Event.isGrant : Event → Bool
  | Event.acquire _ ok => ok
  | _ => false

/-- A return of `limiter.Wait` with an error. -/
def Event.isRefusal : Event → Bool
  | Event.acquire _ ok => !ok
  | _ => false

/-- A done signal. -/
def Event.isDone : Event → Bool
  | Event.done _ => true
  | _ => false

/-- A done signal of worker `w`. -/
def Event.isDoneBy (w : Nat) : Event → Bool
  | Event.done w' => decide (w' = w)
  | _ => false

/-- The close of `projectIdsChan`. -/
def Event.isClose : Event → Bool
  | Event.closed => true
  | _ => false

/-- A batch handed over. -/
def Event.isSent : Event → Bool
  | Event.sent _ _ => true
  | _ => false

/-- The summary line of line 40. -/
def Event.isSummary : Event → Bool
  | Event.logSummary _ => true
  | _ => false

/-- The load of line 38. -/
def Event.isLoad : Event → Bool
  | Event.load _ => true
  | _ => false

/-- The progress line of line 63 reporting the value `v`. -/
def Event.isProgress (v : Int) : Event → Bool
  | Event.logProcessed v' => decide (v' = v)
  | _ => false

/-- The number of items an event hands to worker `w`. -/
def Event.itemsFor (w : Nat) : Event → Nat
  | Event.sent w' b => if w' = w then b.length else 0
  | _ => 0

/-- The number of items handed to worker `w` in a trace. -/
def receivedItems (w : Nat) (trace : List Event) : Nat :=
  (trace.map (Event.itemsFor w)).sum

/-- The values reported by the progress lines of a trace, the latest first. -/
def progressValues : List Event → List Int
  | [] => []
  | Event.logProcessed v :: t => v :: progressValues t
  | _ :: t => progressValues t

/-- The increments a worker still owes for the batch it holds. -/
def WorkerPc.todo : WorkerPc → Nat
  | WorkerPc.item rest => rest.length
  | WorkerPc.acquired rest => rest.length + 1
  | WorkerPc.counted _ rest => rest.length
  | _ => 0

/-- One for a worker between `limiter.Wait` and `Add(1)`. -/
def WorkerPc.holding : WorkerPc → Nat
  | WorkerPc.acquired _ => 1
  | _ => 0

/-- One for a worker that has sent its done signal. -/
def WorkerPc.gone : WorkerPc → Nat
  | WorkerPc.exited => 1
  | _ => 0

/-- One for a worker that is about to report the value `v` on line 63. -/
def WorkerPc.reporting (v : Int) : WorkerPc → Nat
  | WorkerPc.counted c _ => if c = v ∧ isMilestone c = true then 1 else 0
  | _ => 0

/-- The worker has left the loop of line 58. -/
def WorkerPc.leftLoop : WorkerPc → Bool
  | WorkerPc.finish => true
  | WorkerPc.exited => true
  | _ => false

/-- One for a worker that has left the loop of line 58. -/
def WorkerPc.left : WorkerPc → Nat
  | WorkerPc.finish => 1
  | WorkerPc.exited => 1
  | _ => 0

/-- One for a worker that can move by itself, whatever the others do. -/
def WorkerPc.busy : WorkerPc → Nat
  | WorkerPc.launched => 1
  | WorkerPc.item _ => 1
  | WorkerPc.acquired _ => 1
  | WorkerPc.counted _ _ => 1
  | _ => 0

/-- One for a worker at the receive of line 58. -/
def WorkerPc.receiving : WorkerPc → Nat
  | WorkerPc.recv => 1
  | _ => 0

/-- One for a worker at the send of line 67. -/
def WorkerPc.finishing : WorkerPc → Nat
  | WorkerPc.finish => 1
  | _ => 0

/-- `main` is still launching goroutines. -/
def MainPc.spawning : MainPc → Bool
  | MainPc.spawn _ => true
  | _ => false

/-- The producer has not been launched. -/
def ProducerPc.waiting : ProducerPc → Bool
  | ProducerPc.notStarted => true
  | _ => false

/-- The sum of a measure over the workers. -/
def total (f : WorkerPc → Nat) (ws : List WorkerPc) : Nat :=
  (ws.map f).sum

/-- The channel operations the producer has not performed yet. -/
def State.opsLeft (cfg : Config) (s : State) : List ChanOp :=
  match s.producer with
  | ProducerPc.notStarted => cfg.ops
  | ProducerPc.launched => cfg.ops
  | ProducerPc.running ops => ops
  | ProducerPc.exited => []

/-- All `consumerCount` workers have been launched and have left their receive
loop. -/
def State.allLeft (cfg : Config) (s : State) : Prop :=
  s.workers.length = cfg.consumerCount ∧ ∀ pc ∈ s.workers, pc.leftLoop = true

instance (cfg : Config) (s : State) : Decidable (s.allLeft cfg) := by
  unfold State.allLeft; infer_instance

/-- The transitions of `step`, one constructor per case. -/
inductive Step (cfg : Config) : State → State → Prop
  | spawnConsumer (s : State) (id : Nat) :
      s.main = MainPc.spawn id → id ≤ cfg.consumerCount →
      Step cfg s { s with main := MainPc.spawn (id + 1),
                          workers := s.workers ++ [WorkerPc.launched] }
  | spawnProducer (s : State) (id : Nat) :
      s.main = MainPc.spawn id → ¬ id ≤ cfg.consumerCount →
      Step cfg s { s with main := MainPc.await 1, producer := ProducerPc.launched }
  | load (s : State) (id : Nat) :
      s.main = MainPc.await id → ¬ id ≤ cfg.consumerCount →
      Step cfg s { s with main := MainPc.report s.counter,
                          trace := Event.load s.counter :: s.trace }
  | logDone (s : State) (id : Nat) :
      s.main = MainPc.logDone id →
      Step cfg s { s with main := MainPc.await (id + 1),
                          trace := Event.logDoneReceived id :: s.trace }
  | report (s : State) (v : Int) :
      s.main = MainPc.report v →
      Step cfg s { s with main := MainPc.exited, trace := Event.logSummary v :: s.trace }
  | producerLaunched (s : State) :
      s.main ≠ MainPc.exited → s.producer = ProducerPc.launched →
      Step cfg s { s with producer := ProducerPc.running cfg.ops,
                          trace := Event.logProducerLaunched :: s.trace }
  | close (s : State) (ops : List ChanOp) :
      s.main ≠ MainPc.exited → s.producer = ProducerPc.running (ChanOp.close :: ops) →
      s.closed = false →
      Step cfg s { s with producer := ProducerPc.running ops, closed := true,
                          trace := Event.closed :: s.trace }
  | producerDone (s : State) :
      s.main ≠ MainPc.exited → s.producer = ProducerPc.running [] →
      Step cfg s { s with producer := ProducerPc.exited,
                          trace := Event.logProducerDone :: s.trace }
  | workerLaunched (s : State) (w : Nat) :
      s.main ≠ MainPc.exited → s.workers[w]? = some WorkerPc.launched →
      Step cfg s { s with workers := s.workers.set w WorkerPc.recv,
                          trace := Event.logConsumerLaunched (w + 1) :: s.trace }
  | recvClosed (s : State) (w : Nat) :
      s.main ≠ MainPc.exited → s.workers[w]? = some WorkerPc.recv → s.closed = true →
      Step cfg s { s with workers := s.workers.set w WorkerPc.finish }
  | batchDone (s : State) (w : Nat) :
      s.main ≠ MainPc.exited → s.workers[w]? = some (WorkerPc.item []) →
      Step cfg s { s with workers := s.workers.set w WorkerPc.recv }
  | acquire (s : State) (w : Nat) (x : Int) (rest : List Int) :
      s.main ≠ MainPc.exited → s.workers[w]? = some (WorkerPc.item (x :: rest)) →
      Step cfg s { s with workers := s.workers.set w (WorkerPc.acquired rest),
                          trace := Event.acquire w (limiterWait cfg.consumerCount 1 false)
                                     :: s.trace }
  | add (s : State) (w : Nat) (rest : List Int) :
      s.main ≠ MainPc.exited → s.workers[w]? = some (WorkerPc.acquired rest) →
      Step cfg s { s with workers :=
                            s.workers.set w (WorkerPc.counted (wrapInt32 (s.counter + 1)) rest),
                          counter := wrapInt32 (s.counter + 1),
                          trace := Event.add w (wrapInt32 (s.counter + 1)) :: s.trace }
  | progress (s : State) (w : Nat) (c : Int) (rest : List Int) :
      s.main ≠ MainPc.exited → s.workers[w]? = some (WorkerPc.counted c rest) →
      Step cfg s { s with workers := s.workers.set w (WorkerPc.item rest),
                          trace := if isMilestone c then Event.logProcessed c :: s.trace
                                   else s.trace }
  | send (s : State) (w : Nat) (b : List Int) (ops : List ChanOp) :
      s.main ≠ MainPc.exited → s.producer = ProducerPc.running (ChanOp.send b :: ops) →
      s.workers[w]? = some WorkerPc.recv → s.closed = false →
      Step cfg s { s with producer := ProducerPc.running ops,
                          workers := s.workers.set w (WorkerPc.item b),
                          trace := Event.sent w b :: s.trace }
  | done (s : State) (w id : Nat) :
      s.main = MainPc.await id → id ≤ cfg.consumerCount →
      s.workers[w]? = some WorkerPc.finish →
      Step cfg s { s with main := MainPc.logDone id,
                          workers := s.workers.set w WorkerPc.exited,
                          trace := Event.done w :: s.trace }

/-- The states the program can be in: those some schedule leads to. -/
def Reachable (cfg : Config) (s : State) : Prop :=
  ∃ sched, run cfg sched = some s

/-- A return of `limiter.Wait` to worker `w` with a permit. -/
def Event.isGrantBy (w : Nat) : Event → Bool
  | Event.acquire w' ok => decide (w' = w) && ok
  | _ => false

/-- The value of a measure on worker `w`, zero when there is no such worker. -/
def valueAt (f : WorkerPc → Nat) (ws : List WorkerPc) (w : Nat) : Nat :=
  match ws[w]? with
  | some pc => f pc
  | none => 0

/-! ## Invariants -/

/-- The invariant of the channel: the producer's remaining operations are sends
followed by one close as long as the channel is open, and nothing once it is
closed; a worker is past its loop only when the channel is closed; the producer
is not started exactly while `main` is launching, and has then not closed. -/
structure ChanInv (cfg : Config) (s : State) : Prop where
  opsOpen : s.closed = false → ∃ bs, s.opsLeft cfg = sendAll bs
  opsClosed : s.closed = true → s.opsLeft cfg = []
  leftClosed : s.closed = false → total WorkerPc.left s.workers = 0
  started : s.main.spawning = s.producer.waiting
  waitingOpen : s.producer.waiting = true → s.closed = false

/-- The invariant of `main`: where it stands fixes how many workers exist and
how many of them have handed over their done signal. -/
def MainInv (cfg : Config) (s : State) : Prop :=
  match s.main with
  | MainPc.spawn id =>
    s.workers.length + 1 = id ∧ id ≤ cfg.consumerCount + 1 ∧ total WorkerPc.gone s.workers = 0
  | MainPc.await id =>
    s.workers.length = cfg.consumerCount ∧ total WorkerPc.gone s.workers + 1 = id
  | MainPc.logDone id =>
    s.workers.length = cfg.consumerCount ∧ total WorkerPc.gone s.workers = id
      ∧ id ≤ cfg.consumerCount
  | MainPc.report v =>
    s.workers.length = cfg.consumerCount ∧ total WorkerPc.gone s.workers = cfg.consumerCount
      ∧ v = s.counter
  | MainPc.exited =>
    s.workers.length = cfg.consumerCount ∧ total WorkerPc.gone s.workers = cfg.consumerCount

/-- The accounting invariant: every item of the workload is still with the
producer, owed by the worker that holds its batch, or counted; the counter is
the number of increments, wrapped; every return of `limiter.Wait` is followed
by one increment or is held by one worker; the done signals, the close and the
sends in the trace are those the state remembers. -/
structure TraceInv (cfg : Config) (s : State) : Prop where
  account : s.trace.countP Event.isAdd + total WorkerPc.todo s.workers
    + pendingItems (s.opsLeft cfg) = pendingItems cfg.ops
  counter : s.counter = wrapInt32 (s.trace.countP Event.isAdd)
  permits : s.trace.countP Event.isAcquire
    = s.trace.countP Event.isAdd + total WorkerPc.holding s.workers
  granted : 1 ≤ cfg.consumerCount → s.trace.countP Event.isRefusal = 0
  dones : s.trace.countP Event.isDone = total WorkerPc.gone s.workers
  closes : s.trace.countP Event.isClose = if s.closed then 1 else 0
  sends : s.trace.countP Event.isSent + (sentBatches (s.opsLeft cfg)).length
    = (sentBatches cfg.ops).length

/-- One once `main` has loaded the counter. -/
def MainPc.loaded : MainPc → Nat
  | MainPc.report _ => 1
  | MainPc.exited => 1
  | _ => 0

/-- One once `main` has returned. -/
def MainPc.over : MainPc → Nat
  | MainPc.exited => 1
  | _ => 0

/-- The invariant of worker `w`: it has counted every item it received, up to
those of the batch it holds; each of its permits is followed by one of its
increments or is held; it has signalled done exactly if it has exited. -/
structure WorkerInv (cfg : Config) (s : State) (w : Nat) : Prop where
  items : s.trace.countP (Event.isAddBy w) + valueAt WorkerPc.todo s.workers w
    = receivedItems w s.trace
  permits : 1 ≤ cfg.consumerCount → s.trace.countP (Event.isGrantBy w)
    = s.trace.countP (Event.isAddBy w) + valueAt WorkerPc.holding s.workers w
  done : s.trace.countP (Event.isDoneBy w) = valueAt WorkerPc.gone s.workers w

/-- The invariant of the report: the load and the summary are in the trace
exactly once `main` has passed them, and they carry the value of the counter. -/
structure ReportInv (s : State) : Prop where
  loadCount : s.trace.countP Event.isLoad = s.main.loaded
  loadValue : ∀ v, Event.load v ∈ s.trace → v = s.counter
  reportValue : ∀ v, s.main = MainPc.report v → Event.load v ∈ s.trace
  summaryCount : s.trace.countP Event.isSummary = s.main.over
  summaryValue : ∀ v, Event.logSummary v ∈ s.trace → Event.load v ∈ s.trace

/-- The invariant of the progress lines: a value has been reported, or is about
to be reported by the worker that counted it, exactly if it is a milestone
among the values counted so far. -/
def ProgressInv (s : State) : Prop :=
  ∀ v : Int, s.trace.countP (Event.isProgress v) + total (WorkerPc.reporting v) s.workers
    = if isMilestone v = true ∧ 1 ≤ v ∧ v ≤ (s.trace.countP Event.isAdd : Int) then 1 else 0

/-! ## A bound on the length of runs -/

/-- The steps the producer and the receiving workers still spend on a list of
channel operations. -/
def opsRank : List ChanOp → Nat
  | [] => 0
  | ChanOp.send b :: ops => 3 * b.length + 3 + opsRank ops
  | ChanOp.close :: ops => 1 + opsRank ops

/-- The steps a worker can still take without receiving another batch. -/
def WorkerPc.rank : WorkerPc → Nat
  | WorkerPc.launched => 3
  | WorkerPc.recv => 2
  | WorkerPc.item rest => 3 * rest.length + 3
  | WorkerPc.acquired rest => 3 * rest.length + 5
  | WorkerPc.counted _ rest => 3 * rest.length + 4
  | WorkerPc.finish => 1
  | WorkerPc.exited => 0

/-- The steps `main` can still take, with those of the workers it has yet to
launch; `n` is `consumerCount`. -/
def MainPc.rank (n : Nat) : MainPc → Nat
  | MainPc.spawn id => 4 * (n + 1 - id) + 2 * n + 3
  | MainPc.await id => 2 * (n + 1 - id) + 2
  | MainPc.logDone id => 2 * (n - id) + 3
  | MainPc.report _ => 1
  | MainPc.exited => 0

/-- The steps the producer can still take, with those its batches cost the
workers. -/
def ProducerPc.rank (ops : List ChanOp) : ProducerPc → Nat
  | ProducerPc.notStarted => opsRank ops + 2
  | ProducerPc.launched => opsRank ops + 2
  | ProducerPc.running left => opsRank left + 1
  | ProducerPc.exited => 0

/-- A bound on the number of steps the program can still take. -/
def State.rank (cfg : Config) (s : State) : Nat :=
  s.main.rank cfg.consumerCount + s.producer.rank cfg.ops + total WorkerPc.rank s.workers

/-- No action is enabled. -/
def State.terminal (cfg : Config) (s : State) : Prop :=
  ∀ a, step cfg s a = none

/-- The schedule is a run and the test `p` holds in the state it ends in. -/
def holdsAfter (cfg : Config) (sched : List Action) (p : State → Bool) : Bool :=
  match run cfg sched with
  | some s => p s
  | none => false

/-! ## The limiter, timed (line 24) -/

/-- Modelled from the spec: the state of the token bucket behind
`rate.Limiter` (`golang.org/x/time/rate`, imported by `main.go`, its code not
part of the repository): a refill rate in tokens per second, a capacity, the
tokens it held at the time `last` of its last update, in seconds since the
start. -/
structure Bucket where
  rate : ℚ
  burst : ℚ
  tokens : ℚ
  last : ℚ

/-- Modelled from the spec: the tokens in the bucket at time `t`, refilled
continuously at `rate` since `last`, up to the capacity. -/
def Bucket.tokensAt (b : Bucket) (t : ℚ) : ℚ :=
  min b.burst (b.tokens + b.rate * (t - b.last))

/-- Modelled from the spec: the grant of one permit at time `t`, possible when
time has not run backwards and one token is there; it debits one token. -/
def Bucket.grant (b : Bucket) (t : ℚ) : Option Bucket :=
  if b.last ≤ t ∧ 1 ≤ b.tokensAt t then
    some { b with tokens := b.tokensAt t - 1, last := t }
  else none

/-- Modelled from the spec: the bucket after permits granted at the times
`ts`, in this order; `none` when the bucket cannot grant them at these times. -/
def Bucket.grants (b : Bucket) : List ℚ → Option Bucket
  | [] => some b
  | t :: ts => (b.grant t).bind (fun b' => b'.grants ts)

/-- Modelled from the spec: `rate.NewLimiter(r, burst)`, a bucket that is full
at the start. -/
def newLimiter (r : ℚ) (burst : Nat) : Bucket :=
  { rate := r, burst := burst, tokens := burst, last := 0 }

/-- Line 24: `rate.NewLimiter(95.0/60, consumerCount)` with `consumerCount = 5`. -/
def mainLimiter : Bucket :=
  newLimiter (95 / 60) program.consumerCount

/-- The permits granted in the window from `a` to `a + w`, both ends included. -/
def grantsIn (a w : ℚ) (ts : List ℚ) : Nat :=
  (ts.filter (fun t => decide (a ≤ t ∧ t ≤ a + w))).length

/-! ## The program under a clock -/

/-- The action is the return of `limiter.Wait` (line 60) to a worker that has an
item to process. -/
def State.acquires (s : State) : Action → Bool
  | Action.worker w =>
    match s.workers[w]? with
    | some (WorkerPc.item (_ :: _)) => true
    | _ => false
  | _ => false

/-- The action is the `Add(1)` of line 61. -/
def State.adds (s : State) : Action → Bool
  | Action.worker w =>
    match s.workers[w]? with
    | some (WorkerPc.acquired _) => true
    | _ => false
  | _ => false

/-- A state of the program with the time in seconds since the start, the
bucket of the limiter, and the times at which permits were granted and items
counted so far, the latest first. -/
structure Timed where
  state : State
  bucket : Bucket
  now : ℚ
  grantTimes : List ℚ
  addTimes : List ℚ

/-- The start of `main`, with the limiter of line 24:
`rate.NewLimiter(95.0/60, consumerCount)`. -/
def timedInit (cfg : Config) : Timed :=
  { state := init, bucket := newLimiter (95 / 60) cfg.consumerCount, now := 0,
    grantTimes := [], addTimes := [] }

/-- Modelled from the spec: one step of the program at the time `t`, which is
not before the time of the step before it. The step itself is `step`; the
limiter of the spec decides when `limiter.Wait` returns: that step is possible
at `t` only if the bucket grants a permit at `t`. Any other step can wait as
long as the scheduler lets it. -/
def timedStep (cfg : Config) (σ : Timed) (t : ℚ) (a : Action) : Option Timed :=
  if t < σ.now then none
  else
    match step cfg σ.state a with
    | none => none
    | some s' =>
      if σ.state.acquires a then
        match σ.bucket.grant t with
        | none => none
        | some b' => some { σ with state := s', bucket := b', now := t,
                                   grantTimes := t :: σ.grantTimes }
      else if σ.state.adds a then
        some { σ with state := s', now := t, addTimes := t :: σ.addTimes }
      else some { σ with state := s', now := t }

/-- The timed state after a schedule of steps with their times, from `σ`. -/
def timedRunFrom (cfg : Config) (σ : Timed) : List (ℚ × Action) → Option Timed
  | [] => some σ
  | (t, a) :: sched => (timedStep cfg σ t a).bind (fun σ' => timedRunFrom cfg σ' sched)

/-- The timed state after a schedule of steps with their times, from the start
of `main`. -/
def timedRun (cfg : Config) (sched : List (ℚ × Action)) : Option Timed :=
  timedRunFrom cfg (timedInit cfg) sched

/-- The schedule is a timed run and the test `p` holds in the state it ends
in. -/
def timedHolds (cfg : Config) (sched : List (ℚ × Action)) (p : Timed → Bool) : Bool :=
  match timedRun cfg sched with
  | some σ => p σ
  | none => false

/-- The actions `as`, all at the time `t`. -/
def allAt (t : ℚ) (as : List Action) : List (ℚ × Action) :=
  as.map (fun a => (t, a))

/-- Worker 0 acquires a permit, counts an item and passes line 62, all at
`10 + 12k/19` seconds, after fetching a new batch when the one it holds is
used up. -/
def pacedItem (k : Nat) : List (ℚ × Action) :=
  allAt (10 + 12 * (k : ℚ) / 19)
    ((if k % 10 = 9 then [Action.worker 0, Action.send 0] else [])
      ++ [Action.worker 0, Action.worker 0, Action.worker 0])

/-- A timed schedule of the program in which the five workers take the burst
of five permits at the start but count their items only 10 seconds later; at
10 seconds the bucket is full again, the workers take and use five more
permits, and worker 0 then takes and uses a permit every 12/19 seconds until
70 seconds. -/
def lateSchedule : List (ℚ × Action) :=
  allAt 0 (List.replicate 6 Action.main ++ Action.producer
      :: (List.range 5).map Action.worker)
    ++ allAt 0 ((List.range 5).flatMap (fun w => [Action.send w, Action.worker w]))
    ++ allAt 10 ((List.range 5).flatMap (fun w => [Action.worker w, Action.worker w]))
    ++ allAt 10 ((List.range 5).flatMap
        (fun w => [Action.worker w, Action.worker w, Action.worker w]))
    ++ (List.range' 1 95).flatMap pacedItem

/-! # Theorems -/

theorem step_sound {cfg : Config} {s s' : State} {a : Action}
    (h : step cfg s a = some s') : Step cfg s s' := by
  unfold step at h
  split at h
  · simp at h
  · rename_i hne
    cases a with
    | main =>
      simp only [stepMain] at h
      split at h
      · rename_i id hm
        split at h
        · simp at h; subst h; exact Step.spawnConsumer s id hm (by assumption)
        · simp at h; subst h; exact Step.spawnProducer s id hm (by assumption)
      · rename_i id hm
        split at h
        · simp at h
        · simp at h; subst h; exact Step.load s id hm (by assumption)
      · rename_i id hm
        simp at h; subst h; exact Step.logDone s id hm
      · rename_i v hm
        simp at h; subst h; exact Step.report s v hm
      · simp at h
    | producer =>
      simp only [stepProducer] at h
      split at h
      · rename_i hp
        simp at h; subst h; exact Step.producerLaunched s hne hp
      · rename_i ops hp
        split at h
        · simp at h
        · simp at h; subst h; exact Step.close s ops hne hp (by simpa using ‹¬ s.closed = true›)
      · rename_i hp
        simp at h; subst h; exact Step.producerDone s hne hp
      · simp at h
    | worker w =>
      simp only [stepWorker] at h
      split at h
      · rename_i hw
        simp at h; subst h; exact Step.workerLaunched s w hne hw
      · rename_i hw
        split at h
        · simp at h; subst h; exact Step.recvClosed s w hne hw (by assumption)
        · simp at h
      · rename_i hw
        simp at h; subst h; exact Step.batchDone s w hne hw
      · rename_i x rest hw
        simp at h; subst h; exact Step.acquire s w x rest hne hw
      · rename_i rest hw
        simp at h; subst h; exact Step.add s w rest hne hw
      · rename_i c rest hw
        simp at h; subst h; exact Step.progress s w c rest hne hw
      · simp at h
    | send w =>
      simp only [stepSend] at h
      split at h
      · rename_i b ops hp hw
        split at h
        · simp at h
        · simp at h; subst h; exact Step.send s w b ops hne hp hw (by simpa using ‹¬ s.closed = true›)
      · simp at h
    | done w =>
      simp only [stepDone] at h
      split at h
      · rename_i id hm hw
        split at h
        · simp at h; subst h; exact Step.done s w id hm (by assumption) hw
        · simp at h
      · simp at h

/-! ### Sums over the workers -/

theorem total_append (f : WorkerPc → Nat) (ws : List WorkerPc) (pc : WorkerPc) :
    total f (ws ++ [pc]) = total f ws + f pc := by
  simp [total]

theorem total_set (f : WorkerPc → Nat) :
    ∀ (ws : List WorkerPc) (w : Nat) (old new : WorkerPc), ws[w]? = some old →
      total f (ws.set w new) + f old = total f ws + f new := by
  intro ws
  induction ws with
  | nil => intro w old new h; simp at h
  | cons pc ws ih =>
    intro w old new h
    cases w with
    | zero =>
      simp at h; subst h
      simp [total]; omega
    | succ w =>
      simp at h
      have := ih w old new h
      simp [total] at this ⊢
      omega

theorem total_le_length (f : WorkerPc → Nat) (hf : ∀ pc, f pc ≤ 1) (ws : List WorkerPc) :
    total f ws ≤ ws.length := by
  induction ws with
  | nil => simp [total]
  | cons pc ws ih =>
    have := hf pc
    simp [total] at ih ⊢
    omega

theorem total_eq_zero (f : WorkerPc → Nat) (ws : List WorkerPc) :
    total f ws = 0 ↔ ∀ pc ∈ ws, f pc = 0 := by
  induction ws with
  | nil => simp [total]
  | cons pc ws ih =>
    simp [total] at ih ⊢
    intro _
    exact ih

theorem total_eq_length (f : WorkerPc → Nat) (hf : ∀ pc, f pc ≤ 1) (ws : List WorkerPc) :
    total f ws = ws.length ↔ ∀ pc ∈ ws, f pc = 1 := by
  induction ws with
  | nil => simp [total]
  | cons pc ws ih =>
    have h1 := hf pc
    have h2 := total_le_length f hf ws
    simp [total] at ih h2 ⊢
    constructor
    · intro h
      have : f pc = 1 := by omega
      exact ⟨this, ih.mp (by omega)⟩
    · intro ⟨h, h'⟩
      have := ih.mpr h'
      omega

theorem total_get_le (f : WorkerPc → Nat) :
    ∀ (ws : List WorkerPc) (w : Nat) (pc : WorkerPc), ws[w]? = some pc → f pc ≤ total f ws := by
  intro ws
  induction ws with
  | nil => intro w pc h; simp at h
  | cons p ws ih =>
    intro w pc h
    cases w with
    | zero => simp at h; subst h; simp [total]
    | succ w =>
      simp at h
      have := ih w pc h
      simp [total] at this ⊢
      omega

/-! ### Reachability -/

theorem runFrom_append (cfg : Config) :
    ∀ (sched sched' : List Action) (s : State),
      runFrom cfg s (sched ++ sched') = (runFrom cfg s sched).bind (fun s' => runFrom cfg s' sched') := by
  intro sched
  induction sched with
  | nil => intro sched' s; simp [runFrom]
  | cons a sched ih =>
    intro sched' s
    simp only [List.cons_append, runFrom]
    cases h : step cfg s a with
    | none => simp
    | some s1 => simp [ih]

theorem runFrom_invariant (cfg : Config) (P : State → Prop)
    (hstep : ∀ s s', Step cfg s s' → P s → P s') :
    ∀ (sched : List Action) (s s' : State), P s → runFrom cfg s sched = some s' → P s' := by
  intro sched
  induction sched with
  | nil =>
    intro s s' hs h
    simp [runFrom] at h
    subst h; exact hs
  | cons a sched ih =>
    intro s s' hs h
    simp only [runFrom] at h
    cases hst : step cfg s a with
    | none => simp [hst] at h
    | some s1 =>
      simp [hst] at h
      exact ih s1 s' (hstep s s1 (step_sound hst) hs) h

theorem reachable_invariant (cfg : Config) (P : State → Prop) (h0 : P init)
    (hstep : ∀ s s', Step cfg s s' → P s → P s') :
    ∀ s, Reachable cfg s → P s := by
  intro s ⟨sched, h⟩
  exact runFrom_invariant cfg P hstep sched init s h0 h

theorem reachable_runFrom {cfg : Config} {s s' : State} {sched : List Action}
    (hs : Reachable cfg s) (h : runFrom cfg s sched = some s') : Reachable cfg s' := by
  obtain ⟨sched0, h0⟩ := hs
  refine ⟨sched0 ++ sched, ?_⟩
  simp only [run, runFrom_append] at h0 ⊢
  rw [h0]; simpa using h

/-! ### The shape of the producer's operations -/

theorem sendAll_cons (b : List Int) (bs : List (List Int)) :
    sendAll (b :: bs) = ChanOp.send b :: sendAll bs := rfl

theorem sendAll_eq_close_cons {bs : List (List Int)} {ops : List ChanOp}
    (h : sendAll bs = ChanOp.close :: ops) : ops = [] := by
  cases bs with
  | nil => simpa [sendAll] using h.symm
  | cons b bs => simp [sendAll] at h

theorem sendAll_eq_send_cons {bs : List (List Int)} {b : List Int} {ops : List ChanOp}
    (h : sendAll bs = ChanOp.send b :: ops) : ∃ bs', bs = b :: bs' ∧ ops = sendAll bs' := by
  cases bs with
  | nil => simp [sendAll] at h
  | cons b' bs =>
    simp [sendAll] at h
    exact ⟨bs, by rw [h.1], by rw [← h.2]; rfl⟩

theorem sendAll_ne_nil (bs : List (List Int)) : sendAll bs ≠ [] := by
  simp [sendAll]

theorem pendingItems_sendAll (bs : List (List Int)) :
    pendingItems (sendAll bs) = (bs.map List.length).sum := by
  induction bs with
  | nil => simp [sendAll, pendingItems]
  | cons b bs ih => rw [sendAll_cons]; simp [pendingItems, ih]


/-- What replacing the state of one worker does to the sums over the workers. -/
theorem totals_set (ws : List WorkerPc) (w : Nat) (old new : WorkerPc) (h : ws[w]? = some old) :
    (ws.set w new).length = ws.length
    ∧ total WorkerPc.todo (ws.set w new) + old.todo = total WorkerPc.todo ws + new.todo
    ∧ total WorkerPc.holding (ws.set w new) + old.holding = total WorkerPc.holding ws + new.holding
    ∧ total WorkerPc.gone (ws.set w new) + old.gone = total WorkerPc.gone ws + new.gone
    ∧ total WorkerPc.left (ws.set w new) + old.left = total WorkerPc.left ws + new.left :=
  ⟨by simp, total_set _ ws w old new h, total_set _ ws w old new h, total_set _ ws w old new h,
    total_set _ ws w old new h⟩

theorem chanInv_init (cfg : Config) (bs : List (List Int)) (h : cfg.ops = sendAll bs) :
    ChanInv cfg init := by
  constructor <;> simp [init, total, State.opsLeft, h, MainPc.spawning, ProducerPc.waiting]

theorem chanInv_step (cfg : Config) (s s' : State) (hstep : Step cfg s s')
    (hc : ChanInv cfg s) : ChanInv cfg s' := by
  obtain ⟨h7, h8, h9, h1, h0⟩ := hc
  cases hstep with
  | spawnConsumer id hm hle =>
    rw [hm] at h1
    constructor <;> dsimp only <;>
      simp_all [State.opsLeft, total_append, WorkerPc.left, MainPc.spawning, ProducerPc.waiting]
  | spawnProducer id hm hle =>
    rw [hm] at h1
    have : s.producer = ProducerPc.notStarted := by
      cases hp : s.producer <;> simp_all [MainPc.spawning, ProducerPc.waiting]
    constructor <;> dsimp only <;>
      simp_all [State.opsLeft, total_append, WorkerPc.left, MainPc.spawning, ProducerPc.waiting]
  | load id hm hle =>
    rw [hm] at h1
    constructor <;> dsimp only <;> simp_all [State.opsLeft, MainPc.spawning, ProducerPc.waiting]
  | logDone id hm =>
    rw [hm] at h1
    constructor <;> dsimp only <;> simp_all [State.opsLeft, MainPc.spawning, ProducerPc.waiting]
  | report v hm =>
    rw [hm] at h1
    constructor <;> dsimp only <;> simp_all [State.opsLeft, MainPc.spawning, ProducerPc.waiting]
  | producerLaunched hne hp =>
    constructor <;> dsimp only <;> simp_all [State.opsLeft, MainPc.spawning, ProducerPc.waiting]
  | close ops hne hp hcl =>
    have ⟨bs, hbs⟩ := h7 hcl
    simp [State.opsLeft, hp] at hbs
    have := sendAll_eq_close_cons hbs.symm
    constructor <;> dsimp only <;> simp_all [State.opsLeft, MainPc.spawning, ProducerPc.waiting]
  | producerDone hne hp =>
    have : s.closed = true := by
      by_contra hcl
      have ⟨bs, hbs⟩ := h7 (by simpa using hcl)
      simp [State.opsLeft, hp] at hbs
      exact sendAll_ne_nil bs hbs
    constructor <;> dsimp only <;> simp_all [State.opsLeft, MainPc.spawning, ProducerPc.waiting]
  | workerLaunched w hne hw =>
    obtain ⟨_, _, _, _, hl⟩ := totals_set s.workers w _ WorkerPc.recv hw
    simp only [WorkerPc.left] at hl
    constructor <;> dsimp only <;> simp_all [State.opsLeft]
  | recvClosed w hne hw hcl =>
    constructor <;> dsimp only <;> simp_all [State.opsLeft]
  | batchDone w hne hw =>
    obtain ⟨_, _, _, _, hl⟩ := totals_set s.workers w _ WorkerPc.recv hw
    simp only [WorkerPc.left] at hl
    constructor <;> dsimp only <;> simp_all [State.opsLeft]
  | acquire w x rest hne hw =>
    obtain ⟨_, _, _, _, hl⟩ := totals_set s.workers w _ (WorkerPc.acquired rest) hw
    simp only [WorkerPc.left] at hl
    constructor <;> dsimp only <;> simp_all [State.opsLeft]
  | add w rest hne hw =>
    obtain ⟨_, _, _, _, hl⟩ := totals_set s.workers w _
      (WorkerPc.counted (wrapInt32 (s.counter + 1)) rest) hw
    simp only [WorkerPc.left] at hl
    constructor <;> dsimp only <;> simp_all [State.opsLeft]
  | progress w c rest hne hw =>
    obtain ⟨_, _, _, _, hl⟩ := totals_set s.workers w _ (WorkerPc.item rest) hw
    simp only [WorkerPc.left] at hl
    constructor <;> dsimp only <;> simp_all [State.opsLeft]
  | send w b ops hne hp hw hcl =>
    obtain ⟨_, _, _, _, hl⟩ := totals_set s.workers w _ (WorkerPc.item b) hw
    simp only [WorkerPc.left] at hl
    have ⟨bs, hbs⟩ := h7 hcl
    simp [State.opsLeft, hp] at hbs
    obtain ⟨bs', _, hops⟩ := sendAll_eq_send_cons hbs.symm
    refine ⟨fun _ => ⟨bs', ?_⟩, ?_, ?_, ?_, ?_⟩ <;> dsimp only <;>
      simp_all [State.opsLeft, MainPc.spawning, ProducerPc.waiting]
  | done w id hm hle hw =>
    rw [hm] at h1
    obtain ⟨_, _, _, _, hl⟩ := totals_set s.workers w _ WorkerPc.exited hw
    simp only [WorkerPc.left] at hl
    constructor <;> dsimp only <;> simp_all [State.opsLeft, MainPc.spawning, ProducerPc.waiting]

theorem gone_le_one (pc : WorkerPc) : pc.gone ≤ 1 := by
  cases pc <;> simp [WorkerPc.gone]

theorem gone_le_left (ws : List WorkerPc) : total WorkerPc.gone ws ≤ total WorkerPc.left ws := by
  induction ws with
  | nil => simp [total]
  | cons pc ws ih =>
    simp only [total, List.map_cons, List.sum_cons] at ih ⊢
    cases pc <;> simp [WorkerPc.gone, WorkerPc.left] <;> omega

theorem all_gone {ws : List WorkerPc} (h : total WorkerPc.gone ws = ws.length) {w : Nat}
    {pc : WorkerPc} (hw : ws[w]? = some pc) : pc = WorkerPc.exited := by
  have h1 := (total_eq_length _ gone_le_one ws).mp h pc (List.getElem?_mem hw)
  cases pc <;> simp [WorkerPc.gone] at h1
  rfl

theorem mainInv_init (cfg : Config) : MainInv cfg init := by
  simp [MainInv, init, total]

/-- A step that leaves `main`, the number of workers and the number of workers
gone untouched keeps the invariant of `main`, provided the counter is not
touched either once `main` has loaded it. -/
theorem mainInv_frame (cfg : Config) (s : State) (ws : List WorkerPc) (p : ProducerPc)
    (cl : Bool) (c : Int) (t : List Event) (h : MainInv cfg s)
    (hl : ws.length = s.workers.length)
    (hg : total WorkerPc.gone ws = total WorkerPc.gone s.workers)
    (hc : c = s.counter ∨ total WorkerPc.gone s.workers < s.workers.length) :
    MainInv cfg { main := s.main, producer := p, workers := ws, closed := cl, counter := c,
                  trace := t } := by
  unfold MainInv at h ⊢
  dsimp only
  cases hm : s.main <;> rw [hm] at h <;> dsimp only at h ⊢ <;> omega

theorem mainInv_step (cfg : Config) (s s' : State) (hstep : Step cfg s s')
    (h : MainInv cfg s) : MainInv cfg s' := by
  have hgl := total_le_length _ gone_le_one s.workers
  cases hstep with
  | spawnConsumer id hm hle =>
    simp only [MainInv, hm] at h ⊢
    simp only [total_append, WorkerPc.gone, List.length_append, List.length_singleton]
    omega
  | spawnProducer id hm hle =>
    simp only [MainInv, hm] at h ⊢
    omega
  | load id hm hle =>
    simp only [MainInv, hm, and_true] at h ⊢
    omega
  | logDone id hm =>
    simp only [MainInv, hm] at h ⊢
    omega
  | report v hm =>
    simp only [MainInv, hm] at h ⊢
    omega
  | producerLaunched hne hp => exact mainInv_frame cfg s _ _ _ _ _ h rfl rfl (Or.inl rfl)
  | close ops hne hp hcl => exact mainInv_frame cfg s _ _ _ _ _ h rfl rfl (Or.inl rfl)
  | producerDone hne hp => exact mainInv_frame cfg s _ _ _ _ _ h rfl rfl (Or.inl rfl)
  | workerLaunched w hne hw =>
    obtain ⟨hl, _, _, hg, _⟩ := totals_set s.workers w _ WorkerPc.recv hw
    simp only [WorkerPc.gone] at hg
    exact mainInv_frame cfg s _ _ _ _ _ h hl (by omega) (Or.inl rfl)
  | recvClosed w hne hw hcl =>
    obtain ⟨hl, _, _, hg, _⟩ := totals_set s.workers w _ WorkerPc.finish hw
    simp only [WorkerPc.gone] at hg
    exact mainInv_frame cfg s _ _ _ _ _ h hl (by omega) (Or.inl rfl)
  | batchDone w hne hw =>
    obtain ⟨hl, _, _, hg, _⟩ := totals_set s.workers w _ WorkerPc.recv hw
    simp only [WorkerPc.gone] at hg
    exact mainInv_frame cfg s _ _ _ _ _ h hl (by omega) (Or.inl rfl)
  | acquire w x rest hne hw =>
    obtain ⟨hl, _, _, hg, _⟩ := totals_set s.workers w _ (WorkerPc.acquired rest) hw
    simp only [WorkerPc.gone] at hg
    exact mainInv_frame cfg s _ _ _ _ _ h hl (by omega) (Or.inl rfl)
  | add w rest hne hw =>
    obtain ⟨hl, _, _, hg, _⟩ := totals_set s.workers w _
      (WorkerPc.counted (wrapInt32 (s.counter + 1)) rest) hw
    simp only [WorkerPc.gone] at hg
    refine mainInv_frame cfg s _ _ _ _ _ h hl (by omega) (Or.inr ?_)
    rcases Nat.lt_or_ge (total WorkerPc.gone s.workers) s.workers.length with h1 | h1
    · exact h1
    · have := all_gone (by omega) hw
      cases this
  | progress w c rest hne hw =>
    obtain ⟨hl, _, _, hg, _⟩ := totals_set s.workers w _ (WorkerPc.item rest) hw
    simp only [WorkerPc.gone] at hg
    exact mainInv_frame cfg s _ _ _ _ _ h hl (by omega) (Or.inl rfl)
  | send w b ops hne hp hw hcl =>
    obtain ⟨hl, _, _, hg, _⟩ := totals_set s.workers w _ (WorkerPc.item b) hw
    simp only [WorkerPc.gone] at hg
    exact mainInv_frame cfg s _ _ _ _ _ h hl (by omega) (Or.inl rfl)
  | done w id hm hle hw =>
    obtain ⟨hl, _, _, hg, _⟩ := totals_set s.workers w _ WorkerPc.exited hw
    simp only [WorkerPc.gone] at hg
    simp only [MainInv, hm] at h ⊢
    omega

/-- The two control invariants together. -/
theorem control_reachable (cfg : Config) (bs : List (List Int)) (hops : cfg.ops = sendAll bs)
    (s : State) (hs : Reachable cfg s) : ChanInv cfg s ∧ MainInv cfg s := by
  refine reachable_invariant cfg (fun s => ChanInv cfg s ∧ MainInv cfg s)
    ⟨chanInv_init cfg bs hops, mainInv_init cfg⟩ ?_ s hs
  intro s s' hstep ⟨h1, h2⟩
  exact ⟨chanInv_step cfg s s' hstep h1, mainInv_step cfg s s' hstep h2⟩

theorem wrapInt32_succ (x : Int) : wrapInt32 (wrapInt32 x + 1) = wrapInt32 (x + 1) := by
  unfold wrapInt32; omega

theorem wrapInt32_eq (x : Int) (h1 : -(2 ^ 31) ≤ x) (h2 : x < 2 ^ 31) : wrapInt32 x = x := by
  unfold wrapInt32; omega

theorem wrapInt32_le (x : Int) (h : 0 ≤ x) : wrapInt32 x ≤ x := by
  unfold wrapInt32; omega

theorem limiterWait_ok (n : Nat) (h : 1 ≤ n) : limiterWait n 1 false = true := by
  simp [limiterWait, h]

theorem traceInv_init (cfg : Config) : TraceInv cfg init := by
  constructor <;> simp [init, total, State.opsLeft, wrapInt32]

theorem waiting_eq {p : ProducerPc} (h : p.waiting = true) : p = ProducerPc.notStarted := by
  cases p <;> simp [ProducerPc.waiting] at h ⊢

theorem producer_notStarted {cfg : Config} {s : State} (hch : ChanInv cfg s) {id : Nat}
    (hm : s.main = MainPc.spawn id) : s.producer = ProducerPc.notStarted := by
  have := hch.started
  rw [hm] at this
  exact waiting_eq this.symm

theorem traceInv_step (cfg : Config) (s s' : State) (hstep : Step cfg s s')
    (hch : ChanInv cfg s) (h : TraceInv cfg s) : TraceInv cfg s' := by
  obtain ⟨h1, h2, h3, h4, h5, h6, h7⟩ := h
  simp only [State.opsLeft] at h1 h7
  cases hstep with
  | spawnConsumer id hm hle =>
    constructor <;> simp only [State.opsLeft, total_append, WorkerPc.todo, WorkerPc.holding,
      WorkerPc.gone] <;> first | assumption | omega
  | spawnProducer id hm hle =>
    have hp := producer_notStarted hch hm
    rw [hp] at h1 h7
    constructor <;> simp only [State.opsLeft] <;> assumption
  | load id hm hle =>
    constructor <;> simp only [State.opsLeft, List.countP_cons, Event.isAdd, Event.isAcquire,
      Event.isRefusal, Event.isDone, Event.isClose, Event.isSent, pendingItems, sentBatches,
      Bool.false_eq_true, if_false, if_true, Nat.add_zero, List.length_nil] <;>
      first | assumption | (simpa using h4) | omega
  | logDone id hm =>
    constructor <;> simp only [State.opsLeft, List.countP_cons, Event.isAdd, Event.isAcquire,
      Event.isRefusal, Event.isDone, Event.isClose, Event.isSent, pendingItems, sentBatches,
      Bool.false_eq_true, if_false, if_true, Nat.add_zero, List.length_nil] <;>
      first | assumption | (simpa using h4) | omega
  | report v hm =>
    constructor <;> simp only [State.opsLeft, List.countP_cons, Event.isAdd, Event.isAcquire,
      Event.isRefusal, Event.isDone, Event.isClose, Event.isSent, pendingItems, sentBatches,
      Bool.false_eq_true, if_false, if_true, Nat.add_zero, List.length_nil] <;>
      first | assumption | (simpa using h4) | omega
  | producerLaunched hne hp =>
    rw [hp] at h1 h7
    constructor <;> simp only [State.opsLeft, List.countP_cons, Event.isAdd, Event.isAcquire,
      Event.isRefusal, Event.isDone, Event.isClose, Event.isSent, pendingItems, sentBatches,
      Bool.false_eq_true, if_false, if_true, Nat.add_zero, List.length_nil] <;>
      first | assumption | (simpa using h4) | omega
  | close ops hne hp hcl =>
    rw [hp] at h1 h7
    simp only [pendingItems, sentBatches] at h1 h7
    rw [hcl] at h6
    simp only [Bool.false_eq_true, if_false] at h6
    constructor <;> simp only [State.opsLeft, List.countP_cons, Event.isAdd, Event.isAcquire,
      Event.isRefusal, Event.isDone, Event.isClose, Event.isSent, pendingItems, sentBatches,
      Bool.false_eq_true, if_false, if_true, Nat.add_zero, List.length_nil] <;>
      first | assumption | (simpa using h4) | omega
  | producerDone hne hp =>
    rw [hp] at h1 h7
    simp only [pendingItems, sentBatches] at h1 h7
    constructor <;> simp only [State.opsLeft, List.countP_cons, Event.isAdd, Event.isAcquire,
      Event.isRefusal, Event.isDone, Event.isClose, Event.isSent, pendingItems, sentBatches,
      Bool.false_eq_true, if_false, if_true, Nat.add_zero, List.length_nil] <;>
      first | assumption | (simpa using h4) | omega
  | workerLaunched w hne hw =>
    obtain ⟨_, ht, hh, hg, _⟩ := totals_set s.workers w _ WorkerPc.recv hw
    simp only [WorkerPc.todo, WorkerPc.holding, WorkerPc.gone, List.length_nil,
      List.length_cons] at ht hh hg
    constructor <;> simp only [State.opsLeft, List.countP_cons, Event.isAdd, Event.isAcquire,
      Event.isRefusal, Event.isDone, Event.isClose, Event.isSent, pendingItems, sentBatches,
      Bool.false_eq_true, if_false, if_true, Nat.add_zero, List.length_nil] <;>
      first | assumption | (simpa using h4) | omega
  | recvClosed w hne hw hcl =>
    obtain ⟨_, ht, hh, hg, _⟩ := totals_set s.workers w _ WorkerPc.finish hw
    simp only [WorkerPc.todo, WorkerPc.holding, WorkerPc.gone, List.length_nil,
      List.length_cons] at ht hh hg
    constructor <;> simp only [State.opsLeft, List.countP_cons, Event.isAdd, Event.isAcquire,
      Event.isRefusal, Event.isDone, Event.isClose, Event.isSent, pendingItems, sentBatches,
      Bool.false_eq_true, if_false, if_true, Nat.add_zero, List.length_nil] <;>
      first | assumption | (simpa using h4) | omega
  | batchDone w hne hw =>
    obtain ⟨_, ht, hh, hg, _⟩ := totals_set s.workers w _ WorkerPc.recv hw
    simp only [WorkerPc.todo, WorkerPc.holding, WorkerPc.gone, List.length_nil,
      List.length_cons] at ht hh hg
    constructor <;> simp only [State.opsLeft, List.countP_cons, Event.isAdd, Event.isAcquire,
      Event.isRefusal, Event.isDone, Event.isClose, Event.isSent, pendingItems, sentBatches,
      Bool.false_eq_true, if_false, if_true, Nat.add_zero, List.length_nil] <;>
      first | assumption | (simpa using h4) | omega
  | acquire w x rest hne hw =>
    obtain ⟨_, ht, hh, hg, _⟩ := totals_set s.workers w _ (WorkerPc.acquired rest) hw
    simp only [WorkerPc.todo, WorkerPc.holding, WorkerPc.gone, List.length_cons] at ht hh hg
    constructor <;> simp only [State.opsLeft, List.countP_cons, Event.isAdd, Event.isAcquire,
      Event.isRefusal, Event.isDone, Event.isClose, Event.isSent, pendingItems, sentBatches,
      Bool.false_eq_true, if_false, if_true, Nat.add_zero, List.length_nil] <;>
      first | assumption | (simpa using h4) | (intro hN; simpa [limiterWait_ok _ hN] using h4 hN) | omega
  | add w rest hne hw =>
    obtain ⟨_, ht, hh, hg, _⟩ := totals_set s.workers w _
      (WorkerPc.counted (wrapInt32 (s.counter + 1)) rest) hw
    simp only [WorkerPc.todo, WorkerPc.holding, WorkerPc.gone] at ht hh hg
    constructor <;> simp only [State.opsLeft, List.countP_cons, Event.isAdd, Event.isAcquire,
      Event.isRefusal, Event.isDone, Event.isClose, Event.isSent, pendingItems, sentBatches,
      Bool.false_eq_true, if_false, if_true, Nat.add_zero, List.length_nil] <;>
      first | assumption | (simpa using h4) | (rw [h2, wrapInt32_succ]; simp) | omega
  | progress w c rest hne hw =>
    obtain ⟨_, ht, hh, hg, _⟩ := totals_set s.workers w _ (WorkerPc.item rest) hw
    simp only [WorkerPc.todo, WorkerPc.holding, WorkerPc.gone] at ht hh hg
    by_cases hmile : isMilestone c = true
    · simp only [hmile, if_true]
      constructor <;> simp only [State.opsLeft, List.countP_cons, Event.isAdd, Event.isAcquire,
        Event.isRefusal, Event.isDone, Event.isClose, Event.isSent, pendingItems, sentBatches,
        Bool.false_eq_true, if_false, if_true, Nat.add_zero, List.length_nil] <;>
        first | assumption | (simpa using h4) | omega
    · simp only [hmile]
      constructor <;> simp only [State.opsLeft, List.countP_cons, Event.isAdd, Event.isAcquire,
        Event.isRefusal, Event.isDone, Event.isClose, Event.isSent, pendingItems, sentBatches,
        Bool.false_eq_true, if_false, if_true, Nat.add_zero, List.length_nil] <;>
        first | assumption | (simpa using h4) | omega
  | send w b ops hne hp hw hcl =>
    obtain ⟨_, ht, hh, hg, _⟩ := totals_set s.workers w _ (WorkerPc.item b) hw
    simp only [WorkerPc.todo, WorkerPc.holding, WorkerPc.gone] at ht hh hg
    rw [hp] at h1 h7
    simp only [pendingItems, sentBatches, List.length_cons] at h1 h7
    constructor <;> simp only [State.opsLeft, List.countP_cons, Event.isAdd, Event.isAcquire,
      Event.isRefusal, Event.isDone, Event.isClose, Event.isSent, pendingItems, sentBatches,
      Bool.false_eq_true, if_false, if_true, Nat.add_zero, List.length_nil] <;>
      first | assumption | (simpa using h4) | omega
  | done w id hm hle hw =>
    obtain ⟨_, ht, hh, hg, _⟩ := totals_set s.workers w _ WorkerPc.exited hw
    simp only [WorkerPc.todo, WorkerPc.holding, WorkerPc.gone, List.length_nil,
      List.length_cons] at ht hh hg
    constructor <;> simp only [State.opsLeft, List.countP_cons, Event.isAdd, Event.isAcquire,
      Event.isRefusal, Event.isDone, Event.isClose, Event.isSent, pendingItems, sentBatches,
      Bool.false_eq_true, if_false, if_true, Nat.add_zero, List.length_nil] <;>
      first | assumption | (simpa using h4) | omega

/-! ### The invariant of one worker -/

theorem valueAt_update (f : WorkerPc → Nat) (ws : List WorkerPc) (w' w : Nat)
    (old new : WorkerPc) (h : ws[w']? = some old) :
    valueAt f (ws.set w' new) w + (if w' = w then f old else 0)
      = valueAt f ws w + (if w' = w then f new else 0) := by
  have hlt : w' < ws.length := by
    rcases Nat.lt_or_ge w' ws.length with h1 | h1
    · exact h1
    · rw [List.getElem?_eq_none h1] at h; cases h
  by_cases hww : w' = w
  · subst hww
    simp [valueAt, h, List.getElem?_set_self hlt]
    omega
  · simp [valueAt, hww, List.getElem?_set_ne hww]

theorem valueAt_append (f : WorkerPc → Nat) (ws : List WorkerPc) (w : Nat)
    (hf : f WorkerPc.launched = 0) :
    valueAt f (ws ++ [WorkerPc.launched]) w = valueAt f ws w := by
  unfold valueAt
  rcases Nat.lt_trichotomy w ws.length with h | h | h
  · rw [List.getElem?_append_left h]
  · subst h
    simp [hf]
  · rw [List.getElem?_eq_none (by simp; omega), List.getElem?_eq_none (by omega)]

theorem workerInv_init (cfg : Config) (w : Nat) : WorkerInv cfg init w := by
  constructor <;> simp [init, valueAt, receivedItems]

theorem workerInv_step (cfg : Config) (s s' : State) (hstep : Step cfg s s') (w : Nat)
    (h : WorkerInv cfg s w) : WorkerInv cfg s' w := by
  obtain ⟨h1, h2, h3⟩ := h
  simp only [receivedItems] at h1
  cases hstep with
  | spawnConsumer id hm hle =>
    constructor <;> simp only [valueAt_append _ _ _ (by rfl : WorkerPc.todo WorkerPc.launched = 0),
      valueAt_append _ _ _ (by rfl : WorkerPc.holding WorkerPc.launched = 0),
      valueAt_append _ _ _ (by rfl : WorkerPc.gone WorkerPc.launched = 0), receivedItems] <;>
      assumption
  | spawnProducer id hm hle =>
    constructor <;> simp [Event.isAddBy, Event.isGrantBy, Event.isDoneBy, receivedItems,
      Event.itemsFor] <;> first | assumption | omega
  | load id hm hle =>
    constructor <;> simp [Event.isAddBy, Event.isGrantBy, Event.isDoneBy, receivedItems,
      Event.itemsFor] <;> first | assumption | omega
  | logDone id hm =>
    constructor <;> simp [Event.isAddBy, Event.isGrantBy, Event.isDoneBy, receivedItems,
      Event.itemsFor] <;> first | assumption | omega
  | report v hm =>
    constructor <;> simp [Event.isAddBy, Event.isGrantBy, Event.isDoneBy, receivedItems,
      Event.itemsFor] <;> first | assumption | omega
  | producerLaunched hne hp =>
    constructor <;> simp [Event.isAddBy, Event.isGrantBy, Event.isDoneBy, receivedItems,
      Event.itemsFor] <;> first | assumption | omega
  | close ops hne hp hcl =>
    constructor <;> simp [Event.isAddBy, Event.isGrantBy, Event.isDoneBy, receivedItems,
      Event.itemsFor] <;> first | assumption | omega
  | producerDone hne hp =>
    constructor <;> simp [Event.isAddBy, Event.isGrantBy, Event.isDoneBy, receivedItems,
      Event.itemsFor] <;> first | assumption | omega
  | workerLaunched w' hne hw =>
    have a1 := valueAt_update WorkerPc.todo s.workers w' w _ WorkerPc.recv hw
    have a2 := valueAt_update WorkerPc.holding s.workers w' w _ WorkerPc.recv hw
    have a3 := valueAt_update WorkerPc.gone s.workers w' w _ WorkerPc.recv hw
    by_cases hww : w' = w <;>
      simp only [hww, if_true, if_false, WorkerPc.todo, WorkerPc.holding, WorkerPc.gone,
        List.length_nil, List.length_cons] at a1 a2 a3 <;>
      constructor <;>
      (first
        | (intro hN; specialize h2 hN
           simp [Event.isAddBy, Event.isGrantBy, Event.isDoneBy, receivedItems, Event.itemsFor,
             List.countP_cons, limiterWait_ok _ hN, hww] <;> omega)
        | (simp [Event.isAddBy, Event.isGrantBy, Event.isDoneBy, receivedItems, Event.itemsFor,
             List.countP_cons, hww] <;> omega))
  | recvClosed w' hne hw hcl =>
    have a1 := valueAt_update WorkerPc.todo s.workers w' w _ WorkerPc.finish hw
    have a2 := valueAt_update WorkerPc.holding s.workers w' w _ WorkerPc.finish hw
    have a3 := valueAt_update WorkerPc.gone s.workers w' w _ WorkerPc.finish hw
    by_cases hww : w' = w <;>
      simp only [hww, if_true, if_false, WorkerPc.todo, WorkerPc.holding, WorkerPc.gone,
        List.length_nil, List.length_cons] at a1 a2 a3 <;>
      constructor <;>
      (first
        | (intro hN; specialize h2 hN
           simp [Event.isAddBy, Event.isGrantBy, Event.isDoneBy, receivedItems, Event.itemsFor,
             List.countP_cons, limiterWait_ok _ hN, hww] <;> omega)
        | (simp [Event.isAddBy, Event.isGrantBy, Event.isDoneBy, receivedItems, Event.itemsFor,
             List.countP_cons, hww] <;> omega))
  | batchDone w' hne hw =>
    have a1 := valueAt_update WorkerPc.todo s.workers w' w _ WorkerPc.recv hw
    have a2 := valueAt_update WorkerPc.holding s.workers w' w _ WorkerPc.recv hw
    have a3 := valueAt_update WorkerPc.gone s.workers w' w _ WorkerPc.recv hw
    by_cases hww : w' = w <;>
      simp only [hww, if_true, if_false, WorkerPc.todo, WorkerPc.holding, WorkerPc.gone,
        List.length_nil, List.length_cons] at a1 a2 a3 <;>
      constructor <;>
      (first
        | (intro hN; specialize h2 hN
           simp [Event.isAddBy, Event.isGrantBy, Event.isDoneBy, receivedItems, Event.itemsFor,
             List.countP_cons, limiterWait_ok _ hN, hww] <;> omega)
        | (simp [Event.isAddBy, Event.isGrantBy, Event.isDoneBy, receivedItems, Event.itemsFor,
             List.countP_cons, hww] <;> omega))
  | acquire w' x rest hne hw =>
    have a1 := valueAt_update WorkerPc.todo s.workers w' w _ (WorkerPc.acquired rest) hw
    have a2 := valueAt_update WorkerPc.holding s.workers w' w _ (WorkerPc.acquired rest) hw
    have a3 := valueAt_update WorkerPc.gone s.workers w' w _ (WorkerPc.acquired rest) hw
    by_cases hww : w' = w <;>
      simp only [hww, if_true, if_false, WorkerPc.todo, WorkerPc.holding, WorkerPc.gone,
        List.length_nil, List.length_cons] at a1 a2 a3 <;>
      constructor <;>
      (first
        | (intro hN; specialize h2 hN
           simp [Event.isAddBy, Event.isGrantBy, Event.isDoneBy, receivedItems, Event.itemsFor,
             List.countP_cons, limiterWait_ok _ hN, hww] <;> omega)
        | (simp [Event.isAddBy, Event.isGrantBy, Event.isDoneBy, receivedItems, Event.itemsFor,
             List.countP_cons, hww] <;> omega))
  | add w' rest hne hw =>
    have a1 := valueAt_update WorkerPc.todo s.workers w' w _ (WorkerPc.counted (wrapInt32 (s.counter + 1)) rest) hw
    have a2 := valueAt_update WorkerPc.holding s.workers w' w _ (WorkerPc.counted (wrapInt32 (s.counter + 1)) rest) hw
    have a3 := valueAt_update WorkerPc.gone s.workers w' w _ (WorkerPc.counted (wrapInt32 (s.counter + 1)) rest) hw
    by_cases hww : w' = w <;>
      simp only [hww, if_true, if_false, WorkerPc.todo, WorkerPc.holding, WorkerPc.gone,
        List.length_nil, List.length_cons] at a1 a2 a3 <;>
      constructor <;>
      (first
        | (intro hN; specialize h2 hN
           simp [Event.isAddBy, Event.isGrantBy, Event.isDoneBy, receivedItems, Event.itemsFor,
             List.countP_cons, limiterWait_ok _ hN, hww] <;> omega)
        | (simp [Event.isAddBy, Event.isGrantBy, Event.isDoneBy, receivedItems, Event.itemsFor,
             List.countP_cons, hww] <;> omega))
  | progress w' c rest hne hw =>
    have a1 := valueAt_update WorkerPc.todo s.workers w' w _ (WorkerPc.item rest) hw
    have a2 := valueAt_update WorkerPc.holding s.workers w' w _ (WorkerPc.item rest) hw
    have a3 := valueAt_update WorkerPc.gone s.workers w' w _ (WorkerPc.item rest) hw
    by_cases hmile : isMilestone c = true <;> simp only [hmile, if_true, if_false] <;>
    by_cases hww : w' = w <;>
      simp only [hww, if_true, if_false, WorkerPc.todo, WorkerPc.holding, WorkerPc.gone,
        List.length_nil, List.length_cons] at a1 a2 a3 <;>
      constructor <;>
      (first
        | (intro hN; specialize h2 hN
           simp [Event.isAddBy, Event.isGrantBy, Event.isDoneBy, receivedItems, Event.itemsFor,
             List.countP_cons, limiterWait_ok _ hN, hww] <;> omega)
        | (simp [Event.isAddBy, Event.isGrantBy, Event.isDoneBy, receivedItems, Event.itemsFor,
             List.countP_cons, hww] <;> omega))
  | send w' b ops hne hp hw hcl =>
    have a1 := valueAt_update WorkerPc.todo s.workers w' w _ (WorkerPc.item b) hw
    have a2 := valueAt_update WorkerPc.holding s.workers w' w _ (WorkerPc.item b) hw
    have a3 := valueAt_update WorkerPc.gone s.workers w' w _ (WorkerPc.item b) hw
    by_cases hww : w' = w <;>
      simp only [hww, if_true, if_false, WorkerPc.todo, WorkerPc.holding, WorkerPc.gone,
        List.length_nil, List.length_cons] at a1 a2 a3 <;>
      constructor <;>
      (first
        | (intro hN; specialize h2 hN
           simp [Event.isAddBy, Event.isGrantBy, Event.isDoneBy, receivedItems, Event.itemsFor,
             List.countP_cons, limiterWait_ok _ hN, hww] <;> omega)
        | (simp [Event.isAddBy, Event.isGrantBy, Event.isDoneBy, receivedItems, Event.itemsFor,
             List.countP_cons, hww] <;> omega))
  | done w' id hm hle hw =>
    have a1 := valueAt_update WorkerPc.todo s.workers w' w _ WorkerPc.exited hw
    have a2 := valueAt_update WorkerPc.holding s.workers w' w _ WorkerPc.exited hw
    have a3 := valueAt_update WorkerPc.gone s.workers w' w _ WorkerPc.exited hw
    by_cases hww : w' = w <;>
      simp only [hww, if_true, if_false, WorkerPc.todo, WorkerPc.holding, WorkerPc.gone,
        List.length_nil, List.length_cons] at a1 a2 a3 <;>
      constructor <;>
      (first
        | (intro hN; specialize h2 hN
           simp [Event.isAddBy, Event.isGrantBy, Event.isDoneBy, receivedItems, Event.itemsFor,
             List.countP_cons, limiterWait_ok _ hN, hww] <;> omega)
        | (simp [Event.isAddBy, Event.isGrantBy, Event.isDoneBy, receivedItems, Event.itemsFor,
             List.countP_cons, hww] <;> omega))

theorem reportInv_init : ReportInv init := by
  constructor <;> simp [init, MainPc.loaded, MainPc.over]

theorem mem_of_countP_pos {p : Event → Bool} {t : List Event} {e : Event}
    (he : e ∈ t) (hp : p e = true) : 0 < t.countP p :=
  List.countP_pos_iff.mpr ⟨e, he, hp⟩

theorem reportInv_keep (s : State) (p : ProducerPc) (ws : List WorkerPc) (cl : Bool)
    (h : ReportInv s) :
    ReportInv { main := s.main, producer := p, workers := ws, closed := cl,
                counter := s.counter, trace := s.trace } :=
  ⟨h.1, h.2, h.3, h.4, h.5⟩

theorem reportInv_frame (s : State) (p : ProducerPc) (ws : List WorkerPc) (cl : Bool) (c : Int)
    (e : Event) (h : ReportInv s) (hl : e.isLoad = false) (hs : e.isSummary = false)
    (hc : c = s.counter ∨ s.main.loaded = 0) :
    ReportInv { main := s.main, producer := p, workers := ws, closed := cl, counter := c,
                trace := e :: s.trace } := by
  obtain ⟨h1, h2, h3, h4, h5⟩ := h
  refine ⟨?_, ?_, ?_, ?_, ?_⟩
  · simp [List.countP_cons, hl, h1]
  · intro v hv
    simp only [List.mem_cons] at hv
    rcases hv with hv | hv
    · subst hv; simp [Event.isLoad] at hl
    · rcases hc with hc | hc
      · rw [hc]; exact h2 v hv
      · have := mem_of_countP_pos hv (by rfl : Event.isLoad (Event.load v) = true)
        omega
  · intro v hv
    exact List.mem_cons_of_mem _ (h3 v hv)
  · simp [List.countP_cons, hs, h4]
  · intro v hv
    simp only [List.mem_cons] at hv
    rcases hv with hv | hv
    · subst hv; simp [Event.isSummary] at hs
    · exact List.mem_cons_of_mem _ (h5 v hv)

theorem not_loaded_of_active {cfg : Config} {s : State} (hm : MainInv cfg s) {w : Nat}
    {pc : WorkerPc} (hw : s.workers[w]? = some pc) (hpc : pc ≠ WorkerPc.exited) :
    s.main.loaded = 0 := by
  unfold MainInv at hm
  cases hmain : s.main <;> rw [hmain] at hm <;> simp only [MainPc.loaded] <;>
    exact absurd (all_gone (by omega) hw) hpc

theorem reportInv_step (cfg : Config) (s s' : State) (hstep : Step cfg s s')
    (hm : MainInv cfg s) (h : ReportInv s) : ReportInv s' := by
  obtain ⟨h1, h2, h3, h4, h5⟩ := h
  cases hstep with
  | spawnConsumer id hm hle =>
    rw [hm] at h1 h4
    exact ⟨h1, h2, by simp, h4, h5⟩
  | spawnProducer id hm hle =>
    rw [hm] at h1 h4
    exact ⟨h1, h2, by simp, h4, h5⟩
  | load id hm hle =>
    rw [hm] at h1 h4
    simp only [MainPc.loaded, MainPc.over] at h1 h4
    refine ⟨by simp [Event.isLoad, MainPc.loaded, h1], ?_, by simp, by simp [Event.isSummary, MainPc.over, h4], ?_⟩
    · intro v hv
      simp only [List.mem_cons] at hv
      rcases hv with hv | hv
      · cases hv; rfl
      · have := mem_of_countP_pos hv (by rfl : Event.isLoad (Event.load v) = true)
        omega
    · intro v hv
      simp only [List.mem_cons] at hv ⊢
      rcases hv with hv | hv
      · cases hv
      · exact Or.inr (h5 v hv)
  | logDone id hm =>
    rw [hm] at h1 h4
    simp only [MainPc.loaded, MainPc.over] at h1 h4
    refine ⟨by simp [Event.isLoad, MainPc.loaded, h1], ?_, by simp, by simp [Event.isSummary, MainPc.over, h4], ?_⟩
    · intro v hv
      simp only [List.mem_cons] at hv
      rcases hv with hv | hv
      · cases hv
      · exact h2 v hv
    · intro v hv
      simp only [List.mem_cons] at hv ⊢
      rcases hv with hv | hv
      · cases hv
      · exact Or.inr (h5 v hv)
  | report v hm =>
    rw [hm] at h1 h4
    simp only [MainPc.loaded, MainPc.over] at h1 h4
    refine ⟨by simp [Event.isLoad, MainPc.loaded, h1], ?_, by simp, by simp [Event.isSummary, MainPc.over, h4], ?_⟩
    · intro v' hv
      simp only [List.mem_cons] at hv
      rcases hv with hv | hv
      · cases hv
      · exact h2 v' hv
    · intro v' hv
      simp only [List.mem_cons] at hv ⊢
      rcases hv with hv | hv
      · cases hv; exact Or.inr (h3 v hm)
      · exact Or.inr (h5 v' hv)
  | producerLaunched hne hp => exact reportInv_frame s _ _ _ _ _ ⟨h1, h2, h3, h4, h5⟩ rfl rfl (Or.inl rfl)
  | close ops hne hp hcl => exact reportInv_frame s _ _ _ _ _ ⟨h1, h2, h3, h4, h5⟩ rfl rfl (Or.inl rfl)
  | producerDone hne hp => exact reportInv_frame s _ _ _ _ _ ⟨h1, h2, h3, h4, h5⟩ rfl rfl (Or.inl rfl)
  | workerLaunched w hne hw =>
    exact reportInv_frame s _ _ _ _ _ ⟨h1, h2, h3, h4, h5⟩ rfl rfl (Or.inl rfl)
  | recvClosed w hne hw hcl => exact reportInv_keep s _ _ _ ⟨h1, h2, h3, h4, h5⟩
  | batchDone w hne hw => exact reportInv_keep s _ _ _ ⟨h1, h2, h3, h4, h5⟩
  | acquire w x rest hne hw =>
    exact reportInv_frame s _ _ _ _ _ ⟨h1, h2, h3, h4, h5⟩ rfl rfl (Or.inl rfl)
  | add w rest hne hw =>
    exact reportInv_frame s _ _ _ _ _ ⟨h1, h2, h3, h4, h5⟩ rfl rfl
      (Or.inr (not_loaded_of_active hm hw (by simp)))
  | progress w c rest hne hw =>
    by_cases hmile : isMilestone c = true
    · simp only [hmile, if_true]
      exact reportInv_frame s _ _ _ _ _ ⟨h1, h2, h3, h4, h5⟩ rfl rfl (Or.inl rfl)
    · simp only [hmile, if_false]
      exact reportInv_keep s _ _ _ ⟨h1, h2, h3, h4, h5⟩
  | send w b ops hne hp hw hcl =>
    exact reportInv_frame s _ _ _ _ _ ⟨h1, h2, h3, h4, h5⟩ rfl rfl (Or.inl rfl)
  | done w id hm' hle hw =>
    rw [hm'] at h1 h4
    simp only [MainPc.loaded, MainPc.over] at h1 h4
    refine ⟨by simp [Event.isLoad, MainPc.loaded, h1], ?_, by simp, by simp [Event.isSummary, MainPc.over, h4], ?_⟩
    · intro v hv
      simp only [List.mem_cons] at hv
      rcases hv with hv | hv
      · cases hv
      · exact h2 v hv
    · intro v hv
      simp only [List.mem_cons] at hv ⊢
      rcases hv with hv | hv
      · cases hv
      · exact Or.inr (h5 v hv)

/-! ### The progress lines -/

theorem progressInv_init : ProgressInv init := by
  intro v
  have : ¬ (isMilestone v = true ∧ 1 ≤ v ∧ v ≤ ((0 : Nat) : Int)) := by
    intro ⟨_, h1, h2⟩
    omega
  simp only [init, total, List.countP_nil, List.map_nil, List.sum_nil, if_neg this,
    Nat.add_zero]

theorem progressInv_keep (s : State) (m : MainPc) (p : ProducerPc) (ws : List WorkerPc)
    (cl : Bool) (h : ProgressInv s)
    (hr : ∀ v, total (WorkerPc.reporting v) ws = total (WorkerPc.reporting v) s.workers) :
    ProgressInv { main := m, producer := p, workers := ws, closed := cl,
                  counter := s.counter, trace := s.trace } := by
  intro v
  have := h v
  simp only [hr v]
  exact this

theorem progressInv_frame (s : State) (m : MainPc) (p : ProducerPc) (ws : List WorkerPc)
    (cl : Bool) (e : Event) (h : ProgressInv s)
    (hp : ∀ v, e.isProgress v = false) (ha : e.isAdd = false)
    (hr : ∀ v, total (WorkerPc.reporting v) ws = total (WorkerPc.reporting v) s.workers) :
    ProgressInv { main := m, producer := p, workers := ws, closed := cl,
                  counter := s.counter, trace := e :: s.trace } := by
  intro v
  have := h v
  simp only [hr v, List.countP_cons, hp v, ha, Bool.false_eq_true, if_false, Nat.add_zero]
  exact this

theorem tmod_five (v : Int) : Int.tmod v 5 = 0 ↔ v % 5 = 0 := by
  rw [← Int.dvd_iff_tmod_eq_zero, Int.dvd_iff_emod_eq_zero]

theorem progressInv_step (cfg : Config) (s s' : State) (hstep : Step cfg s s')
    (hT : (pendingItems cfg.ops : Int) < 2 ^ 31) (ht : TraceInv cfg s) (h : ProgressInv s) :
    ProgressInv s' := by
  cases hstep with
  | spawnConsumer id hm hle =>
    exact progressInv_keep s _ _ _ _ h (fun v => by simp [total_append, WorkerPc.reporting])
  | spawnProducer id hm hle => exact progressInv_keep s _ _ _ _ h (fun _ => rfl)
  | load id hm hle => exact progressInv_frame s _ _ _ _ _ h (fun _ => rfl) rfl (fun _ => rfl)
  | logDone id hm => exact progressInv_frame s _ _ _ _ _ h (fun _ => rfl) rfl (fun _ => rfl)
  | report v hm => exact progressInv_frame s _ _ _ _ _ h (fun _ => rfl) rfl (fun _ => rfl)
  | producerLaunched hne hp =>
    exact progressInv_frame s _ _ _ _ _ h (fun _ => rfl) rfl (fun _ => rfl)
  | close ops hne hp hcl =>
    exact progressInv_frame s _ _ _ _ _ h (fun _ => rfl) rfl (fun _ => rfl)
  | producerDone hne hp =>
    exact progressInv_frame s _ _ _ _ _ h (fun _ => rfl) rfl (fun _ => rfl)
  | workerLaunched w hne hw =>
    refine progressInv_frame s _ _ _ _ _ h (fun _ => rfl) rfl (fun v => ?_)
    have := total_set (WorkerPc.reporting v) s.workers w _ WorkerPc.recv hw
    simpa [WorkerPc.reporting] using this
  | recvClosed w hne hw hcl =>
    refine progressInv_keep s _ _ _ _ h (fun v => ?_)
    have := total_set (WorkerPc.reporting v) s.workers w _ WorkerPc.finish hw
    simpa [WorkerPc.reporting] using this
  | batchDone w hne hw =>
    refine progressInv_keep s _ _ _ _ h (fun v => ?_)
    have := total_set (WorkerPc.reporting v) s.workers w _ WorkerPc.recv hw
    simpa [WorkerPc.reporting] using this
  | acquire w x rest hne hw =>
    refine progressInv_frame s _ _ _ _ _ h (fun _ => rfl) rfl (fun v => ?_)
    have := total_set (WorkerPc.reporting v) s.workers w _ (WorkerPc.acquired rest) hw
    simpa [WorkerPc.reporting] using this
  | add w rest hne hw =>
    have hA := ht.account
    have hc := ht.counter
    have htodo := total_get_le WorkerPc.todo s.workers w _ hw
    simp only [WorkerPc.todo] at htodo
    have hnew : wrapInt32 (s.counter + 1) = (s.trace.countP Event.isAdd : Int) + 1 := by
      rw [hc, wrapInt32_succ, wrapInt32_eq _ (by omega) (by omega)]
    rw [hnew]
    intro v
    have hv := h v
    have hset := total_set (WorkerPc.reporting v) s.workers w _
      (WorkerPc.counted ((s.trace.countP Event.isAdd : Int) + 1) rest) hw
    simp only [WorkerPc.reporting, Nat.add_zero] at hset
    simp only [List.countP_cons, Event.isProgress, Event.isAdd, Bool.false_eq_true, if_false,
      if_true, Nat.add_zero, Nat.cast_add, Nat.cast_one]
    rw [hset, ← Nat.add_assoc, hv]
    by_cases hcv : (s.trace.countP Event.isAdd : Int) + 1 = v
    · subst hcv
      by_cases hmile : isMilestone ((s.trace.countP Event.isAdd : Int) + 1) = true
      · simp [hmile]
      · simp [hmile]
    · by_cases hmile : isMilestone v = true
      · simp only [hmile, hcv, true_and, false_and, if_false, Nat.add_zero]
        congr 1
        apply propext
        constructor
        · intro ⟨a, b⟩; exact ⟨a, by omega⟩
        · intro ⟨a, b⟩; exact ⟨a, by omega⟩
      · simp [hmile, hcv]
  | progress w c rest hne hw =>
    intro v
    have hv := h v
    have hset := total_set (WorkerPc.reporting v) s.workers w _ (WorkerPc.item rest) hw
    simp only [WorkerPc.reporting, Nat.add_zero] at hset
    by_cases hmile : isMilestone c = true
    · simp only [hmile, if_true, and_true] at hset ⊢
      simp only [List.countP_cons, Event.isProgress, Event.isAdd, Bool.false_eq_true, if_false,
        Nat.add_zero, decide_eq_true_eq]
      rw [← hv]
      omega
    · simp only [hmile, if_false, and_false, Bool.false_eq_true, Nat.add_zero] at hset ⊢
      rw [← hv]
      omega
  | send w b ops hne hp hw hcl =>
    refine progressInv_frame s _ _ _ _ _ h (fun _ => rfl) rfl (fun v => ?_)
    have := total_set (WorkerPc.reporting v) s.workers w _ (WorkerPc.item b) hw
    simpa [WorkerPc.reporting] using this
  | done w id hm hle hw =>
    refine progressInv_frame s _ _ _ _ _ h (fun _ => rfl) rfl (fun v => ?_)
    have := total_set (WorkerPc.reporting v) s.workers w _ WorkerPc.exited hw
    simpa [WorkerPc.reporting] using this

/-- All the invariants of a state. -/
theorem invariants (cfg : Config) (bs : List (List Int)) (hops : cfg.ops = sendAll bs)
    (s : State) (hs : Reachable cfg s) :
    ChanInv cfg s ∧ MainInv cfg s ∧ TraceInv cfg s ∧ ReportInv s ∧ (∀ w, WorkerInv cfg s w)
      ∧ ((pendingItems cfg.ops : Int) < 2 ^ 31 → ProgressInv s) := by
  refine reachable_invariant cfg (fun s => ChanInv cfg s ∧ MainInv cfg s ∧ TraceInv cfg s
    ∧ ReportInv s ∧ (∀ w, WorkerInv cfg s w)
    ∧ ((pendingItems cfg.ops : Int) < 2 ^ 31 → ProgressInv s))
    ⟨chanInv_init cfg bs hops, mainInv_init cfg, traceInv_init cfg, reportInv_init,
      fun w => workerInv_init cfg w, fun _ => progressInv_init⟩ ?_ s hs
  intro s s' hstep ⟨h1, h2, h3, h4, h5, h6⟩
  exact ⟨chanInv_step cfg s s' hstep h1, mainInv_step cfg s s' hstep h2,
    traceInv_step cfg s s' hstep h1 h3, reportInv_step cfg s s' hstep h2 h4,
    fun w => workerInv_step cfg s s' hstep w (h5 w),
    fun hT => progressInv_step cfg s s' hstep hT h3 (h6 hT)⟩

theorem step_trace {cfg : Config} {s s' : State} (h : Step cfg s s') :
    s'.trace = s.trace ∨ ∃ e, s'.trace = e :: s.trace := by
  cases h
  case progress w c rest hne hw =>
    by_cases hmile : isMilestone c = true
    · exact Or.inr ⟨Event.logProcessed c, by simp [hmile]⟩
    · exact Or.inl (by simp [hmile])
  all_goals first | exact Or.inl rfl | exact Or.inr ⟨_, rfl⟩

theorem run_snoc (cfg : Config) (sched : List Action) (a : Action) :
    run cfg (sched ++ [a]) = (run cfg sched).bind (fun s => step cfg s a) := by
  simp only [run, runFrom_append]
  cases runFrom cfg init sched with
  | none => rfl
  | some s =>
    simp only [Option.bind, runFrom]
    cases step cfg s a <;> rfl

/-- Every earlier trace of a run is the trace of a reachable state. -/
theorem reachable_suffix (cfg : Config) :
    ∀ (sched : List Action) (s : State), run cfg sched = some s →
      ∀ t, t <:+ s.trace → ∃ s0, Reachable cfg s0 ∧ s0.trace = t := by
  intro sched
  induction sched using List.reverseRecOn with
  | nil =>
    intro s h t ht
    simp [run, runFrom] at h
    subst h
    simp [init] at ht
    exact ⟨init, ⟨[], rfl⟩, by simp [init, ht]⟩
  | append_singleton sched a ih =>
    intro s h t ht
    rw [run_snoc] at h
    cases hr : run cfg sched with
    | none => simp [hr] at h
    | some s1 =>
      simp [hr] at h
      rcases step_trace (step_sound h) with h1 | ⟨e, h1⟩
      · rw [h1] at ht
        exact ih s1 hr t ht
      · rw [h1, List.suffix_cons_iff] at ht
        rcases ht with ht | ht
        · refine ⟨s, ⟨sched ++ [a], ?_⟩, by rw [h1, ht]⟩
          rw [run_snoc, hr]; simpa using h
        · exact ih s1 hr t ht

/-! ### Every run is finite -/

theorem rank_step (cfg : Config) (s s' : State) (hstep : Step cfg s s')
    (hch : ChanInv cfg s) : s'.rank cfg < s.rank cfg := by
  cases hstep with
  | spawnConsumer id hm hle =>
    simp only [State.rank, hm, MainPc.rank, total_append, WorkerPc.rank]
    omega
  | spawnProducer id hm hle =>
    simp only [State.rank, hm, MainPc.rank, ProducerPc.rank, producer_notStarted hch hm]
    omega
  | load id hm hle =>
    simp only [State.rank, hm, MainPc.rank]
    omega
  | logDone id hm =>
    simp only [State.rank, hm, MainPc.rank]
    omega
  | report v hm =>
    simp only [State.rank, hm, MainPc.rank]
    omega
  | producerLaunched hne hp =>
    simp only [State.rank, hp, ProducerPc.rank]
    omega
  | close ops hne hp hcl =>
    simp only [State.rank, hp, ProducerPc.rank, opsRank]
    omega
  | producerDone hne hp =>
    simp only [State.rank, hp, ProducerPc.rank, opsRank]
    omega
  | workerLaunched w hne hw =>
    have := total_set WorkerPc.rank s.workers w _ WorkerPc.recv hw
    simp only [WorkerPc.rank, List.length_cons] at this
    simp only [State.rank]
    omega
  | recvClosed w hne hw hcl =>
    have := total_set WorkerPc.rank s.workers w _ WorkerPc.finish hw
    simp only [WorkerPc.rank, List.length_cons] at this
    simp only [State.rank]
    omega
  | batchDone w hne hw =>
    have := total_set WorkerPc.rank s.workers w _ WorkerPc.recv hw
    simp only [WorkerPc.rank, List.length_cons] at this
    simp only [State.rank]
    omega
  | acquire w x rest hne hw =>
    have := total_set WorkerPc.rank s.workers w _ (WorkerPc.acquired rest) hw
    simp only [WorkerPc.rank, List.length_cons] at this
    simp only [State.rank]
    omega
  | add w rest hne hw =>
    have := total_set WorkerPc.rank s.workers w _ (WorkerPc.counted (wrapInt32 (s.counter + 1)) rest) hw
    simp only [WorkerPc.rank, List.length_cons] at this
    simp only [State.rank]
    omega
  | progress w c rest hne hw =>
    have := total_set WorkerPc.rank s.workers w _ (WorkerPc.item rest) hw
    simp only [WorkerPc.rank, List.length_cons] at this
    simp only [State.rank]
    omega
  | send w b ops hne hp hw hcl =>
    have := total_set WorkerPc.rank s.workers w _ (WorkerPc.item b) hw
    simp only [WorkerPc.rank] at this
    simp only [State.rank, hp, ProducerPc.rank, opsRank]
    omega
  | done w id hm hle hw =>
    have := total_set WorkerPc.rank s.workers w _ WorkerPc.exited hw
    simp only [WorkerPc.rank] at this
    simp only [State.rank, hm, MainPc.rank]
    omega

theorem reachable_step {cfg : Config} {s s' : State} {a : Action} (hs : Reachable cfg s)
    (h : step cfg s a = some s') : Reachable cfg s' :=
  @reachable_runFrom cfg s s' [a] hs (by simp [runFrom, h])

theorem runFrom_rank (cfg : Config) (bs : List (List Int)) (hops : cfg.ops = sendAll bs) :
    ∀ (sched : List Action) (s s' : State), Reachable cfg s → runFrom cfg s sched = some s' →
      sched.length + s'.rank cfg ≤ s.rank cfg := by
  intro sched
  induction sched with
  | nil =>
    intro s s' _ h
    simp [runFrom] at h
    subst h; simp
  | cons a sched ih =>
    intro s s' hs h
    simp only [runFrom] at h
    cases hst : step cfg s a with
    | none => simp [hst] at h
    | some s1 =>
      simp [hst] at h
      have h1 := rank_step cfg s s1 (step_sound hst) (invariants cfg bs hops s hs).1
      have h2 := ih s1 s' (reachable_step hs hst) h
      simp only [List.length_cons]
      omega

theorem reachable_init (cfg : Config) : Reachable cfg init := ⟨[], rfl⟩

/-! ### No deadlock -/

theorem total_pos (f : WorkerPc → Nat) :
    ∀ ws : List WorkerPc, 0 < total f ws →
      ∃ (w : Nat) (pc : WorkerPc), ws[w]? = some pc ∧ 0 < f pc := by
  intro ws
  induction ws with
  | nil => intro h; simp [total] at h
  | cons pc ws ih =>
    intro h
    by_cases hpc : 0 < f pc
    · exact ⟨0, pc, by simp, hpc⟩
    · have : 0 < total f ws := by
        simp only [total, List.map_cons, List.sum_cons] at h ⊢
        omega
      obtain ⟨w, pc', h1, h2⟩ := ih this
      exact ⟨w + 1, pc', by simpa using h1, h2⟩

theorem total_partition (ws : List WorkerPc) :
    total WorkerPc.busy ws + total WorkerPc.receiving ws + total WorkerPc.finishing ws
      + total WorkerPc.gone ws = ws.length := by
  induction ws with
  | nil => simp [total]
  | cons pc ws ih =>
    simp only [total, List.map_cons, List.sum_cons, List.length_cons] at ih ⊢
    cases pc <;>
      simp only [WorkerPc.busy, WorkerPc.receiving, WorkerPc.finishing, WorkerPc.gone] <;> omega

/-- As long as `main` has not returned, some goroutine can move. -/
theorem not_stuck (cfg : Config) (bs : List (List Int)) (hops : cfg.ops = sendAll bs)
    (s : State) (hs : Reachable cfg s) (hne : s.main ≠ MainPc.exited) :
    ∃ a s', step cfg s a = some s' := by
  obtain ⟨hch, hmi, -⟩ := invariants cfg bs hops s hs
  cases hmain : s.main with
  | exited => exact absurd hmain hne
  | spawn id =>
    refine ⟨Action.main, ?_⟩
    simp only [step, hmain, stepMain]
    by_cases h : id ≤ cfg.consumerCount <;> simp [h]
  | logDone id =>
    refine ⟨Action.main, ?_⟩
    simp [step, hmain, stepMain]
  | report v =>
    refine ⟨Action.main, ?_⟩
    simp [step, hmain, stepMain]
  | await id =>
    by_cases hid : id ≤ cfg.consumerCount
    · simp only [MainInv, hmain] at hmi
      have hpart := total_partition s.workers
      by_cases hbusy : 0 < total WorkerPc.busy s.workers
      · obtain ⟨w, pc, hw, hpc⟩ := total_pos _ _ hbusy
        refine ⟨Action.worker w, ?_⟩
        cases pc with
        | item rest =>
          cases rest <;> simp [step, hmain, stepWorker, hw]
        | _ => first | simp [WorkerPc.busy] at hpc; done | simp [step, hmain, stepWorker, hw]
      · by_cases hfin : 0 < total WorkerPc.finishing s.workers
        · obtain ⟨w, pc, hw, hpc⟩ := total_pos _ _ hfin
          refine ⟨Action.done w, ?_⟩
          cases pc <;> first | simp [WorkerPc.finishing] at hpc; done
                             | simp [step, hmain, stepDone, hw, hid]
        · have hrecv : 0 < total WorkerPc.receiving s.workers := by omega
          obtain ⟨w, pc, hw, hpc⟩ := total_pos _ _ hrecv
          have hpc' : pc = WorkerPc.recv := by
            cases pc <;> first | rfl | simp [WorkerPc.receiving] at hpc
          subst hpc'
          by_cases hcl : s.closed = true
          · exact ⟨Action.worker w, by simp [step, hmain, stepWorker, hw, hcl]⟩
          · have hcl' : s.closed = false := by simpa using hcl
            obtain ⟨bs', hbs⟩ := hch.opsOpen hcl'
            have hst := hch.started
            rw [hmain] at hst
            simp only [MainPc.spawning] at hst
            cases hp : s.producer with
            | notStarted => rw [hp] at hst; simp [ProducerPc.waiting] at hst
            | launched => exact ⟨Action.producer, by simp [step, hmain, stepProducer, hp]⟩
            | exited =>
              simp only [State.opsLeft, hp] at hbs
              exact absurd hbs.symm (sendAll_ne_nil bs')
            | running ops =>
              simp only [State.opsLeft, hp] at hbs
              subst hbs
              cases bs' with
              | nil =>
                exact ⟨Action.producer, by simp [step, hmain, stepProducer, hp, sendAll, hcl']⟩
              | cons b bs'' =>
                exact ⟨Action.send w, by simp [step, hmain, stepSend, hp, sendAll, hw, hcl']⟩
    · refine ⟨Action.main, ?_⟩
      simp [step, hmain, stepMain, hid]

/-- A state in which nothing can move is one in which `main` has returned. -/
theorem terminal_exited (cfg : Config) (bs : List (List Int)) (hops : cfg.ops = sendAll bs)
    (s : State) (hs : Reachable cfg s) (ht : s.terminal cfg) : s.main = MainPc.exited := by
  by_contra hne
  obtain ⟨a, s', h⟩ := not_stuck cfg bs hops s hs hne
  rw [ht a] at h
  cases h

/-- Every run can be continued until `main` returns. -/
theorem can_finish (cfg : Config) (bs : List (List Int)) (hops : cfg.ops = sendAll bs) :
    ∀ (n : Nat) (s : State), s.rank cfg ≤ n → Reachable cfg s →
      ∃ sched s', runFrom cfg s sched = some s' ∧ s'.main = MainPc.exited := by
  intro n
  induction n with
  | zero =>
    intro s hr hs
    by_cases hne : s.main = MainPc.exited
    · exact ⟨[], s, rfl, hne⟩
    · obtain ⟨a, s', h⟩ := not_stuck cfg bs hops s hs hne
      have := rank_step cfg s s' (step_sound h) (invariants cfg bs hops s hs).1
      omega
  | succ n ih =>
    intro s hr hs
    by_cases hne : s.main = MainPc.exited
    · exact ⟨[], s, rfl, hne⟩
    · obtain ⟨a, s', h⟩ := not_stuck cfg bs hops s hs hne
      have := rank_step cfg s s' (step_sound h) (invariants cfg bs hops s hs).1
      obtain ⟨sched, s'', h1, h2⟩ := ih s' (by omega) (reachable_step hs h)
      exact ⟨a :: sched, s'', by simp [runFrom, h, h1], h2⟩

/-! ### The producer -/

theorem wrapInt_eq (x : Int) (h1 : -(2 ^ 63) ≤ x) (h2 : x < 2 ^ 63) : wrapInt x = x := by
  unfold wrapInt; omega

theorem fillBatch_eq (bound : Int) (hb : bound < 2 ^ 63) :
    ∀ (n fuel : Nat) (p : Int) (acc : List Int), n ≤ fuel → -(2 ^ 63) ≤ p → p + n = bound →
      fillBatch bound fuel p acc = acc ++ (List.range n).map (fun (j : Nat) => p + (j : Int)) := by
  intro n
  induction n with
  | zero =>
    intro fuel p acc _ _ hp
    cases fuel with
    | zero => simp [fillBatch]
    | succ f => simp [fillBatch]; omega
  | succ n ih =>
    intro fuel p acc hf hp0 hp
    cases fuel with
    | zero => omega
    | succ f =>
      have hlt : p < bound := by omega
      have hw : wrapInt (p + 1) = p + 1 := wrapInt_eq _ (by omega) (by omega)
      rw [fillBatch, if_pos hlt, hw,
        ih f (p + 1) (acc ++ [p]) (by omega) (by omega) (by push_cast at hp ⊢; omega)]
      rw [List.range_succ_eq_map]
      simp [List.map_map, Function.comp_def]
      intro a _
      omega

theorem fillBatch_decade (k : Nat) (h : 10 * (k : Int) + 10 < 2 ^ 63) :
    fillBatch (wrapInt (10 * (k : Int) + 10)) 10 (10 * (k : Int)) [] = decade k := by
  rw [wrapInt_eq _ (by omega) h]
  rw [fillBatch_eq _ h 10 10 _ _ (le_refl _) (by omega) (by norm_num)]
  simp [decade]

/-- When `i+10` overflows, the inner loop does not run at all: the batch is
empty. -/
theorem fillBatch_overflow (i : Int) (h1 : i < 2 ^ 63) (h2 : 2 ^ 63 ≤ i + 10) :
    fillBatch (wrapInt (i + 10)) 10 i [] = [] := by
  have : ¬ (i < wrapInt (i + 10)) := by
    unfold wrapInt
    omega
  rw [fillBatch, if_neg this]

theorem producerLoop_eq (total : Int) (hmax : total ≤ 2 ^ 63 - 10) :
    ∀ (k j fuel : Nat), k < fuel → (10 * (j : Int) < total ∨ k = 0) →
      total ≤ 10 * ((j + k : Nat) : Int) → 10 * ((j + k : Nat) : Int) < total + 10 →
      producerLoop total fuel (10 * (j : Int)) =
        some ((List.range' j k).map (fun m => ChanOp.send (decade m)) ++ [ChanOp.close]) := by
  intro k
  induction k with
  | zero =>
    intro j fuel hf _ hge _
    cases fuel with
    | zero => omega
    | succ f =>
      have : ¬ (10 * (j : Int) < total) := by simpa using hge
      simp [producerLoop, this]
  | succ k ih =>
    intro j fuel hf hlt hge hup
    cases fuel with
    | zero => omega
    | succ f =>
      have hlt2 : 10 * (j : Int) < total := by
        rcases hlt with h | h
        · exact h
        · omega
      have hw : wrapInt (10 * (j : Int) + 10) = 10 * ((j + 1 : Nat) : Int) := by
        rw [wrapInt_eq _ (by omega) (by omega)]; push_cast; ring
      have hfill := fillBatch_decade j (by omega)
      rw [producerLoop, if_pos hlt2, hfill, hw,
        ih (j + 1) f (by omega) (by push_cast at hup ⊢; omega) (by push_cast at hge ⊢; omega)
          (by push_cast at hup ⊢; omega)]
      simp [List.range']

/-- With enough fuel for its loop tests, the producer sends the decades
`0, 1, ..., ⌈total/10⌉ - 1` in order and then closes. -/
theorem producer_eq (total : Int) (h0 : 0 ≤ total) (hmax : total ≤ 2 ^ 63 - 10) (fuel : Nat)
    (hfuel : (total.toNat + 9) / 10 < fuel) :
    producer total fuel = some (sendAll ((List.range ((total.toNat + 9) / 10)).map decade)) := by
  have h := producerLoop_eq total hmax ((total.toNat + 9) / 10) 0 fuel hfuel
    (by
      rcases Nat.eq_zero_or_pos ((total.toNat + 9) / 10) with h | h
      · exact Or.inr h
      · left; omega)
    (by push_cast; omega) (by push_cast; omega)
  simp only [Nat.cast_zero, mul_zero] at h
  rw [producer, h, sendAll, List.range_eq_range', List.map_map]
  rfl

theorem sentBatches_sendAll (bs : List (List Int)) : sentBatches (sendAll bs) = bs := by
  induction bs with
  | nil => rfl
  | cons b bs ih => rw [sendAll_cons, sentBatches, ih]

theorem join_decades (n : Nat) :
    ((List.range n).map decade).flatten = (List.range (10 * n)).map Int.ofNat := by
  induction n with
  | zero => rfl
  | succ n ih =>
    rw [List.range_succ, List.map_append, List.flatten_append, ih]
    have : 10 * (n + 1) = 10 * n + 10 := by ring
    rw [this, List.range_add, List.map_append]
    simp [decade, List.map_map, Function.comp_def]

theorem programOps_eq : programOps = sendAll ((List.range 20).map decade) := by
  have := producer_eq 200 (by decide) (by decide) 21 (by decide)
  simp only [programOps, projectTotalAmount, this]
  rfl

/-! ### The state once every worker has left its loop -/

theorem todo_of_left {pc : WorkerPc} (h : pc.leftLoop = true) :
    pc.todo = 0 ∧ pc.holding = 0 ∧ pc.left = 1 ∧ ∀ v, pc.reporting v = 0 := by
  cases pc <;> simp [WorkerPc.leftLoop] at h <;>
    simp [WorkerPc.todo, WorkerPc.holding, WorkerPc.left, WorkerPc.reporting]

theorem left_le_one (pc : WorkerPc) : pc.left ≤ 1 := by
  cases pc <;> simp [WorkerPc.left]

/-- Once all workers have left their loop, and there is at least one, the
channel is closed, the producer has nothing left to send, no worker owes an
increment or holds a permit, and every item has been counted. -/
theorem all_left (cfg : Config) (bs : List (List Int)) (hops : cfg.ops = sendAll bs)
    (s : State) (hs : Reachable cfg s) (hN : 1 ≤ cfg.consumerCount) (hleft : s.allLeft cfg) :
    s.closed = true ∧ total WorkerPc.todo s.workers = 0 ∧ total WorkerPc.holding s.workers = 0
      ∧ (∀ v, total (WorkerPc.reporting v) s.workers = 0)
      ∧ s.trace.countP Event.isAdd = pendingItems cfg.ops := by
  obtain ⟨hch, -, htr, -⟩ := invariants cfg bs hops s hs
  obtain ⟨hlen, hall⟩ := hleft
  have h1 : total WorkerPc.todo s.workers = 0 :=
    (total_eq_zero _ _).mpr (fun pc hpc => (todo_of_left (hall pc hpc)).1)
  have h2 : total WorkerPc.holding s.workers = 0 :=
    (total_eq_zero _ _).mpr (fun pc hpc => (todo_of_left (hall pc hpc)).2.1)
  have h3 : total WorkerPc.left s.workers = s.workers.length :=
    (total_eq_length _ left_le_one _).mpr (fun pc hpc => (todo_of_left (hall pc hpc)).2.2.1)
  have h4 : ∀ v, total (WorkerPc.reporting v) s.workers = 0 := fun v =>
    (total_eq_zero _ _).mpr (fun pc hpc => (todo_of_left (hall pc hpc)).2.2.2 v)
  have hcl : s.closed = true := by
    by_contra hcl
    have := hch.leftClosed (by simpa using hcl)
    omega
  have h5 := hch.opsClosed hcl
  have h6 := htr.account
  rw [h5, h1] at h6
  simp only [pendingItems] at h6
  exact ⟨hcl, h1, h2, h4, by omega⟩

/-- Once `main` has loaded the counter, all workers have left their loop. -/
theorem allLeft_of_loaded (cfg : Config) (s : State) (hm : MainInv cfg s)
    (h : s.main.loaded = 1) : s.allLeft cfg := by
  unfold MainInv at hm
  have key : s.workers.length = cfg.consumerCount
      ∧ total WorkerPc.gone s.workers = cfg.consumerCount := by
    cases hmain : s.main <;> rw [hmain] at hm h <;> simp only [MainPc.loaded] at h <;>
      first | omega | exact ⟨hm.1, hm.2.1⟩ | exact ⟨hm.1, hm.2⟩
  refine ⟨key.1, fun pc hpc => ?_⟩
  have := (total_eq_length _ gone_le_one _).mp (by omega) pc hpc
  cases pc <;> simp [WorkerPc.gone] at this
  rfl

theorem loaded_of_mem {s : State} (hr : ReportInv s) {v : Int} (h : Event.load v ∈ s.trace) :
    s.main.loaded = 1 := by
  have h1 := mem_of_countP_pos h (by rfl : Event.isLoad (Event.load v) = true)
  have h2 := hr.loadCount
  cases hmain : s.main <;> rw [hmain] at h2 <;> simp only [MainPc.loaded] at h2 ⊢ <;> omega

/-- The counter once all workers have left their loop, and the value `main`
loads: the number of items, wrapped to 32 bits. -/
theorem final_counter (cfg : Config) (bs : List (List Int)) (hops : cfg.ops = sendAll bs)
    (s : State) (hs : Reachable cfg s) (hN : 1 ≤ cfg.consumerCount) :
    (s.allLeft cfg → s.counter = wrapInt32 (pendingItems cfg.ops))
      ∧ (∀ v, Event.load v ∈ s.trace → v = wrapInt32 (pendingItems cfg.ops)) := by
  obtain ⟨-, hmi, htr, hr, -⟩ := invariants cfg bs hops s hs
  have h1 : s.allLeft cfg → s.counter = wrapInt32 (pendingItems cfg.ops) := by
    intro hleft
    rw [htr.counter, (all_left cfg bs hops s hs hN hleft).2.2.2.2]
  refine ⟨h1, fun v hv => ?_⟩
  rw [hr.loadValue v hv]
  exact h1 (allLeft_of_loaded cfg s hmi (loaded_of_mem hr hv))

theorem terminal_of_exited (cfg : Config) (s : State) (h : s.main = MainPc.exited) :
    s.terminal cfg := by
  intro a
  simp [step, h]

/-- Every configuration has a complete run. -/
theorem complete_run (cfg : Config) (bs : List (List Int)) (hops : cfg.ops = sendAll bs) :
    ∃ sched s, run cfg sched = some s ∧ s.main = MainPc.exited :=
  can_finish cfg bs hops _ init (le_refl _) (reachable_init cfg)

theorem countP_acquire (t : List Event) :
    t.countP Event.isAcquire = t.countP Event.isGrant + t.countP Event.isRefusal := by
  induction t with
  | nil => rfl
  | cons e t ih =>
    simp only [List.countP_cons, ih]
    cases e <;> simp [Event.isAcquire, Event.isGrant, Event.isRefusal]
    case acquire w ok => cases ok <;> simp <;> omega

theorem holdsAfter_spec {cfg : Config} {sched : List Action} {p : State → Bool}
    (h : holdsAfter cfg sched p = true) : ∃ s, run cfg sched = some s ∧ p s = true := by
  unfold holdsAfter at h
  cases hr : run cfg sched with
  | none => simp [hr] at h
  | some s => exact ⟨s, rfl, by simpa [hr] using h⟩

theorem program_items : pendingItems program.ops = 200 := by
  show pendingItems programOps = 200
  rw [programOps_eq, pendingItems_sendAll]
  rfl

theorem program_ops : program.ops = sendAll ((List.range 20).map decade) := programOps_eq

theorem reachable_run {cfg : Config} {sched : List Action} {s : State}
    (h : run cfg sched = some s) : Reachable cfg s := ⟨sched, h⟩

/-! ### After the last done signal -/

theorem length_le (cfg : Config) (s : State) (hm : MainInv cfg s) :
    s.workers.length ≤ cfg.consumerCount := by
  unfold MainInv at hm
  cases hmain : s.main <;> rw [hmain] at hm <;> dsimp only at hm <;> omega

/-- Once every worker has exited, no step changes the workers, the counter or
the number of increments. -/
theorem frozen_step (cfg : Config) (ws : List WorkerPc) (c : Int) (k : Nat)
    (hws : total WorkerPc.gone ws = ws.length) (hn : ws.length = cfg.consumerCount)
    (s s' : State) (hstep : Step cfg s s')
    (h : MainInv cfg s ∧ s.workers = ws ∧ s.counter = c ∧ s.trace.countP Event.isAdd = k) :
    MainInv cfg s' ∧ s'.workers = ws ∧ s'.counter = c ∧ s'.trace.countP Event.isAdd = k := by
  obtain ⟨hm, h1, h2, h3⟩ := h
  refine ⟨mainInv_step cfg s s' hstep hm, ?_⟩
  have hgone : total WorkerPc.gone s.workers = s.workers.length := by rw [h1]; exact hws
  cases hstep with
  | spawnConsumer id hmain hle =>
    simp only [MainInv, hmain] at hm
    rw [h1] at hm
    omega
  | spawnProducer id hmain hle => exact ⟨h1, h2, h3⟩
  | load id hmain hle => exact ⟨h1, h2, by simpa [Event.isAdd] using h3⟩
  | logDone id hmain => exact ⟨h1, h2, by simpa [Event.isAdd] using h3⟩
  | report v hmain => exact ⟨h1, h2, by simpa [Event.isAdd] using h3⟩
  | producerLaunched hne hp => exact ⟨h1, h2, by simpa [Event.isAdd] using h3⟩
  | close ops hne hp hcl => exact ⟨h1, h2, by simpa [Event.isAdd] using h3⟩
  | producerDone hne hp => exact ⟨h1, h2, by simpa [Event.isAdd] using h3⟩
  | workerLaunched w hne hw => exact absurd (all_gone hgone hw) (by simp)
  | recvClosed w hne hw hcl => exact absurd (all_gone hgone hw) (by simp)
  | batchDone w hne hw => exact absurd (all_gone hgone hw) (by simp)
  | acquire w x rest hne hw => exact absurd (all_gone hgone hw) (by simp)
  | add w rest hne hw => exact absurd (all_gone hgone hw) (by simp)
  | progress w c' rest hne hw => exact absurd (all_gone hgone hw) (by simp)
  | send w b ops hne hp hw hcl => exact absurd (all_gone hgone hw) (by simp)
  | done w id hmain hle hw => exact absurd (all_gone hgone hw) (by simp)

/-- Once `main` has all the done signals, the counter and the number of
increments stay what they are, whatever runs next. -/
theorem frozen (cfg : Config) (bs : List (List Int)) (hops : cfg.ops = sendAll bs)
    (s : State) (hs : Reachable cfg s) (hd : s.trace.countP Event.isDone = cfg.consumerCount)
    (sched : List Action) (s' : State) (hrun : runFrom cfg s sched = some s') :
    s'.counter = s.counter ∧ s'.trace.countP Event.isAdd = s.trace.countP Event.isAdd := by
  obtain ⟨-, hmi, htr, -⟩ := invariants cfg bs hops s hs
  have hlen := length_le cfg s hmi
  have hgl := total_le_length _ gone_le_one s.workers
  have hdones := htr.dones
  have h := runFrom_invariant cfg
    (fun s' => MainInv cfg s' ∧ s'.workers = s.workers ∧ s'.counter = s.counter
      ∧ s'.trace.countP Event.isAdd = s.trace.countP Event.isAdd)
    (frozen_step cfg s.workers s.counter _ (by omega) (by omega)) sched s s'
    ⟨hmi, rfl, rfl, rfl⟩ hrun
  exact ⟨h.2.2.1, h.2.2.2⟩

theorem valueAt_gone_one {ws : List WorkerPc} {w : Nat} (h : valueAt WorkerPc.gone ws w = 1) :
    ws[w]? = some WorkerPc.exited := by
  unfold valueAt at h
  cases hw : ws[w]? with
  | none => simp [hw] at h
  | some pc =>
    rw [hw] at h
    cases pc <;> simp [WorkerPc.gone] at h
    rfl

theorem mem_closed_of_countP {t : List Event} (h : 0 < t.countP Event.isClose) :
    Event.closed ∈ t := by
  obtain ⟨e, he, hc⟩ := List.countP_pos_iff.mp h
  cases e <;> simp [Event.isClose] at hc
  exact he

theorem mem_of_suffix_cons {e : Event} {t l : List Event} (h : (e :: t) <:+ l) : e ∈ l :=
  h.subset (List.mem_cons_self e t)

theorem suffix_of_suffix_cons {e : Event} {t l : List Event} (h : (e :: t) <:+ l) : t <:+ l :=
  (List.suffix_cons e t).trans h

/-! ### The token bucket -/

theorem grant_some {b b1 : Bucket} {t : ℚ} (h : b.grant t = some b1) :
    b.last ≤ t ∧ 1 ≤ b.tokensAt t ∧ b1.rate = b.rate ∧ b1.burst = b.burst
      ∧ b1.tokens = b.tokensAt t - 1 ∧ b1.last = t := by
  unfold Bucket.grant at h
  split at h
  · rename_i hc
    simp at h
    subst h
    exact ⟨hc.1, hc.2, rfl, rfl, rfl, rfl⟩
  · simp at h

theorem tokensAt_le (b : Bucket) (t : ℚ) :
    b.tokensAt t ≤ b.burst ∧ b.tokensAt t ≤ b.tokens + b.rate * (t - b.last) :=
  ⟨min_le_left _ _, min_le_right _ _⟩

/-- The `n+1`-st permit of a bucket is granted no earlier than its tokens and
its refill allow. -/
theorem grants_nth :
    ∀ (ts : List ℚ) (b b' : Bucket), b.grants ts = some b' →
      ∀ (n : Nat) (h : n < ts.length),
        ((n : ℚ) + 1) ≤ b.tokens + b.rate * (ts[n] - b.last) := by
  intro ts
  induction ts with
  | nil => intro b b' _ n h; simp at h
  | cons t ts ih =>
    intro b b' hg n hn
    simp only [Bucket.grants] at hg
    cases h1 : b.grant t with
    | none => simp [h1] at hg
    | some b1 =>
      simp [h1] at hg
      obtain ⟨hl, htok, hr, hb, ht, hlast⟩ := grant_some h1
      have hle := (tokensAt_le b t).2
      cases n with
      | zero =>
        simp only [List.getElem_cons_zero, Nat.cast_zero, zero_add]
        linarith
      | succ m =>
        have := ih b1 b' hg m (by simpa using hn)
        rw [hr, ht, hlast] at this
        simp only [List.getElem_cons_succ, Nat.cast_succ]
        linarith

theorem grants_after :
    ∀ (ts : List ℚ) (b b' : Bucket), b.grants ts = some b' → ∀ t ∈ ts, b.last ≤ t := by
  intro ts
  induction ts with
  | nil => intro b b' _ t ht; simp at ht
  | cons t0 ts ih =>
    intro b b' hg t ht
    simp only [Bucket.grants] at hg
    cases h1 : b.grant t0 with
    | none => simp [h1] at hg
    | some b1 =>
      simp [h1] at hg
      obtain ⟨hl, -, -, -, -, hlast⟩ := grant_some h1
      simp only [List.mem_cons] at ht
      rcases ht with ht | ht
      · rw [ht]; exact hl
      · have := ih b1 b' hg t ht
        rw [hlast] at this
        exact le_trans hl this

/-- The permits granted up to the time `hi` are at most the tokens in the
bucket plus the refill until `hi`. -/
theorem grants_upto :
    ∀ (ts : List ℚ) (b b' : Bucket), b.grants ts = some b' → 0 ≤ b.rate → 0 ≤ b.tokens →
      ∀ hi, b.last ≤ hi →
        (((ts.filter (fun t => decide (t ≤ hi))).length : Nat) : ℚ)
          ≤ b.tokens + b.rate * (hi - b.last) := by
  intro ts
  induction ts with
  | nil =>
    intro b b' _ hr ht hi hhi
    simp only [List.filter_nil, List.length_nil, Nat.cast_zero]
    have := mul_nonneg hr (sub_nonneg.mpr hhi)
    linarith
  | cons t ts ih =>
    intro b b' hg hr htk hi hhi
    have hg0 := hg
    simp only [Bucket.grants] at hg
    cases h1 : b.grant t with
    | none => simp [h1] at hg
    | some b1 =>
      simp [h1] at hg
      obtain ⟨hl, htok, hr1, hb, ht, hlast⟩ := grant_some h1
      have hle := (tokensAt_le b t).2
      by_cases hthi : t ≤ hi
      · have := ih b1 b' hg (by rw [hr1]; exact hr) (by rw [ht]; linarith) hi
          (by rw [hlast]; exact hthi)
        rw [hr1, ht, hlast] at this
        simp only [List.filter_cons, hthi, decide_True, if_true, List.length_cons,
          Nat.cast_succ]
        linarith
      · have hnone : (t :: ts).filter (fun t => decide (t ≤ hi)) = [] := by
          rw [List.filter_eq_nil_iff]
          intro x hx
          have := grants_after (t :: ts) b b' hg0 x hx
          simp only [decide_eq_true_eq, not_le]
          simp only [List.mem_cons] at hx
          rcases hx with hx | hx
          · rw [hx]; exact not_le.mp hthi
          · have h2 := grants_after ts b1 b' hg x hx
            rw [hlast] at h2
            exact lt_of_lt_of_le (not_le.mp hthi) h2
        rw [hnone]
        simp only [List.length_nil, Nat.cast_zero]
        have := mul_nonneg hr (sub_nonneg.mpr hhi)
        linarith

theorem filter_window_le (a w : ℚ) (ts : List ℚ) :
    (ts.filter (fun t => decide (a ≤ t ∧ t ≤ a + w))).length
      ≤ (ts.filter (fun t => decide (t ≤ a + w))).length := by
  apply List.Sublist.length_le
  apply List.monotone_filter_right
  intro t ht
  simp only [decide_eq_true_eq] at ht ⊢
  exact ht.2

/-- The permits granted in a window of length `w` are at most the capacity plus
the refill over `w`. -/
theorem grants_window :
    ∀ (ts : List ℚ) (b b' : Bucket), b.grants ts = some b' → 0 ≤ b.rate → 0 ≤ b.tokens →
      b.tokens ≤ b.burst →
      ∀ a w, 0 ≤ w → ((grantsIn a w ts : Nat) : ℚ) ≤ b.burst + b.rate * w := by
  intro ts
  induction ts with
  | nil =>
    intro b b' hg hr htk htb a w hw
    simp only [grantsIn, List.filter_nil, List.length_nil, Nat.cast_zero]
    have := mul_nonneg hr hw
    linarith
  | cons t ts ih =>
    intro b b' hg hr htk htb a w hw
    simp only [Bucket.grants] at hg
    cases h1 : b.grant t with
    | none => simp [h1] at hg
    | some b1 =>
      simp [h1] at hg
      obtain ⟨hl, htok, hr1, hb, ht, hlast⟩ := grant_some h1
      have hcap := (tokensAt_le b t).1
      have hb1 : 0 ≤ b1.tokens := by rw [ht]; linarith
      have hih := ih b1 b' hg (by rw [hr1]; exact hr) hb1 (by rw [ht, hb]; linarith) a w hw
      rw [hr1, hb] at hih
      by_cases hin : a ≤ t ∧ t ≤ a + w
      · have hup := grants_upto ts b1 b' hg (by rw [hr1]; exact hr) hb1 (a + w)
          (by rw [hlast]; exact hin.2)
        rw [hr1, ht, hlast] at hup
        have hf := filter_window_le a w ts
        have hf' : (((ts.filter (fun t => decide (a ≤ t ∧ t ≤ a + w))).length : Nat) : ℚ)
            ≤ (((ts.filter (fun t => decide (t ≤ a + w))).length : Nat) : ℚ) := by
          exact_mod_cast hf
        have hmul : b.rate * (a + w - t) ≤ b.rate * w :=
          mul_le_mul_of_nonneg_left (by linarith [hin.1]) hr
        simp only [grantsIn, List.filter_cons, hin, decide_True, if_true, List.length_cons,
          Nat.cast_succ, and_self]
        linarith
      · simp only [grantsIn, List.filter_cons, hin, decide_False, Bool.false_eq_true, if_false]
        exact hih

/-! ### The program under a clock -/

theorem grants_snoc (ts : List ℚ) (t : ℚ) :
    ∀ b : Bucket, b.grants (ts ++ [t]) = (b.grants ts).bind (fun b' => b'.grant t) := by
  induction ts with
  | nil =>
    intro b
    simp only [List.nil_append, Bucket.grants, Option.some_bind]
    cases b.grant t <;> rfl
  | cons t0 ts ih =>
    intro b
    simp only [List.cons_append, Bucket.grants]
    cases b.grant t0 with
    | none => rfl
    | some b1 => exact ih b1

theorem grantsIn_cons (a w t : ℚ) (l : List ℚ) :
    grantsIn a w (t :: l) = grantsIn a w l + (if a ≤ t ∧ t ≤ a + w then 1 else 0) := by
  unfold grantsIn
  by_cases h : a ≤ t ∧ t ≤ a + w
  · simp [List.filter_cons, h]
  · simp [List.filter_cons, h]

theorem grantsIn_reverse (a w : ℚ) (l : List ℚ) : grantsIn a w l.reverse = grantsIn a w l := by
  unfold grantsIn
  rw [List.filter_reverse, List.length_reverse]

theorem grantsIn_before (a w : ℚ) (l : List ℚ) (h : ∀ t ∈ l, t < a) : grantsIn a w l = 0 := by
  unfold grantsIn
  rw [List.length_eq_zero, List.filter_eq_nil_iff]
  intro t ht
  have := h t ht
  simp only [decide_eq_true_eq, not_and, not_le]
  intro h1
  exact absurd h1 (not_le.mpr this)

/-- What a step does to the number of workers that hold a permit: the return
of `limiter.Wait` adds one, `Add(1)` takes one away, no other step changes it. -/
theorem holding_step (cfg : Config) (s s' : State) (a : Action)
    (h : step cfg s a = some s') :
    total WorkerPc.holding s'.workers + (if s.adds a = true then 1 else 0)
      = total WorkerPc.holding s.workers + (if s.acquires a = true then 1 else 0) := by
  unfold step at h
  split at h
  · simp at h
  · cases a with
    | main =>
      simp only [stepMain] at h
      split at h <;> (try split at h) <;> simp at h <;> subst h <;>
        simp [State.adds, State.acquires, total_append, WorkerPc.holding]
    | producer =>
      simp only [stepProducer] at h
      split at h <;> (try split at h) <;> simp at h <;> subst h <;>
        simp [State.adds, State.acquires]
    | send w =>
      simp only [stepSend] at h
      split at h
      · rename_i b ops hp hw
        split at h
        · simp at h
        · simp at h; subst h
          have := (totals_set s.workers w _ (WorkerPc.item b) hw).2.2.1
          simpa [State.adds, State.acquires, WorkerPc.holding] using this
      · simp at h
    | done w =>
      simp only [stepDone] at h
      split at h
      · rename_i id hm hw
        split at h
        · simp at h; subst h
          have := (totals_set s.workers w _ WorkerPc.exited hw).2.2.1
          simpa [State.adds, State.acquires, WorkerPc.holding] using this
        · simp at h
      · simp at h
    | worker w =>
      simp only [stepWorker] at h
      split at h
      · rename_i hw
        simp at h; subst h
        have := (totals_set s.workers w _ WorkerPc.recv hw).2.2.1
        simpa [State.adds, State.acquires, WorkerPc.holding, hw] using this
      · rename_i hw
        split at h
        · simp at h; subst h
          have := (totals_set s.workers w _ WorkerPc.finish hw).2.2.1
          simpa [State.adds, State.acquires, WorkerPc.holding, hw] using this
        · simp at h
      · rename_i hw
        simp at h; subst h
        have := (totals_set s.workers w _ WorkerPc.recv hw).2.2.1
        simpa [State.adds, State.acquires, WorkerPc.holding, hw] using this
      · rename_i x rest hw
        simp at h; subst h
        have := (totals_set s.workers w _ (WorkerPc.acquired rest) hw).2.2.1
        simpa [State.adds, State.acquires, WorkerPc.holding, hw] using this
      · rename_i rest hw
        simp at h; subst h
        have := (totals_set s.workers w _
          (WorkerPc.counted (wrapInt32 (s.counter + 1)) rest) hw).2.2.1
        simp only [WorkerPc.holding] at this
        simp only [State.adds, State.acquires, hw, if_true, Bool.false_eq_true, if_false]
        omega
      · rename_i c rest hw
        simp at h; subst h
        have := (totals_set s.workers w _ (WorkerPc.item rest) hw).2.2.1
        simpa [State.adds, State.acquires, WorkerPc.holding, hw] using this
      · simp at h

/-- What a timed step is made of. -/
theorem timedStep_some {cfg : Config} {σ σ' : Timed} {t : ℚ} {a : Action}
    (h : timedStep cfg σ t a = some σ') :
    σ.now ≤ t ∧ σ'.now = t ∧ step cfg σ.state a = some σ'.state
      ∧ ((σ.state.acquires a = true ∧ σ.bucket.grant t = some σ'.bucket
            ∧ σ'.grantTimes = t :: σ.grantTimes ∧ σ'.addTimes = σ.addTimes)
        ∨ (σ.state.acquires a = false ∧ σ.state.adds a = true ∧ σ'.bucket = σ.bucket
            ∧ σ'.grantTimes = σ.grantTimes ∧ σ'.addTimes = t :: σ.addTimes)
        ∨ (σ.state.acquires a = false ∧ σ.state.adds a = false ∧ σ'.bucket = σ.bucket
            ∧ σ'.grantTimes = σ.grantTimes ∧ σ'.addTimes = σ.addTimes)) := by
  unfold timedStep at h
  split at h
  · simp at h
  · rename_i hnow
    have hle : σ.now ≤ t := not_lt.mp hnow
    split at h
    · simp at h
    · rename_i s' hs
      split at h
      · rename_i hacq
        split at h
        · simp at h
        · rename_i b' hb
          simp at h; subst h
          exact ⟨hle, rfl, hs, Or.inl ⟨hacq, hb, rfl, rfl⟩⟩
      · rename_i hacq
        split at h
        · rename_i hadd
          simp at h; subst h
          exact ⟨hle, rfl, hs, Or.inr (Or.inl ⟨by simpa using hacq, hadd, rfl, rfl, rfl⟩)⟩
        · rename_i hadd
          simp at h; subst h
          exact ⟨hle, rfl, hs,
            Or.inr (Or.inr ⟨by simpa using hacq, by simpa using hadd, rfl, rfl, rfl⟩)⟩

theorem timedRunFrom_invariant (cfg : Config) (P : Timed → Prop)
    (hstep : ∀ σ t a σ', P σ → timedStep cfg σ t a = some σ' → P σ') :
    ∀ (sched : List (ℚ × Action)) (σ σ' : Timed), P σ → timedRunFrom cfg σ sched = some σ' →
      P σ' := by
  intro sched
  induction sched with
  | nil =>
    intro σ σ' hp h
    simp [timedRunFrom] at h
    subst h; exact hp
  | cons ta sched ih =>
    intro σ σ' hp h
    obtain ⟨t, a⟩ := ta
    simp only [timedRunFrom] at h
    cases hst : timedStep cfg σ t a with
    | none => simp [hst] at h
    | some σ1 =>
      simp [hst] at h
      exact ih σ1 σ' (hstep σ t a σ1 hp hst) h

theorem holding_le_one (pc : WorkerPc) : pc.holding ≤ 1 := by
  cases pc <;> simp [WorkerPc.holding]

/-- The returns of `limiter.Wait` and the `Add(1)`s in the trace are exactly
the steps singled out by `State.acquires` and `State.adds`. -/
theorem counts_step (cfg : Config) (s s' : State) (a : Action)
    (h : step cfg s a = some s') :
    s'.trace.countP Event.isAcquire
        = s.trace.countP Event.isAcquire + (if s.acquires a = true then 1 else 0)
      ∧ s'.trace.countP Event.isAdd
        = s.trace.countP Event.isAdd + (if s.adds a = true then 1 else 0) := by
  unfold step at h
  split at h
  · simp at h
  · cases a with
    | main =>
      simp only [stepMain] at h
      split at h <;> (try split at h) <;> simp at h <;> subst h <;>
        simp [State.adds, State.acquires, Event.isAcquire, Event.isAdd]
    | producer =>
      simp only [stepProducer] at h
      split at h <;> (try split at h) <;> simp at h <;> subst h <;>
        simp [State.adds, State.acquires, Event.isAcquire, Event.isAdd]
    | send w =>
      simp only [stepSend] at h
      split at h
      · split at h
        · simp at h
        · simp at h; subst h
          simp [State.adds, State.acquires, Event.isAcquire, Event.isAdd]
      · simp at h
    | done w =>
      simp only [stepDone] at h
      split at h
      · split at h
        · simp at h; subst h
          simp [State.adds, State.acquires, Event.isAcquire, Event.isAdd]
        · simp at h
      · simp at h
    | worker w =>
      simp only [stepWorker] at h
      split at h
      · rename_i hw
        simp at h; subst h
        simp [State.adds, State.acquires, Event.isAcquire, Event.isAdd, hw]
      · rename_i hw
        split at h
        · simp at h; subst h
          simp [State.adds, State.acquires, Event.isAcquire, Event.isAdd, hw]
        · simp at h
      · rename_i hw
        simp at h; subst h
        simp [State.adds, State.acquires, Event.isAcquire, Event.isAdd, hw]
      · rename_i x rest hw
        simp at h; subst h
        simp [State.adds, State.acquires, Event.isAcquire, Event.isAdd, hw]
      · rename_i rest hw
        simp at h; subst h
        simp [State.adds, State.acquires, Event.isAcquire, Event.isAdd, hw]
      · rename_i c rest hw
        simp at h; subst h
        by_cases hmil : isMilestone c = true
        · simp [State.adds, State.acquires, Event.isAcquire, Event.isAdd, hw, hmil]
        · simp [State.adds, State.acquires, Event.isAcquire, Event.isAdd, hw, hmil]
      · simp at h

/-- A timed run is a run of the program: forgetting the times leaves a
schedule of `step`. -/
theorem timedRunFrom_runFrom (cfg : Config) :
    ∀ (sched : List (ℚ × Action)) (σ σ' : Timed), timedRunFrom cfg σ sched = some σ' →
      runFrom cfg σ.state (sched.map Prod.snd) = some σ'.state := by
  intro sched
  induction sched with
  | nil =>
    intro σ σ' h
    simp [timedRunFrom] at h
    subst h; rfl
  | cons ta sched ih =>
    intro σ σ' h
    obtain ⟨t, a⟩ := ta
    simp only [timedRunFrom] at h
    cases hst : timedStep cfg σ t a with
    | none => simp [hst] at h
    | some σ1 =>
      simp [hst] at h
      have h1 := (timedStep_some hst).2.2.1
      simp only [List.map_cons, runFrom, h1, Option.some_bind]
      exact ih σ1 σ' h

theorem timedHolds_spec {cfg : Config} {sched : List (ℚ × Action)} {p : Timed → Bool}
    (h : timedHolds cfg sched p = true) : ∃ σ, timedRun cfg sched = some σ ∧ p σ = true := by
  unfold timedHolds at h
  cases hr : timedRun cfg sched with
  | none => simp [hr] at h
  | some σ => exact ⟨σ, rfl, by simpa [hr] using h⟩

/-- The invariant of timed runs behind the ceiling, for the window from `a` to
`a + w`: the grant times are admitted by the bucket, nothing is recorded after
the current time, and the items counted in the window are at most the permits
granted in it plus the permits held when it began, one per worker at most. -/
theorem timed_window (cfg : Config) (a w : ℚ) (sched : List (ℚ × Action)) (σ : Timed)
    (h : timedRun cfg sched = some σ) :
    MainInv cfg σ.state
      ∧ (newLimiter (95 / 60) cfg.consumerCount).grants σ.grantTimes.reverse = some σ.bucket
      ∧ (∀ t ∈ σ.grantTimes, t ≤ σ.now) ∧ (∀ t ∈ σ.addTimes, t ≤ σ.now)
      ∧ σ.grantTimes.length = σ.state.trace.countP Event.isAcquire
      ∧ σ.addTimes.length = σ.state.trace.countP Event.isAdd
      ∧ grantsIn a w σ.addTimes ≤ grantsIn a w σ.grantTimes + cfg.consumerCount
      ∧ (σ.now ≤ a + w →
          grantsIn a w σ.addTimes + total WorkerPc.holding σ.state.workers
            ≤ grantsIn a w σ.grantTimes + cfg.consumerCount) := by
  refine timedRunFrom_invariant cfg (fun σ => MainInv cfg σ.state
      ∧ (newLimiter (95 / 60) cfg.consumerCount).grants σ.grantTimes.reverse = some σ.bucket
      ∧ (∀ t ∈ σ.grantTimes, t ≤ σ.now) ∧ (∀ t ∈ σ.addTimes, t ≤ σ.now)
      ∧ σ.grantTimes.length = σ.state.trace.countP Event.isAcquire
      ∧ σ.addTimes.length = σ.state.trace.countP Event.isAdd
      ∧ grantsIn a w σ.addTimes ≤ grantsIn a w σ.grantTimes + cfg.consumerCount
      ∧ (σ.now ≤ a + w →
          grantsIn a w σ.addTimes + total WorkerPc.holding σ.state.workers
            ≤ grantsIn a w σ.grantTimes + cfg.consumerCount)) ?_ sched (timedInit cfg) σ ?_ h
  · intro σ t act σ' hP hst
    obtain ⟨hM, hB, hG, hA, hcG, hcA, hI4, hI5⟩ := hP
    obtain ⟨hle, hnow, hstep, hcase⟩ := timedStep_some hst
    have hM' : MainInv cfg σ'.state := mainInv_step cfg _ _ (step_sound hstep) hM
    have hH' : total WorkerPc.holding σ'.state.workers ≤ cfg.consumerCount :=
      le_trans (total_le_length _ holding_le_one _) (length_le cfg _ hM')
    have hhold := holding_step cfg _ _ _ hstep
    have hcnt := counts_step cfg _ _ _ hstep
    have hG0 : ∀ x ∈ σ.grantTimes, x ≤ t := fun x hx => le_trans (hG x hx) hle
    have hA0 : ∀ x ∈ σ.addTimes, x ≤ t := fun x hx => le_trans (hA x hx) hle
    have hG' : ∀ x ∈ σ'.grantTimes, x ≤ σ'.now := by
      rw [hnow]
      rcases hcase with ⟨_, _, hg, _⟩ | ⟨_, _, _, hg, _⟩ | ⟨_, _, _, hg, _⟩ <;> rw [hg]
      · intro x hx
        rcases List.mem_cons.mp hx with rfl | hx
        · exact le_refl _
        · exact hG0 x hx
      · exact hG0
      · exact hG0
    have hA' : ∀ x ∈ σ'.addTimes, x ≤ σ'.now := by
      rw [hnow]
      rcases hcase with ⟨_, _, _, hg⟩ | ⟨_, _, _, _, hg⟩ | ⟨_, _, _, _, hg⟩ <;> rw [hg]
      · exact hA0
      · intro x hx
        rcases List.mem_cons.mp hx with rfl | hx
        · exact le_refl _
        · exact hA0 x hx
      · exact hA0
    -- the window facts
    have hwin : grantsIn a w σ'.addTimes ≤ grantsIn a w σ'.grantTimes + cfg.consumerCount
        ∧ (σ'.now ≤ a + w →
            grantsIn a w σ'.addTimes + total WorkerPc.holding σ'.state.workers
              ≤ grantsIn a w σ'.grantTimes + cfg.consumerCount) := by
      by_cases hta : t < a
      · have hg0 : grantsIn a w σ'.grantTimes = 0 :=
          grantsIn_before a w _ (fun x hx => lt_of_le_of_lt (by rw [← hnow]; exact hG' x hx) hta)
        have ha0 : grantsIn a w σ'.addTimes = 0 :=
          grantsIn_before a w _ (fun x hx => lt_of_le_of_lt (by rw [← hnow]; exact hA' x hx) hta)
        rw [hg0, ha0]
        exact ⟨by omega, fun _ => by omega⟩
      · have hat : a ≤ t := not_lt.mp hta
        by_cases htw : t ≤ a + w
        · have hpre := hI5 (le_trans hle htw)
          have hin : (a ≤ t ∧ t ≤ a + w) := ⟨hat, htw⟩
          have key : grantsIn a w σ'.addTimes + total WorkerPc.holding σ'.state.workers
              ≤ grantsIn a w σ'.grantTimes + cfg.consumerCount := by
            rcases hcase with ⟨hacq, _, hg, hd⟩ | ⟨hacq, hadd, _, hg, hd⟩
                | ⟨hacq, hadd, _, hg, hd⟩
            · have hadd : σ.state.adds act = false := by
                cases act with
                | worker v =>
                  simp only [State.acquires] at hacq
                  simp only [State.adds]
                  split at hacq <;> simp_all
                | _ => rfl
              rw [hg, hd, grantsIn_cons, if_pos hin]
              rw [hacq, hadd] at hhold
              simp only [Bool.false_eq_true, if_false, if_true] at hhold
              omega
            · rw [hg, hd, grantsIn_cons, if_pos hin]
              rw [hacq, hadd] at hhold
              simp only [Bool.false_eq_true, if_false, if_true] at hhold
              omega
            · rw [hg, hd]
              rw [hacq, hadd] at hhold
              simp only [Bool.false_eq_true, if_false] at hhold
              omega
          exact ⟨by omega, fun _ => key⟩
        · have hout : ¬ (a ≤ t ∧ t ≤ a + w) := fun hh => htw hh.2
          have hsame : grantsIn a w σ'.grantTimes = grantsIn a w σ.grantTimes
              ∧ grantsIn a w σ'.addTimes = grantsIn a w σ.addTimes := by
            rcases hcase with ⟨_, _, hg, hd⟩ | ⟨_, _, _, hg, hd⟩ | ⟨_, _, _, hg, hd⟩ <;>
              rw [hg, hd] <;> simp only [grantsIn_cons, if_neg hout, Nat.add_zero, and_self]
          rw [hsame.1, hsame.2, hnow]
          exact ⟨hI4, fun hc => absurd hc htw⟩
    refine ⟨hM', ?_, hG', hA', ?_, ?_, hwin.1, hwin.2⟩
    · rcases hcase with ⟨_, hb, hg, _⟩ | ⟨_, _, hb, hg, _⟩ | ⟨_, _, hb, hg, _⟩
      · rw [hg, List.reverse_cons, grants_snoc, hB, Option.some_bind, hb]
      · rw [hg, hb]; exact hB
      · rw [hg, hb]; exact hB
    · rcases hcase with ⟨hacq, _, hg, _⟩ | ⟨hacq, _, _, hg, _⟩ | ⟨hacq, _, _, hg, _⟩ <;>
        rw [hg, hcnt.1, hacq] <;> simp [hcG]
    · rcases hcase with ⟨hacq, _, _, hd⟩ | ⟨_, hadd, _, _, hd⟩ | ⟨_, hadd, _, _, hd⟩
      · have hadd : σ.state.adds act = false := by
          cases act with
          | worker v =>
            simp only [State.acquires] at hacq
            simp only [State.adds]
            split at hacq <;> simp_all
          | _ => rfl
        rw [hd, hcnt.2, hadd]; simp [hcA]
      · rw [hd, hcnt.2, hadd]; simp [hcA]
      · rw [hd, hcnt.2, hadd]; simp [hcA]
  · refine ⟨mainInv_init cfg, rfl, ?_, ?_, rfl, rfl, ?_, ?_⟩
    · intro t ht; simp [timedInit] at ht
    · intro t ht; simp [timedInit] at ht
    · simp [timedInit, grantsIn]
    · intro _; simp [timedInit, grantsIn, init, total]

/-- A bucket refilled at 95/60 tokens per second with room for a token grants
a permit one second after any moment not before its last grant. -/
theorem grant_after_second (b : Bucket) (now : ℚ) (hr : b.rate = 95 / 60) (hb : 1 ≤ b.burst)
    (ht : 0 ≤ b.tokens) (hl : b.last ≤ now) :
    ∃ b', b.grant (now + 1) = some b' ∧ b'.rate = 95 / 60 ∧ 1 ≤ b'.burst ∧ 0 ≤ b'.tokens
      ∧ b'.last ≤ now + 1 := by
  have h1 : 1 ≤ b.tokensAt (now + 1) := by
    unfold Bucket.tokensAt
    rw [hr]
    apply le_min hb
    have : (0 : ℚ) ≤ now - b.last := by linarith
    nlinarith
  have h2 : b.last ≤ now + 1 := by linarith
  refine ⟨{ b with tokens := b.tokensAt (now + 1) - 1, last := now + 1 }, ?_, hr, hb, ?_, ?_⟩
  · unfold Bucket.grant
    rw [if_pos ⟨h2, h1⟩]
  · show 0 ≤ b.tokensAt (now + 1) - 1
    linarith
  · exact le_refl _

/-- Every run of the program can be timed: the limiter never blocks a worker
for ever, one second after the step before is late enough for each step. -/
theorem timedRunFrom_exists (cfg : Config) :
    ∀ (sched : List Action) (σ : Timed) (s : State), σ.bucket.rate = 95 / 60 →
      1 ≤ σ.bucket.burst → 0 ≤ σ.bucket.tokens → σ.bucket.last ≤ σ.now →
      runFrom cfg σ.state sched = some s →
      ∃ tsched σ', tsched.map Prod.snd = sched ∧ timedRunFrom cfg σ tsched = some σ'
        ∧ σ'.state = s := by
  intro sched
  induction sched with
  | nil =>
    intro σ s _ _ _ _ h
    simp only [runFrom, Option.some.injEq] at h
    exact ⟨[], σ, rfl, rfl, h⟩
  | cons act sched ih =>
    intro σ s hr hb ht hl h
    simp only [runFrom] at h
    cases hst : step cfg σ.state act with
    | none => simp [hst] at h
    | some s1 =>
      simp only [hst, Option.some_bind] at h
      have hnow : ¬ (σ.now + 1 < σ.now) := by linarith
      by_cases hacq : σ.state.acquires act = true
      · obtain ⟨b', hg, hr', hb', ht', hl'⟩ := grant_after_second σ.bucket σ.now hr hb ht hl
        have hts : timedStep cfg σ (σ.now + 1) act
            = some { σ with state := s1, bucket := b', now := σ.now + 1,
                            grantTimes := (σ.now + 1) :: σ.grantTimes } := by
          unfold timedStep
          rw [if_neg hnow]
          simp only [hst, hacq, if_true, hg]
        obtain ⟨tsched, σ', hm, hrun, hs⟩ :=
          ih { σ with state := s1, bucket := b', now := σ.now + 1,
                      grantTimes := (σ.now + 1) :: σ.grantTimes } s hr' hb' ht' hl' h
        refine ⟨(σ.now + 1, act) :: tsched, σ', ?_, ?_, hs⟩
        · simp only [List.map_cons, hm]
        · simp only [timedRunFrom, hts, Option.some_bind]
          exact hrun
      · have hl' : σ.bucket.last ≤ σ.now + 1 := by linarith
        by_cases hadd : σ.state.adds act = true
        · have hts : timedStep cfg σ (σ.now + 1) act
              = some { σ with state := s1, now := σ.now + 1,
                              addTimes := (σ.now + 1) :: σ.addTimes } := by
            unfold timedStep
            rw [if_neg hnow]
            simp only [hst, hacq, hadd, if_true, Bool.false_eq_true, if_false]
          obtain ⟨tsched, σ', hm, hrun, hs⟩ :=
            ih { σ with state := s1, now := σ.now + 1,
                        addTimes := (σ.now + 1) :: σ.addTimes } s hr hb ht hl' h
          refine ⟨(σ.now + 1, act) :: tsched, σ', ?_, ?_, hs⟩
          · simp only [List.map_cons, hm]
          · simp only [timedRunFrom, hts, Option.some_bind]
            exact hrun
        · have hts : timedStep cfg σ (σ.now + 1) act
              = some { σ with state := s1, now := σ.now + 1 } := by
            unfold timedStep
            rw [if_neg hnow]
            simp only [hst, hacq, hadd, Bool.false_eq_true, if_false]
          obtain ⟨tsched, σ', hm, hrun, hs⟩ :=
            ih { σ with state := s1, now := σ.now + 1 } s hr hb ht hl' h
          refine ⟨(σ.now + 1, act) :: tsched, σ', ?_, ?_, hs⟩
          · simp only [List.map_cons, hm]
          · simp only [timedRunFrom, hts, Option.some_bind]
            exact hrun

/-! ## The claims about the producer -/

/-- C2. With `projectTotalAmount = 200` the producer, given fuel for its 21 loop
tests, emits exactly 20 = ⌈200/10⌉ batches, every batch has exactly 10 items,
no item ID occurs twice over all batches, and the IDs emitted are exactly the
integers `0, ..., 199`. -/
theorem producer_partition_200 (fuel : Nat) (hfuel : 21 ≤ fuel) :
    ∃ ops, producer projectTotalAmount fuel = some ops
      ∧ (sentBatches ops).length = 20
      ∧ (∀ b ∈ sentBatches ops, b.length = 10)
      ∧ (sentBatches ops).flatten.Nodup
      ∧ ∀ id : Int, id ∈ (sentBatches ops).flatten ↔ 0 ≤ id ∧ id < 200 := by
  refine ⟨_, producer_eq 200 (by decide) (by decide) fuel (by simpa using hfuel), ?_⟩
  rw [sentBatches_sendAll]
  have hj := join_decades 20
  have h20 : (Int.toNat 200 + 9) / 10 = 20 := by decide
  rw [h20, hj]
  refine ⟨by simp, ?_, ?_, ?_⟩
  · intro b hb
    simp only [List.mem_map] at hb
    obtain ⟨k, _, rfl⟩ := hb
    simp [decade]
  · exact (List.nodup_range _).map (fun a b h => by simpa using h)
  · intro id
    simp only [List.mem_map, List.mem_range]
    constructor
    · rintro ⟨a, ha, rfl⟩
      exact ⟨Int.ofNat_nonneg a, by have : (a : Int) < 200 := by omega
                                    simpa using this⟩
    · rintro ⟨h0, h1⟩
      exact ⟨id.toNat, by omega, by simp [Int.toNat_of_nonneg h0]⟩

/-- The producer of the program as compiled, with fuel for exactly its 21 loop
tests. -/
theorem producer_partition_200_witness :
    ∃ ops, producer projectTotalAmount 21 = some ops
      ∧ (sentBatches ops).length = 20
      ∧ (∀ b ∈ sentBatches ops, b.length = 10)
      ∧ (sentBatches ops).flatten.Nodup
      ∧ ∀ id : Int, id ∈ (sentBatches ops).flatten ↔ 0 ≤ id ∧ id < 200 :=
  producer_partition_200 21 (by decide)

/-- C3. With `projectTotalAmount = 200` the producer performs exactly 21 channel
operations: for every `k` in `0..19` the `k`-th is the send of the batch
`[10k, 10k+1, ..., 10k+9]`, and the 21st, after the last send, is the one and
only close. The batches concatenated in push order are `0, 1, ..., 199`. -/
theorem producer_order_200 (fuel : Nat) (hfuel : 21 ≤ fuel) :
    ∃ ops, producer projectTotalAmount fuel = some ops
      ∧ ops.length = 21
      ∧ (∀ k : Nat, k < 20 → ops[k]? = some (ChanOp.send
          [10 * (k : Int), 10 * k + 1, 10 * k + 2, 10 * k + 3, 10 * k + 4, 10 * k + 5,
           10 * k + 6, 10 * k + 7, 10 * k + 8, 10 * k + 9]))
      ∧ ops[20]? = some ChanOp.close
      ∧ ops.count ChanOp.close = 1
      ∧ (sentBatches ops).flatten = (List.range 200).map Int.ofNat := by
  refine ⟨_, producer_eq 200 (by decide) (by decide) fuel (by simpa using hfuel), ?_⟩
  have h20 : (Int.toNat 200 + 9) / 10 = 20 := by decide
  rw [h20]
  refine ⟨by decide, by decide, by decide, by decide, ?_⟩
  rw [sentBatches_sendAll]
  exact join_decades 20

/-- The producer of the program as compiled, with fuel for exactly its 21 loop
tests. -/
theorem producer_order_200_witness :
    ∃ ops, producer projectTotalAmount 21 = some ops
      ∧ ops.length = 21
      ∧ (∀ k : Nat, k < 20 → ops[k]? = some (ChanOp.send
          [10 * (k : Int), 10 * k + 1, 10 * k + 2, 10 * k + 3, 10 * k + 4, 10 * k + 5,
           10 * k + 6, 10 * k + 7, 10 * k + 8, 10 * k + 9]))
      ∧ ops[20]? = some ChanOp.close
      ∧ ops.count ChanOp.close = 1
      ∧ (sentBatches ops).flatten = (List.range 200).map Int.ofNat :=
  producer_order_200 21 (by decide)

theorem producerLoop_max_int :
    ∀ (fuel : Nat) (i : Int), i % 2 = 0 → -(2 ^ 63) ≤ i → i < 2 ^ 63 →
      producerLoop (2 ^ 63 - 1) fuel i = none := by
  intro fuel
  induction fuel with
  | zero => intro i _ _ _; rfl
  | succ f ih =>
    intro i h2 hlo hhi
    have hlt : i < 2 ^ 63 - 1 := by omega
    have hw : wrapInt (i + 10) % 2 = 0 ∧ -(2 ^ 63) ≤ wrapInt (i + 10)
        ∧ wrapInt (i + 10) < 2 ^ 63 := by
      unfold wrapInt
      omega
    rw [producerLoop, if_pos hlt, ih _ hw.1 hw.2.1 hw.2.2]
    rfl

/-- With the largest `int` as total the loop of the producer never ends: `i`
stays even through the wrap-around of `i += 10` and never reaches the odd
total, so no fuel is enough and the channel is never closed. -/
theorem producer_max_int (fuel : Nat) : producer (2 ^ 63 - 1) fuel = none :=
  producerLoop_max_int fuel 0 (by decide) (by decide) (by decide)

/-- C4, as the code has it. For every total with `0 ≤ total ≤ 2^63 - 10` (so that
`i += 10` cannot overflow) the producer, given fuel for its loop tests, emits
`⌈total/10⌉` batches, every one of them of exactly 10 items, the last included,
then closes; the IDs emitted, in order, are `0, 1, ..., 10·⌈total/10⌉ - 1`, each
once. They are the integers below `total` exactly when `total` is a multiple of
10; otherwise the IDs from `total` up to the next multiple of 10 are emitted as
well. -/
theorem producer_partition (total : Int) (h0 : 0 ≤ total) (hmax : total ≤ 2 ^ 63 - 10)
    (fuel : Nat) (hfuel : (total.toNat + 9) / 10 < fuel) :
    ∃ ops, producer total fuel = some ops
      ∧ ops = sendAll (sentBatches ops)
      ∧ (sentBatches ops).length = (total.toNat + 9) / 10
      ∧ (∀ b ∈ sentBatches ops, b.length = 10)
      ∧ (sentBatches ops).flatten
          = (List.range (10 * ((total.toNat + 9) / 10))).map Int.ofNat
      ∧ (total % 10 = 0 → 10 * ((total.toNat + 9) / 10) = total.toNat)
      ∧ (total % 10 ≠ 0 → total ∈ (sentBatches ops).flatten) := by
  refine ⟨_, producer_eq total h0 hmax fuel hfuel, ?_⟩
  rw [sentBatches_sendAll, join_decades]
  refine ⟨rfl, by simp, ?_, rfl, by omega, ?_⟩
  · intro b hb
    simp only [List.mem_map] at hb
    obtain ⟨k, _, rfl⟩ := hb
    simp [decade]
  · intro h
    simp only [List.mem_map, List.mem_range]
    exact ⟨total.toNat, by omega, by simp [Int.toNat_of_nonneg h0]⟩

/-- The amended C4 at `total = 25`: three batches of ten, the IDs `0, ..., 29`. -/
theorem producer_partition_witness :
    ∃ ops, producer 25 4 = some ops
      ∧ ops = sendAll (sentBatches ops)
      ∧ (sentBatches ops).length = (Int.toNat 25 + 9) / 10
      ∧ (∀ b ∈ sentBatches ops, b.length = 10)
      ∧ (sentBatches ops).flatten
          = (List.range (10 * ((Int.toNat 25 + 9) / 10))).map Int.ofNat
      ∧ ((25 : Int) % 10 = 0 → 10 * ((Int.toNat 25 + 9) / 10) = Int.toNat 25)
      ∧ ((25 : Int) % 10 ≠ 0 → (25 : Int) ∈ (sentBatches ops).flatten) :=
  producer_partition 25 (by decide) (by decide) 4 (by decide)

/-- C4 as stated fails at `total = 5`: the producer emits the one batch
`[0, ..., 9]`, which is not shorter than 10 although 5 is not a multiple of 10,
and which holds the IDs 5 to 9, none of them below the total. -/
theorem producer_overshoots_total :
    producer 5 2 = some [ChanOp.send [0, 1, 2, 3, 4, 5, 6, 7, 8, 9], ChanOp.close]
      ∧ ¬ (∀ ops, producer 5 2 = some ops →
            (∀ id ∈ (sentBatches ops).flatten, id < 5)
            ∧ ((5 : Int) % 10 ≠ 0 → ∃ b, (sentBatches ops).getLast? = some b ∧ b.length < 10)) := by
  have h : producer 5 2 = some [ChanOp.send [0, 1, 2, 3, 4, 5, 6, 7, 8, 9], ChanOp.close] := by
    decide
  refine ⟨h, fun hall => ?_⟩
  have := (hall _ h).1 5 (by decide)
  omega

/-! ## The claims about the counter and the permits -/

/-- C1, as the code has it. For every number of workers `n ≥ 1`, every sequence
of batches whose items number less than 2^31 (the counter is an
`atomic.Int32`) and every interleaving: once all `n` workers have left their
receive loop the counter equals the total number of items of all batches, and
whatever value `main` loads is that number. With the program's constants the
value is 200; with 20 workers and 1000 items it is 1000. Every configuration has
a run in which `main` loads the counter and returns. -/
theorem counter_complete :
    (∀ (n : Nat) (batches : List (List Int)) (sched : List Action) (s : State),
        1 ≤ n → (batches.map List.length).sum < 2 ^ 31 →
        run ⟨n, sendAll batches⟩ sched = some s →
        (s.allLeft ⟨n, sendAll batches⟩ → s.counter = ((batches.map List.length).sum : Nat))
          ∧ ∀ v, Event.load v ∈ s.trace → v = ((batches.map List.length).sum : Nat))
    ∧ (∀ (sched : List Action) (s : State), run program sched = some s →
        (s.allLeft program → s.counter = 200) ∧ ∀ v, Event.load v ∈ s.trace → v = 200)
    ∧ (∀ (batches : List (List Int)) (sched : List Action) (s : State),
        (batches.map List.length).sum = 1000 → run ⟨20, sendAll batches⟩ sched = some s →
        (s.allLeft ⟨20, sendAll batches⟩ → s.counter = 1000)
          ∧ ∀ v, Event.load v ∈ s.trace → v = 1000)
    ∧ (∀ (n : Nat) (batches : List (List Int)), ∃ sched s v,
        run ⟨n, sendAll batches⟩ sched = some s ∧ s.main = MainPc.exited
          ∧ Event.load v ∈ s.trace) := by
  have general : ∀ (n : Nat) (batches : List (List Int)) (sched : List Action) (s : State),
      1 ≤ n → (batches.map List.length).sum < 2 ^ 31 →
      run ⟨n, sendAll batches⟩ sched = some s →
      (s.allLeft ⟨n, sendAll batches⟩ → s.counter = ((batches.map List.length).sum : Nat))
        ∧ ∀ v, Event.load v ∈ s.trace → v = ((batches.map List.length).sum : Nat) := by
    intro n batches sched s hn hT hrun
    have h := final_counter ⟨n, sendAll batches⟩ batches rfl s (reachable_run hrun) hn
    simp only [pendingItems_sendAll] at h
    rw [wrapInt32_eq _ (by omega) (by omega)] at h
    exact h
  refine ⟨general, ?_, ?_, ?_⟩
  · intro sched s hrun
    have h := final_counter program _ program_ops s (reachable_run hrun) (by decide)
    rw [program_items] at h
    exact h
  · intro batches sched s hT hrun
    have h := general 20 batches sched s (by decide) (by omega) hrun
    rw [hT] at h
    exact h
  · intro n batches
    obtain ⟨sched, s, hrun, hex⟩ := complete_run ⟨n, sendAll batches⟩ batches rfl
    have hr := (invariants _ batches rfl s (reachable_run hrun)).2.2.2.1
    have hc := hr.loadCount
    rw [hex] at hc
    have hpos : 0 < s.trace.countP Event.isLoad := by rw [hc]; decide
    obtain ⟨e, he, hl⟩ := List.countP_pos_iff.mp hpos
    cases e <;> simp [Event.isLoad] at hl
    case load v => exact ⟨sched, s, v, hrun, hex, he⟩

/-- The program as compiled, run to its end with worker 0 doing all the work:
the counter reads 200 when the workers are gone. -/
theorem counter_complete_witness :
    ∃ s, run program (sequentialSchedule program) = some s ∧ s.allLeft program
      ∧ s.counter = 200 := by
  have h : holdsAfter program (sequentialSchedule program)
      (fun s => decide (s.allLeft program)) = true := by decide!
  obtain ⟨s, hrun, hs⟩ := holdsAfter_spec h
  have hleft : s.allLeft program := by simpa using hs
  exact ⟨s, hrun, hleft, (counter_complete.2.1 _ s hrun).1 hleft⟩

/-- C1 as stated fails for 2^31 items: with one worker and one batch of
2147483648 items there is a run after which the worker has left its loop and
the counter, an `atomic.Int32`, reads -2147483648, not the number of items. -/
theorem counter_wraps_at_int32 :
    ∃ sched s, run ⟨1, sendAll [List.replicate 2147483648 0]⟩ sched = some s
      ∧ s.allLeft ⟨1, sendAll [List.replicate 2147483648 0]⟩
      ∧ s.counter = -2147483648
      ∧ s.counter ≠ (((([List.replicate 2147483648 (0 : Int)].map List.length).sum : Nat)) : Int) := by
  obtain ⟨sched, s, hrun, hex⟩ :=
    complete_run ⟨1, sendAll [List.replicate 2147483648 0]⟩ _ rfl
  have hs := reachable_run hrun
  have hmi := (invariants _ _ rfl s hs).2.1
  have hleft := allLeft_of_loaded _ s hmi (by rw [hex]; rfl)
  have h := (final_counter _ _ rfl s hs (le_refl 1)).1 hleft
  simp only [pendingItems_sendAll, List.map_cons, List.map_nil, List.sum_cons, List.sum_nil,
    List.length_replicate, Nat.add_zero] at h ⊢
  have hw : wrapInt32 ((2147483648 : Nat) : Int) = -2147483648 := by decide
  rw [hw] at h
  exact ⟨sched, s, hrun, hleft, h, by rw [h]; decide⟩

/-- C5. In every run with at least one worker (the burst of the limiter is the
number of workers, line 24): at each increment by a worker `w` the limiter has
granted `w` more permits than `w` has counted items, so each increment has an
acquisition of its own by the same worker before it; no acquisition is ever
refused; at every point the increments, and the counter, are at most the number
of permits granted; and once all workers have left their loop the acquisitions
and the increments are equal in number. For the program as compiled that number
is 200, and an acquisition of one permit with burst 5 and a context that is
never cancelled succeeds. -/
theorem permit_before_count :
    (∀ (n : Nat) (batches : List (List Int)) (sched : List Action) (s : State),
        1 ≤ n → run ⟨n, sendAll batches⟩ sched = some s →
        (∀ w v t, (Event.add w v :: t) <:+ s.trace →
            t.countP (Event.isAddBy w) < t.countP (Event.isGrantBy w))
          ∧ s.trace.countP Event.isRefusal = 0
          ∧ s.trace.countP Event.isAcquire = s.trace.countP Event.isGrant
          ∧ s.trace.countP Event.isAdd ≤ s.trace.countP Event.isGrant
          ∧ s.counter ≤ s.trace.countP Event.isGrant
          ∧ (s.allLeft ⟨n, sendAll batches⟩ →
              s.trace.countP Event.isAcquire = s.trace.countP Event.isAdd))
    ∧ (∀ (sched : List Action) (s : State), run program sched = some s → s.allLeft program →
        s.trace.countP Event.isAcquire = 200 ∧ s.trace.countP Event.isGrant = 200
          ∧ s.trace.countP Event.isAdd = 200 ∧ s.counter = 200)
    ∧ limiterWait program.consumerCount 1 false = true := by
  have general : ∀ (cfg : Config) (bs : List (List Int)), cfg.ops = sendAll bs →
      ∀ (sched : List Action) (s : State), 1 ≤ cfg.consumerCount → run cfg sched = some s →
      (∀ w v t, (Event.add w v :: t) <:+ s.trace →
          t.countP (Event.isAddBy w) < t.countP (Event.isGrantBy w))
        ∧ s.trace.countP Event.isRefusal = 0
        ∧ s.trace.countP Event.isAcquire = s.trace.countP Event.isGrant
        ∧ s.trace.countP Event.isAdd ≤ s.trace.countP Event.isGrant
        ∧ s.counter ≤ s.trace.countP Event.isGrant
        ∧ (s.allLeft cfg → s.trace.countP Event.isAcquire = s.trace.countP Event.isAdd) := by
    intro cfg bs hops sched s hn hrun
    have hs := reachable_run hrun
    obtain ⟨-, -, htr, -, -, -⟩ := invariants cfg bs hops s hs
    have href := htr.granted hn
    have hacq := countP_acquire s.trace
    have hper := htr.permits
    refine ⟨?_, href, by omega, by omega, ?_, ?_⟩
    · intro w v t ht
      obtain ⟨s0, hs0, ht0⟩ := reachable_suffix cfg sched s hrun _ ht
      have hw := ((invariants cfg bs hops s0 hs0).2.2.2.2.1 w).permits hn
      rw [ht0] at hw
      simp only [List.countP_cons, Event.isGrantBy, Event.isAddBy, decide_True,
        Bool.false_eq_true, if_false, if_true] at hw
      omega
    · rw [htr.counter]
      have := wrapInt32_le (s.trace.countP Event.isAdd) (Int.ofNat_nonneg _)
      have h2 : ((s.trace.countP Event.isAdd : Nat) : Int) ≤ (s.trace.countP Event.isGrant : Nat) := by
        exact_mod_cast (by omega : s.trace.countP Event.isAdd ≤ s.trace.countP Event.isGrant)
      omega
    · intro hleft
      have := (all_left cfg bs hops s hs hn hleft).2.2.1
      omega
  refine ⟨fun n batches sched s hn hrun => general _ batches rfl sched s hn hrun, ?_, by decide⟩
  intro sched s hrun hleft
  have hs := reachable_run hrun
  obtain ⟨-, hz, hag, -, -, hfin⟩ := general program _ program_ops sched s (by decide) hrun
  have hadd := (all_left program _ program_ops s hs (by decide) hleft).2.2.2.2
  rw [program_items] at hadd
  have hc := (final_counter program _ program_ops s hs (by decide)).1 hleft
  rw [program_items] at hc
  have := hfin hleft
  exact ⟨by omega, by omega, hadd, hc⟩

/-- The program as compiled, run to its end with worker 0 doing all the work:
200 acquisitions, 200 permits, 200 increments. -/
theorem permit_before_count_witness :
    ∃ s, run program (sequentialSchedule program) = some s ∧ s.allLeft program
      ∧ s.trace.countP Event.isAcquire = 200 ∧ s.trace.countP Event.isGrant = 200
      ∧ s.trace.countP Event.isAdd = 200 ∧ s.counter = 200 := by
  have h : holdsAfter program (sequentialSchedule program)
      (fun s => decide (s.allLeft program)) = true := by decide!
  obtain ⟨s, hrun, hs⟩ := holdsAfter_spec h
  have hleft : s.allLeft program := by simpa using hs
  exact ⟨s, hrun, hleft, permit_before_count.2.1 _ s hrun hleft⟩

/-! ## The claims about the rate -/

theorem grants_isSome {b : Bucket} {ts : List ℚ} (h : (b.grants ts).isSome = true) :
    ∃ b', b.grants ts = some b' :=
  Option.isSome_iff_exists.mp h

/-- For the limiter of line 24, a bucket of capacity 5 that starts full and is
refilled at 95/60 tokens per second: whatever the times at which it grants
permits, in every window of 60 seconds, both ends included, it grants at most
100 = 95 + 5 of them. -/
theorem bucket_ceiling (ts : List ℚ) (b' : Bucket) (hg : mainLimiter.grants ts = some b')
    (a : ℚ) :
    mainLimiter.burst = 5 ∧ mainLimiter.rate = 95 / 60 ∧ mainLimiter.tokens = 5
      ∧ grantsIn a 60 ts ≤ 100 := by
  have h := grants_window ts mainLimiter b' hg (by norm_num [mainLimiter, newLimiter])
    (by norm_num [mainLimiter, newLimiter, program])
    (by norm_num [mainLimiter, newLimiter, program]) a 60 (by norm_num)
  have hb : mainLimiter.burst = 5 := by norm_num [mainLimiter, newLimiter, program]
  have hr : mainLimiter.rate = 95 / 60 := by norm_num [mainLimiter, newLimiter]
  have ht : mainLimiter.tokens = 5 := by norm_num [mainLimiter, newLimiter, program]
  rw [hb, hr] at h
  refine ⟨hb, hr, ht, ?_⟩
  have h' : ((grantsIn a 60 ts : Nat) : ℚ) ≤ ((100 : Nat) : ℚ) := by
    norm_num at h ⊢
    exact h
  exact_mod_cast h'

/-- C6, as the program has it. In every timed run of the program, with the limiter of line 24
(a bucket of capacity 5 that starts full and is refilled at 95/60 tokens per
second) deciding when `limiter.Wait` returns, and for every window of 60
seconds, both ends included: the permits granted in the window are at most
100 = 95 + 5; the items counted in the window are at most the permits granted
in it plus 5, one permit per worker that was granted before the window began,
hence at most 105, not 100. The times recorded are those of the returns of
`limiter.Wait` and of the `Add(1)`s of the run, the run without its times is a
run of the interleaving model, and every run of that model can be timed. -/
theorem rate_ceiling (sched : List (ℚ × Action)) (σ : Timed)
    (h : timedRun program sched = some σ) (a : ℚ) :
    (timedInit program).bucket = mainLimiter
      ∧ mainLimiter.burst = 5 ∧ mainLimiter.rate = 95 / 60 ∧ mainLimiter.tokens = 5
      ∧ run program (sched.map Prod.snd) = some σ.state
      ∧ mainLimiter.grants σ.grantTimes.reverse = some σ.bucket
      ∧ σ.grantTimes.length = σ.state.trace.countP Event.isAcquire
      ∧ σ.addTimes.length = σ.state.trace.countP Event.isAdd
      ∧ grantsIn a 60 σ.grantTimes ≤ 100
      ∧ grantsIn a 60 σ.addTimes ≤ grantsIn a 60 σ.grantTimes + 5
      ∧ grantsIn a 60 σ.addTimes ≤ 105
      ∧ (∀ (sched0 : List Action) (s : State), run program sched0 = some s →
          ∃ tsched σ', tsched.map Prod.snd = sched0 ∧ timedRun program tsched = some σ'
            ∧ σ'.state = s) := by
  obtain ⟨_, hB, _, _, hcG, hcA, hI4, _⟩ := timed_window program a 60 sched σ h
  have hB' : mainLimiter.grants σ.grantTimes.reverse = some σ.bucket := hB
  obtain ⟨hb, hr, ht, hG⟩ := bucket_ceiling _ _ hB' a
  rw [grantsIn_reverse] at hG
  have hN : program.consumerCount = 5 := rfl
  rw [hN] at hI4
  refine ⟨rfl, hb, hr, ht, timedRunFrom_runFrom program sched _ σ h, hB', hcG, hcA, hG, hI4,
    by omega, ?_⟩
  intro sched0 s hs
  exact timedRunFrom_exists program sched0 (timedInit program) s
    (by norm_num [timedInit, newLimiter]) (by norm_num [timedInit, newLimiter, program])
    (by norm_num [timedInit, newLimiter, program]) (by norm_num [timedInit, newLimiter]) hs

/-- The run `lateSchedule` reaches the first bound: 100 permits are granted
from 10 to 70 seconds. -/
theorem rate_ceiling_witness :
    ∃ σ, timedRun program lateSchedule = some σ ∧ grantsIn 10 60 σ.grantTimes = 100
      ∧ grantsIn 10 60 σ.grantTimes ≤ 100
      ∧ grantsIn 10 60 σ.addTimes ≤ grantsIn 10 60 σ.grantTimes + 5
      ∧ grantsIn 10 60 σ.addTimes ≤ 105 := by
  have hrun : timedHolds program lateSchedule
      (fun σ => decide (grantsIn 10 60 σ.grantTimes = 100)) = true := by decide!
  obtain ⟨σ, hσ, hp⟩ := timedHolds_spec hrun
  have h := rate_ceiling lateSchedule σ hσ 10
  exact ⟨σ, hσ, of_decide_eq_true hp, h.2.2.2.2.2.2.2.2.1, h.2.2.2.2.2.2.2.2.2.1,
    h.2.2.2.2.2.2.2.2.2.2.1⟩

/-- C6 as stated fails for the items counted: in the timed run `lateSchedule`
of the program the five workers are granted the five permits of the full
bucket at 0 seconds and count their items at 10 seconds; the bucket, full
again, grants five permits at 10 seconds and one every 12/19 seconds until 70
seconds. From 10 to 70 seconds 100 permits are granted and 105 items are
counted, more than the limit of 100 per minute. -/
theorem counts_exceed_ceiling :
    ∃ σ, timedRun program lateSchedule = some σ
      ∧ grantsIn 10 60 σ.grantTimes = 100 ∧ grantsIn 10 60 σ.addTimes = 105
      ∧ σ.state.counter = 105 ∧ σ.now = 70
      ∧ ¬ (grantsIn 10 60 σ.addTimes ≤ 100) := by
  have hrun : timedHolds program lateSchedule
      (fun σ => decide (grantsIn 10 60 σ.grantTimes = 100)
        && decide (grantsIn 10 60 σ.addTimes = 105)
        && decide (σ.state.counter = 105) && decide (σ.now = 70)) = true := by decide!
  obtain ⟨σ, hσ, hp⟩ := timedHolds_spec hrun
  simp only [Bool.and_eq_true, decide_eq_true_eq] at hp
  obtain ⟨⟨⟨h1, h2⟩, h3⟩, h4⟩ := hp
  exact ⟨σ, hσ, h1, h2, h3, h4, by omega⟩

/-- C7. For a bucket that starts full with capacity `burst` and is refilled at
`ceiling/60` tokens per second, the `total`-th permit (index `total - 1` of the
grant times) is granted no earlier than `(total - burst) / (ceiling/60)` seconds
after the start. For the limiter of the program and 200 permits that is
`195·60/95 = 2340/19` seconds, more than 120; for ceiling 6, burst 1 and 10
permits it is 90 seconds. -/
theorem rate_lower_bound :
    (∀ (ceiling : ℚ) (burst : Nat) (ts : List ℚ) (b' : Bucket), 0 < ceiling →
        (newLimiter (ceiling / 60) burst).grants ts = some b' →
        ∀ (n : Nat) (h : n < ts.length),
          (((n + 1 : Nat) : ℚ) - burst) / (ceiling / 60) ≤ ts[n])
    ∧ (((200 : Nat) : ℚ) - (5 : Nat)) / (95 / 60) = 2340 / 19
    ∧ (120 : ℚ) ≤ 2340 / 19
    ∧ (∀ (ts : List ℚ) (b' : Bucket), mainLimiter.grants ts = some b' →
        ∀ (h : 199 < ts.length), (2340 / 19 : ℚ) ≤ ts[199] ∧ (120 : ℚ) ≤ ts[199])
    ∧ (((10 : Nat) : ℚ) - (1 : Nat)) / (6 / 60) = 90
    ∧ (∀ (ts : List ℚ) (b' : Bucket), (newLimiter (6 / 60) 1).grants ts = some b' →
        ∀ (h : 9 < ts.length), (90 : ℚ) ≤ ts[9]) := by
  have general : ∀ (ceiling : ℚ) (burst : Nat) (ts : List ℚ) (b' : Bucket), 0 < ceiling →
      (newLimiter (ceiling / 60) burst).grants ts = some b' →
      ∀ (n : Nat) (h : n < ts.length),
        (((n + 1 : Nat) : ℚ) - burst) / (ceiling / 60) ≤ ts[n] := by
    intro ceiling burst ts b' hc hg n hn
    have h := grants_nth ts _ b' hg n hn
    simp only [newLimiter, sub_zero] at h
    have hpos : (0 : ℚ) < ceiling / 60 := by positivity
    rw [div_le_iff₀ hpos]
    push_cast
    linarith
  refine ⟨general, by norm_num, by norm_num, ?_, by norm_num, ?_⟩
  · intro ts b' hg h
    have := general 95 5 ts b' (by norm_num) hg 199 h
    norm_num at this
    exact ⟨this, by linarith⟩
  · intro ts b' hg h
    have := general 6 1 ts b' (by norm_num) hg 9 h
    norm_num at this
    exact this

/-- A bucket of capacity 1 refilled at 6 tokens per minute grants its third
permit at 20 seconds at the earliest. -/
theorem rate_lower_bound_witness :
    ∃ b', (newLimiter (6 / 60) 1).grants [0, 10, 20] = some b'
      ∧ ((((2 + 1 : Nat) : ℚ) - (1 : Nat)) / (6 / 60) ≤ ([0, 10, 20] : List ℚ)[2]) := by
  have h : ((newLimiter (6 / 60) 1).grants [0, 10, 20]).isSome = true := by
    norm_num [Bucket.grants, Bucket.grant, Bucket.tokensAt, newLimiter]
  obtain ⟨b', hb⟩ := grants_isSome h
  exact ⟨b', hb, rate_lower_bound.1 6 1 _ b' (by norm_num) hb 2 (by decide)⟩

/-- C8. In every run, whatever the number `n` of workers (5 in the program) and
the batches: a worker hands over at most one done signal; when it does, the
channel has been closed, the worker has counted every item of every batch it
received and has not signalled before; once `main` has `n` signals the counter
and the number of increments never change again; `main` loads the counter only
after `n` signals and the value it loads is the value of the counter from then
on; the summary is written at most once, only after the `n` signals and the
load, with the loaded value; it has been written exactly once when nothing can
move any more; and no run is longer than the rank of the initial state. -/
theorem done_signalling (n : Nat) (batches : List (List Int)) (sched : List Action) (s : State)
    (hrun : run ⟨n, sendAll batches⟩ sched = some s) :
    (∀ w, s.trace.countP (Event.isDoneBy w) ≤ 1)
      ∧ s.trace.countP Event.isDone ≤ n
      ∧ (∀ w t, (Event.done w :: t) <:+ s.trace →
          Event.closed ∈ t ∧ t.countP (Event.isAddBy w) = receivedItems w t
            ∧ t.countP (Event.isDoneBy w) = 0)
      ∧ (s.trace.countP Event.isDone = n → ∀ sched' s',
          runFrom ⟨n, sendAll batches⟩ s sched' = some s' →
          s'.counter = s.counter ∧ s'.trace.countP Event.isAdd = s.trace.countP Event.isAdd)
      ∧ (∀ v t, (Event.load v :: t) <:+ s.trace →
          t.countP Event.isDone = n ∧ v = s.counter)
      ∧ s.trace.countP Event.isSummary ≤ 1
      ∧ (∀ v t, (Event.logSummary v :: t) <:+ s.trace →
          t.countP Event.isDone = n ∧ Event.load v ∈ t ∧ v = s.counter)
      ∧ (s.terminal ⟨n, sendAll batches⟩ →
          s.trace.countP Event.isSummary = 1 ∧ s.trace.countP Event.isDone = n)
      ∧ sched.length ≤ init.rank ⟨n, sendAll batches⟩ := by
  have hs := reachable_run hrun
  have inv := invariants ⟨n, sendAll batches⟩ batches rfl
  obtain ⟨hch, hmi, htr, hr, hw, -⟩ := inv s hs
  refine ⟨?_, ?_, ?_, ?_, ?_, ?_, ?_, ?_, ?_⟩
  · intro w
    rw [(hw w).done]
    unfold valueAt
    cases s.workers[w]? with
    | none => simp
    | some pc => exact gone_le_one pc
  · rw [htr.dones]
    have := total_le_length _ gone_le_one s.workers
    have := length_le _ s hmi
    simp only at this
    omega
  · intro w t ht
    obtain ⟨s0, hs0, ht0⟩ := reachable_suffix _ sched s hrun _ ht
    obtain ⟨hch0, -, htr0, -, hw0, -⟩ := inv s0 hs0
    have hd := (hw0 w).done
    have hi := (hw0 w).items
    rw [ht0] at hd hi
    simp only [List.countP_cons, Event.isDoneBy, Event.isAddBy, decide_True, if_true,
      Bool.false_eq_true, if_false, Nat.add_zero] at hd hi
    have hle : valueAt WorkerPc.gone s0.workers w ≤ 1 := by
      unfold valueAt
      cases s0.workers[w]? with
      | none => simp
      | some pc => exact gone_le_one pc
    have hex := valueAt_gone_one (by omega : valueAt WorkerPc.gone s0.workers w = 1)
    have hcl : s0.closed = true := by
      by_contra hcl
      have h1 := hch0.leftClosed (by simpa using hcl)
      have h2 := total_get_le WorkerPc.left s0.workers w _ hex
      simp only [WorkerPc.left] at h2
      omega
    have hc := htr0.closes
    rw [ht0, hcl] at hc
    simp only [List.countP_cons, Event.isClose, Bool.false_eq_true, if_false, if_true,
      Nat.add_zero] at hc
    refine ⟨mem_closed_of_countP (by omega), ?_, by omega⟩
    simp only [valueAt, hex, WorkerPc.todo, receivedItems, List.map_cons, List.sum_cons,
      Event.itemsFor, Nat.add_zero, Nat.zero_add] at hi
    simpa [receivedItems] using hi
  · intro hd sched' s' hrun'
    exact frozen _ batches rfl s hs hd sched' s' hrun'
  · intro v t ht
    obtain ⟨s0, hs0, ht0⟩ := reachable_suffix _ sched s hrun _ ht
    obtain ⟨-, hmi0, htr0, hr0, -, -⟩ := inv s0 hs0
    have hl0 := loaded_of_mem hr0 (by rw [ht0]; exact List.mem_cons_self _ _)
    have hleft := allLeft_of_loaded _ s0 hmi0 hl0
    have hd := htr0.dones
    rw [ht0] at hd
    simp only [List.countP_cons, Event.isDone, Bool.false_eq_true, if_false, Nat.add_zero] at hd
    have hg : total WorkerPc.gone s0.workers = n := by
      unfold MainInv at hmi0
      cases hmain : s0.main <;> rw [hmain] at hmi0 hl0 <;> simp only [MainPc.loaded] at hl0 <;>
        first | omega | exact hmi0.2.1 | exact hmi0.2
    exact ⟨by omega, hr.loadValue v (mem_of_suffix_cons ht)⟩
  · rw [hr.summaryCount]
    cases s.main <;> simp [MainPc.over]
  · intro v t ht
    obtain ⟨s0, hs0, ht0⟩ := reachable_suffix _ sched s hrun _ ht
    obtain ⟨-, hmi0, htr0, hr0, -, -⟩ := inv s0 hs0
    have hsum := hr0.summaryCount
    rw [ht0] at hsum
    simp only [List.countP_cons, Event.isSummary, if_true] at hsum
    have hex : s0.main = MainPc.exited := by
      cases hmain : s0.main <;> rw [hmain] at hsum <;> simp only [MainPc.over] at hsum <;>
        first | omega | rfl
    have hd := htr0.dones
    rw [ht0] at hd
    simp only [List.countP_cons, Event.isDone, Bool.false_eq_true, if_false, Nat.add_zero] at hd
    have hg : total WorkerPc.gone s0.workers = n := by
      simp only [MainInv, hex] at hmi0
      exact hmi0.2
    have hload := hr0.summaryValue v (by rw [ht0]; exact List.mem_cons_self _ _)
    rw [ht0] at hload
    simp only [List.mem_cons] at hload
    rcases hload with hload | hload
    · cases hload
    · exact ⟨by omega, hload,
        hr.loadValue v ((suffix_of_suffix_cons ht).subset hload)⟩
  · intro hterm
    have hex := terminal_exited _ batches rfl s hs hterm
    have hsum := hr.summaryCount
    have hd := htr.dones
    simp only [MainInv, hex] at hmi
    rw [hex] at hsum
    exact ⟨hsum, by rw [hd]; exact hmi.2⟩
  · have := runFrom_rank _ batches rfl sched init s (reachable_init _) hrun
    omega

/-- The program as compiled, run to its end with worker 0 doing all the work:
five done signals, one summary, and a schedule within the bound. -/
theorem done_signalling_witness :
    ∃ s, run program (sequentialSchedule program) = some s
      ∧ s.trace.countP Event.isDone = 5 ∧ s.trace.countP Event.isSummary = 1
      ∧ (sequentialSchedule program).length ≤ init.rank program := by
  have h : holdsAfter program (sequentialSchedule program)
      (fun s => decide (s.main = MainPc.exited)) = true := by decide!
  obtain ⟨s, hrun, hs⟩ := holdsAfter_spec h
  have hex : s.main = MainPc.exited := by simpa using hs
  have hrun' : run ⟨5, sendAll ((List.range 20).map decade)⟩ (sequentialSchedule program)
      = some s := by
    have : program = ⟨5, sendAll ((List.range 20).map decade)⟩ := by
      show Config.mk 5 programOps = _
      rw [programOps_eq]
    rw [← this]; exact hrun
  have hd := done_signalling 5 _ _ s hrun'
  have hconf : program = ⟨5, sendAll ((List.range 20).map decade)⟩ := by
    show Config.mk 5 programOps = _
    rw [programOps_eq]
  have ht := hd.2.2.2.2.2.2.2.1 (by rw [← hconf]; exact terminal_of_exited program s hex)
  exact ⟨s, hrun, ht.2, ht.1, by rw [hconf]; exact hd.2.2.2.2.2.2.2.2⟩

theorem holding_le_todo (ws : List WorkerPc) :
    total WorkerPc.holding ws ≤ total WorkerPc.todo ws := by
  induction ws with
  | nil => simp [total]
  | cons pc ws ih =>
    simp only [total, List.map_cons, List.sum_cons] at ih ⊢
    cases pc <;> simp only [WorkerPc.holding, WorkerPc.todo] <;> omega

/-- C9. With a total of 0 the producer sends no batch and only closes the
channel. In every run of five workers against that producer nothing is ever
sent, acquired or counted, the counter stays 0, no worker signals done twice,
any value loaded or reported is 0, and the run has at most 36 steps. When
nothing can move any more `main` has returned, each of the five workers has
handed over exactly one done signal, five in all, and the summary has been
written exactly once, with total 0. Such a run exists. -/
theorem empty_workload :
    (∀ fuel, 1 ≤ fuel → producer 0 fuel = some [ChanOp.close])
    ∧ (∀ (sched : List Action) (s : State), run ⟨5, [ChanOp.close]⟩ sched = some s →
        s.trace.countP Event.isSent = 0 ∧ s.trace.countP Event.isAcquire = 0
          ∧ s.trace.countP Event.isAdd = 0 ∧ s.counter = 0
          ∧ (∀ w, s.trace.countP (Event.isDoneBy w) ≤ 1)
          ∧ (∀ v, Event.load v ∈ s.trace → v = 0)
          ∧ (∀ v, Event.logSummary v ∈ s.trace → v = 0)
          ∧ sched.length ≤ 36
          ∧ (s.terminal ⟨5, [ChanOp.close]⟩ →
              s.main = MainPc.exited ∧ s.trace.countP Event.isDone = 5
                ∧ (∀ w, w < 5 → s.trace.countP (Event.isDoneBy w) = 1)
                ∧ s.trace.countP Event.isSummary = 1 ∧ Event.logSummary 0 ∈ s.trace))
    ∧ (∃ sched s, run ⟨5, [ChanOp.close]⟩ sched = some s ∧ s.terminal ⟨5, [ChanOp.close]⟩) := by
  have hops : (⟨5, [ChanOp.close]⟩ : Config).ops = sendAll [] := rfl
  refine ⟨?_, ?_, ?_⟩
  · intro fuel hfuel
    have := producer_eq 0 (le_refl _) (by decide) fuel (by simpa using hfuel)
    simpa [sendAll] using this
  · intro sched s hrun
    have hs := reachable_run hrun
    obtain ⟨hch, hmi, htr, hr, hw, -⟩ := invariants _ [] hops s hs
    have hsent := htr.sends
    have hacc := htr.account
    have hper := htr.permits
    have hcnt := htr.counter
    have hht := holding_le_todo s.workers
    simp only [sentBatches, pendingItems, List.length_nil] at hsent hacc
    have hadd : s.trace.countP Event.isAdd = 0 := by omega
    have hc0 : s.counter = 0 := by rw [hcnt, hadd]; decide
    have hload : ∀ v, Event.load v ∈ s.trace → v = 0 := fun v hv => by
      rw [hr.loadValue v hv, hc0]
    refine ⟨by omega, by omega, hadd, hc0, ?_, hload,
      fun v hv => hload v (hr.summaryValue v hv), ?_, ?_⟩
    · intro w
      rw [(hw w).done]
      unfold valueAt
      cases s.workers[w]? with
      | none => simp
      | some pc => exact gone_le_one pc
    · have := runFrom_rank _ [] hops sched init s (reachable_init _) hrun
      have h36 : init.rank ⟨5, [ChanOp.close]⟩ = 36 := by decide
      omega
    · intro hterm
      have hex := terminal_exited _ [] hops s hs hterm
      have hsum := hr.summaryCount
      have hd := htr.dones
      simp only [MainInv, hex] at hmi
      rw [hex] at hsum
      simp only [MainPc.over] at hsum
      refine ⟨hex, by rw [hd]; exact hmi.2, ?_, hsum, ?_⟩
      · intro w hlt
        rw [(hw w).done]
        have hlen : w < s.workers.length := by rw [hmi.1]; exact hlt
        have hget : s.workers[w]? = some s.workers[w] := List.getElem?_eq_getElem hlen
        have := all_gone (by rw [hmi.2, hmi.1]) hget
        simp [valueAt, hget, this, WorkerPc.gone]
      · obtain ⟨e, he, hp⟩ := List.countP_pos_iff.mp (by omega : 0 < s.trace.countP Event.isSummary)
        cases e <;> simp [Event.isSummary] at hp
        case logSummary v =>
          have := hload v (hr.summaryValue v he)
          rw [this] at he
          exact he
  · obtain ⟨sched, s, hrun, hex⟩ := complete_run ⟨5, [ChanOp.close]⟩ [] hops
    exact ⟨sched, s, hrun, terminal_of_exited _ s hex⟩

/-- The empty workload run to its end: five done signals and the summary with
total 0. -/
theorem empty_workload_witness :
    ∃ s, run ⟨5, [ChanOp.close]⟩ (sequentialSchedule ⟨5, [ChanOp.close]⟩) = some s
      ∧ s.main = MainPc.exited ∧ s.trace.countP Event.isDone = 5
      ∧ s.trace.countP Event.isSummary = 1 ∧ Event.logSummary 0 ∈ s.trace := by
  have h : holdsAfter ⟨5, [ChanOp.close]⟩ (sequentialSchedule ⟨5, [ChanOp.close]⟩)
      (fun s => decide (s.main = MainPc.exited)) = true := by decide
  obtain ⟨s, hrun, hs⟩ := holdsAfter_spec h
  have hex : s.main = MainPc.exited := by simpa using hs
  have ht := (empty_workload.2.1 _ s hrun).2.2.2.2.2.2.2.2
    (terminal_of_exited _ s hex)
  exact ⟨s, hrun, ht.1, ht.2.1, ht.2.2.2.1, ht.2.2.2.2⟩

/-! ### The progress lines of a run -/

theorem isMilestone_iff (v : Int) : isMilestone v = true ↔ v < 10 ∨ v % 5 = 0 := by
  simp [isMilestone, tmod_five]

theorem count_progressValues (v : Int) (t : List Event) :
    (progressValues t).count v = t.countP (Event.isProgress v) := by
  induction t with
  | nil => rfl
  | cons e t ih =>
    cases e <;> simp [progressValues, Event.isProgress, List.countP_cons, ih, List.count_cons]

theorem step_progressValues (cfg : Config) (s s' : State) (a : Action)
    (h : step cfg s a = some s')
    (hne : progressValues s'.trace ≠ progressValues s.trace) :
    ∃ w c rest, a = Action.worker w ∧ s.workers[w]? = some (WorkerPc.counted c rest) := by
  unfold step at h
  split at h
  · simp at h
  · cases a with
    | main =>
      simp only [stepMain] at h
      split at h <;> (try split at h) <;> simp at h <;> subst h <;>
        simp [progressValues] at hne
    | producer =>
      simp only [stepProducer] at h
      split at h <;> (try split at h) <;> simp at h <;> subst h <;>
        simp [progressValues] at hne
    | send w =>
      simp only [stepSend] at h
      split at h <;> (try split at h) <;> simp at h <;> subst h <;>
        simp [progressValues] at hne
    | done w =>
      simp only [stepDone] at h
      split at h <;> (try split at h) <;> simp at h <;> subst h <;>
        simp [progressValues] at hne
    | worker w =>
      simp only [stepWorker] at h
      split at h
      case h_6 c rest hw => exact ⟨w, c, rest, rfl, hw⟩
      all_goals (try split at h) <;> simp at h <;> subst h <;> simp [progressValues] at hne

/-- The values a complete run of 200 items reports. -/
theorem milestones_count (v : Int) :
    ([1, 2, 3, 4, 5, 6, 7, 8, 9] ++ [10, 15, 20, 25, 30, 35, 40, 45, 50, 55, 60, 65, 70, 75, 80, 85, 90, 95, 100]
          ++ [105, 110, 115, 120, 125, 130, 135, 140, 145, 150, 155, 160, 165, 170, 175, 180, 185, 190,
            195, 200] : List Int).count v
      = if isMilestone v = true ∧ 1 ≤ v ∧ v ≤ ((200 : Nat) : Int) then 1 else 0 := by
  have hl : ([1, 2, 3, 4, 5, 6, 7, 8, 9] ++ [10, 15, 20, 25, 30, 35, 40, 45, 50, 55, 60, 65, 70, 75, 80, 85, 90, 95, 100]
          ++ [105, 110, 115, 120, 125, 130, 135, 140, 145, 150, 155, 160, 165, 170, 175, 180, 185, 190,
            195, 200] : List Int)
      = (List.range' 1 9).map (fun (k : Nat) => (k : Int))
        ++ (List.range' 2 39).map (fun (k : Nat) => 5 * (k : Int)) := by decide
  have hnd : ([1, 2, 3, 4, 5, 6, 7, 8, 9] ++ [10, 15, 20, 25, 30, 35, 40, 45, 50, 55, 60, 65, 70, 75, 80, 85, 90, 95, 100]
          ++ [105, 110, 115, 120, 125, 130, 135, 140, 145, 150, 155, 160, 165, 170, 175, 180, 185, 190,
            195, 200] : List Int).Nodup := by decide
  rw [List.count_eq_of_nodup hnd, hl]
  have hmem : v ∈ (List.range' 1 9).map (fun (k : Nat) => (k : Int))
        ++ (List.range' 2 39).map (fun (k : Nat) => 5 * (k : Int))
      ↔ isMilestone v = true ∧ 1 ≤ v ∧ v ≤ ((200 : Nat) : Int) := by
    rw [isMilestone_iff]
    simp only [List.mem_append, List.mem_map, List.mem_range'_1]
    constructor
    · rintro (⟨k, hk, rfl⟩ | ⟨k, hk, rfl⟩)
      · refine ⟨Or.inl (by omega), by omega, by push_cast; omega⟩
      · refine ⟨Or.inr (by omega), by omega, by push_cast; omega⟩
    · rintro ⟨hm, h1, h2⟩
      push_cast at h2
      by_cases h10 : v < 10
      · exact Or.inl ⟨v.toNat, by omega, by omega⟩
      · rcases hm with hm | hm
        · omega
        · exact Or.inr ⟨(v / 5).toNat, by omega, by omega⟩
  by_cases h : isMilestone v = true ∧ 1 ≤ v ∧ v ≤ ((200 : Nat) : Int)
  · rw [if_pos (hmem.mpr h), if_pos h]
  · rw [if_neg (fun hc => h (hmem.mp hc)), if_neg h]

/-- C10. A worker that has counted an item and got the new value `c` of the
counter from `Add(1)` writes a progress line next exactly if `c < 10` or
`c mod 5 = 0`, and the line reports `c`; no other step writes a progress line.
In every run of the program as compiled, once all workers have left their loop,
the progress lines report exactly the values 1 to 9 and 10, 15, ..., 200, each
once, 48 lines in all, in whatever order the interleaving gave them. -/
theorem progress_milestones :
    (∀ (cfg : Config) (s : State) (w : Nat) (rest : List Int),
        s.main ≠ MainPc.exited → s.workers[w]? = some (WorkerPc.acquired rest) →
        ∃ s', step cfg s (Action.worker w) = some s'
          ∧ s'.counter = wrapInt32 (s.counter + 1)
          ∧ s'.workers[w]? = some (WorkerPc.counted (wrapInt32 (s.counter + 1)) rest))
    ∧ (∀ (cfg : Config) (s : State) (w : Nat) (c : Int) (rest : List Int),
        s.main ≠ MainPc.exited → s.workers[w]? = some (WorkerPc.counted c rest) →
        ∃ s', step cfg s (Action.worker w) = some s'
          ∧ progressValues s'.trace
              = (if c < 10 ∨ c % 5 = 0 then [c] else []) ++ progressValues s.trace)
    ∧ (∀ (cfg : Config) (s s' : State) (a : Action), step cfg s a = some s' →
        progressValues s'.trace ≠ progressValues s.trace →
        ∃ w c rest, a = Action.worker w ∧ s.workers[w]? = some (WorkerPc.counted c rest))
    ∧ (∀ (sched : List Action) (s : State), run program sched = some s → s.allLeft program →
        (progressValues s.trace).Perm
          ([1, 2, 3, 4, 5, 6, 7, 8, 9] ++ [10, 15, 20, 25, 30, 35, 40, 45, 50, 55, 60, 65, 70, 75, 80, 85, 90, 95, 100]
          ++ [105, 110, 115, 120, 125, 130, 135, 140, 145, 150, 155, 160, 165, 170, 175, 180, 185, 190,
            195, 200] : List Int)
        ∧ (progressValues s.trace).length = 48) := by
  refine ⟨?_, ?_, step_progressValues, ?_⟩
  · intro cfg s w rest hne hw
    have hlt : w < s.workers.length := by
      rcases Nat.lt_or_ge w s.workers.length with h | h
      · exact h
      · rw [List.getElem?_eq_none h] at hw; cases hw
    refine ⟨{ s with workers := s.workers.set w
                                  (WorkerPc.counted (wrapInt32 (s.counter + 1)) rest)
                     counter := wrapInt32 (s.counter + 1)
                     trace := Event.add w (wrapInt32 (s.counter + 1)) :: s.trace },
      ?_, rfl, ?_⟩
    · simp only [step, if_neg hne, stepWorker, hw]
    · simp [List.getElem?_set_self hlt]
  · intro cfg s w c rest hne hw
    refine ⟨{ s with workers := s.workers.set w (WorkerPc.item rest)
                     trace := if isMilestone c then Event.logProcessed c :: s.trace
                              else s.trace },
      by simp only [step, if_neg hne, stepWorker, hw], ?_⟩
    by_cases hm : isMilestone c = true
    · have := (isMilestone_iff c).mp hm
      simp only [hm, if_true, progressValues, if_pos this, List.singleton_append]
    · have : ¬ (c < 10 ∨ c % 5 = 0) := fun h => hm ((isMilestone_iff c).mpr h)
      simp only [hm, if_neg this, List.nil_append, Bool.false_eq_true, if_false]
  · intro sched s hrun hleft
    have hs := reachable_run hrun
    have hprog := (invariants program _ program_ops s hs).2.2.2.2.2
      (by rw [program_items]; decide)
    obtain ⟨-, -, -, hrep, hadd⟩ := all_left program _ program_ops s hs (by decide) hleft
    rw [program_items] at hadd
    have hperm : (progressValues s.trace).Perm
        ([1, 2, 3, 4, 5, 6, 7, 8, 9] ++ [10, 15, 20, 25, 30, 35, 40, 45, 50, 55, 60, 65, 70, 75, 80, 85, 90, 95, 100]
          ++ [105, 110, 115, 120, 125, 130, 135, 140, 145, 150, 155, 160, 165, 170, 175, 180, 185, 190,
            195, 200] : List Int) := by
      rw [List.perm_iff_count]
      intro v
      have := hprog v
      rw [hrep v, hadd, Nat.add_zero] at this
      rw [count_progressValues, this, milestones_count]
    exact ⟨hperm, by rw [hperm.length_eq]; rfl⟩

/-- The program as compiled, run to its end with worker 0 doing all the work:
48 progress lines. -/
theorem progress_milestones_witness :
    ∃ s, run program (sequentialSchedule program) = some s ∧ s.allLeft program
      ∧ (progressValues s.trace).length = 48 := by
  have h : holdsAfter program (sequentialSchedule program)
      (fun s => decide (s.allLeft program)) = true := by decide!
  obtain ⟨s, hrun, hs⟩ := holdsAfter_spec h
  have hleft : s.allLeft program := by simpa using hs
  exact ⟨s, hrun, hleft, (progress_milestones.2.2.2 _ s hrun hleft).2⟩

end RateLimit
